import Mathlib

set_option maxRecDepth 40000
set_option maxHeartbeats 2000000
set_option linter.unusedVariables false
set_option linter.deprecated false

/-!
Verification of the screenplay parsing engine of the movai-bk repository.

The JavaScript parser classes are shallowly embedded: strings are `String`
(processed through their `List Char` data), regular expressions are hand
translated to executable matchers with the same backtracking semantics, and
the stateful line loops become structural/well-founded recursions over the
line streams.  Namespaces mirror the source classes:

* `HybridScriptParser`   — src/modules/scripts/parsers/page.parser.js
* `DocumentBasedScriptParser` — src/modules/scripts/parsers/document.parser.js
* `PDFScriptParser`      — the PDF parser variant (unnamed source part_001)

Shared JavaScript string primitives (trim, split, `String.replace` with a
global fixed pattern, …) live in the `Js` namespace.
-/

namespace Js

/-- The apostrophe character, kept as a named constant. -/
def apos : Char := Char.ofNat 39

/-- JavaScript `\s` (and the `String.prototype.trim` white-space set):
ASCII white space plus the Unicode space characters and BOM. -/
def jsWs (c : Char) : Bool :=
  c = ' ' || c = '\t' || c = '\n' || c = '\r' ||
  c = Char.ofNat 0x0b || c = Char.ofNat 0x0c ||
  c = Char.ofNat 0xa0 || c = Char.ofNat 0x1680 ||
  (Char.ofNat 0x2000 ≤ c && c ≤ Char.ofNat 0x200a) ||
  c = Char.ofNat 0x2028 || c = Char.ofNat 0x2029 ||
  c = Char.ofNat 0x202f || c = Char.ofNat 0x205f ||
  c = Char.ofNat 0x3000 || c = Char.ofNat 0xfeff

/-- Trim JavaScript white space from both ends of a character list. -/
def trimL (l : List Char) : List Char :=
  ((l.dropWhile jsWs).reverse.dropWhile jsWs).reverse

/-- `String.prototype.trim`. -/
def trimS (s : String) : String := ⟨trimL s.data⟩

/-- `String.prototype.split(sep)` for a single-character separator. -/
def splitChar (sep : Char) : List Char → List (List Char)
  | [] => [[]]
  | c :: rest =>
    if c = sep then [] :: splitChar sep rest
    else
      match splitChar sep rest with
      | t :: ts => (c :: t) :: ts
      | [] => [[c]]

/-- String-level `split('\n')`. -/
def splitNl (s : String) : List String :=
  (splitChar '\n' s.data).map (fun l => (⟨l⟩ : String))

/-- `Array.prototype.join(sep)`. -/
def joinSep (sep : String) : List String → String
  | [] => ""
  | x :: xs => xs.foldl (fun acc y => acc ++ sep ++ y) x

/-- Substring test, `String.prototype.includes`. -/
def occursB (pat : List Char) : List Char → Bool
  | [] => pat.isEmpty
  | c :: rest => pat.isPrefixOf (c :: rest) || occursB pat rest

/-- Structural worker for `replaceAll`; `fuel` is an upper bound on the
remaining input length, so the exhausted case is unreachable from the
wrapper. -/
def replaceAllGo (pat rep : List Char) : Nat → List Char → List Char
  | 0, _ => []
  | fuel + 1, s =>
    if pat.isPrefixOf s then rep ++ replaceAllGo pat rep fuel (s.drop pat.length)
    else
      match s with
      | [] => []
      | c :: rest => c :: replaceAllGo pat rep fuel rest

/-- Global replacement of a fixed (non-empty) pattern,
`String.prototype.replace(/pat/g, rep)` for a literal pattern. -/
def replaceAll (pat rep : List Char) (s : List Char) : List Char :=
  if pat = [] then s else replaceAllGo pat rep s.length s

theorem dropWhile_length_le (p : Char → Bool) (l : List Char) :
    (l.dropWhile p).length ≤ l.length := by
  induction l with
  | nil => simp
  | cons c rest ih =>
    by_cases hc : p c
    · simp only [List.dropWhile, hc]
      simp; omega
    · simp [List.dropWhile, hc]

/-- Collapse every JavaScript white-space run to a single space,
`String.prototype.replace(/\s+/g, ' ')`: all but the last character of a
white-space run are dropped, the last becomes `' '`. -/
def collapseWs : List Char → List Char
  | [] => []
  | c :: rest =>
    if jsWs c then
      match rest with
      | [] => [' ']
      | d :: _ => if jsWs d then collapseWs rest else ' ' :: collapseWs rest
    else c :: collapseWs rest

/-- Characters after the first `')'`, if any. -/
def findClose : List Char → Option (List Char)
  | [] => none
  | c :: rest => if c = ')' then some rest else findClose rest

theorem findClose_length {l r : List Char} (h : findClose l = some r) :
    r.length < l.length := by
  induction l with
  | nil => simp [findClose] at h
  | cons c rest ih =>
    by_cases hc : c = ')'
    · simp [findClose, hc] at h
      subst h; simp
    · simp [findClose, hc] at h
      have := ih h
      simp; omega

/-- Structural worker for `stripParens` (fuel bounds the input length). -/
def stripParensGo : Nat → List Char → List Char
  | 0, _ => []
  | fuel + 1, s =>
    match s with
    | [] => []
    | c :: rest =>
      if c = '(' then
        match findClose rest with
        | some rest2 => stripParensGo fuel rest2
        | none => c :: stripParensGo fuel rest
      else c :: stripParensGo fuel rest

/-- `String.prototype.replace(/\([^)]*\)/g, '')`: drop every parenthesized
group running to the nearest `')'`. -/
def stripParens (s : List Char) : List Char :=
  stripParensGo s.length s

/-- The suffix after the last `'\n'` of a list, if the list has one. -/
def afterLastNl : List Char → Option (List Char)
  | [] => none
  | c :: rest =>
    match afterLastNl rest with
    | some r => some r
    | none => if c = '\n' then some rest else none

theorem afterLastNl_length {l r : List Char} (h : afterLastNl l = some r) :
    r.length < l.length := by
  induction l with
  | nil => simp [afterLastNl] at h
  | cons c rest ih =>
    simp only [afterLastNl] at h
    cases hr : afterLastNl rest with
    | some r2 =>
      rw [hr] at h
      cases h
      have := ih hr
      simp; omega
    | none =>
      rw [hr] at h
      by_cases hc : c = '\n'
      · simp [hc] at h
        cases h; simp
      · simp [hc] at h

/-- Structural worker for `replaceWsNl` (fuel bounds the input length). -/
def replaceWsNlGo : Nat → List Char → List Char
  | 0, _ => []
  | fuel + 1, s =>
    match s with
    | [] => []
    | c :: rest =>
      if jsWs c then
        match afterLastNl (rest.takeWhile jsWs) with
        | some after =>
          '\n' :: replaceWsNlGo fuel (after ++ rest.drop (rest.takeWhile jsWs).length)
        | none => c :: replaceWsNlGo fuel rest
      else c :: replaceWsNlGo fuel rest

/-- `String.prototype.replace(/\s+\n/g, '\n')`: in every maximal white-space
run containing a `'\n'` past its first character, the run up to (and
including) its last `'\n'` is replaced by a single `'\n'`; scanning resumes
right after that `'\n'`. -/
def replaceWsNl (s : List Char) : List Char :=
  replaceWsNlGo s.length s

/-- `c` is an ASCII word character, JavaScript `\w`. -/
def isWordChar (c : Char) : Bool := c.isAlpha || c.isDigit || c = '_'

/-- ASCII lower-casing of a character list (`String.prototype.toLowerCase`
restricted to the ASCII letters appearing in the sources). -/
def lowerL (l : List Char) : List Char := l.map Char.toLower

/-- ASCII upper-casing. -/
def upperL (l : List Char) : List Char := l.map Char.toUpper

/-- Case-insensitive literal match at the head of `s`; returns the rest. -/
def ciStrip (pat : List Char) (s : List Char) : Option (List Char) :=
  match pat, s with
  | [], s => some s
  | _ :: _, [] => none
  | p :: ps, c :: cs => if c.toUpper = p.toUpper then ciStrip ps cs else none

end Js

namespace Js

theorem stripParensGo_succ_nil (fuel : Nat) :
    stripParensGo (fuel + 1) [] = [] := rfl

theorem stripParensGo_succ_cons (fuel : Nat) (c : Char) (rest : List Char) :
    stripParensGo (fuel + 1) (c :: rest) =
    (if c = '(' then
       match findClose rest with
       | some rest2 => stripParensGo fuel rest2
       | none => c :: stripParensGo fuel rest
     else c :: stripParensGo fuel rest) := rfl

theorem stripParensGo_fuel : ∀ f1 f2 (s : List Char), s.length ≤ f1 →
    s.length ≤ f2 → stripParensGo f1 s = stripParensGo f2 s := by
  intro f1
  induction f1 with
  | zero =>
    intro f2 s h1 h2
    have hs : s = [] := List.length_eq_zero.mp (by omega)
    subst hs
    cases f2 <;> rfl
  | succ f1 ih =>
    intro f2 s h1 h2
    cases s with
    | nil => cases f2 <;> rfl
    | cons c rest =>
      cases f2 with
      | zero => simp at h2
      | succ f2 =>
        rw [stripParensGo_succ_cons, stripParensGo_succ_cons]
        simp only [List.length_cons] at h1 h2
        by_cases hc : c = '('
        · rw [if_pos hc, if_pos hc]
          cases hfc : findClose rest with
          | some rest2 =>
            have := findClose_length hfc
            exact ih f2 rest2 (by omega) (by omega)
          | none =>
            rw [ih f2 rest (by omega) (by omega)]
        · rw [if_neg hc, if_neg hc, ih f2 rest (by omega) (by omega)]

theorem stripParens_nil : stripParens [] = [] := rfl

theorem stripParens_cons {c : Char} (rest : List Char) (hc : c ≠ '(') :
    stripParens (c :: rest) = c :: stripParens rest := by
  show stripParensGo (rest.length + 1) (c :: rest) = c :: stripParens rest
  rw [stripParensGo_succ_cons, if_neg hc, stripParens]

theorem stripParens_open (rest : List Char) :
    stripParens ('(' :: rest) =
      (match findClose rest with
       | some rest2 => stripParens rest2
       | none => '(' :: stripParens rest) := by
  show stripParensGo (rest.length + 1) ('(' :: rest) = _
  rw [stripParensGo_succ_cons, if_pos rfl]
  cases hfc : findClose rest with
  | some rest2 =>
    have := findClose_length hfc
    exact stripParensGo_fuel _ _ _ (by omega) le_rfl
  | none =>
    rw [stripParens]

theorem stripParens_id {s : List Char} (h : '(' ∉ s) : stripParens s = s := by
  induction s with
  | nil => rfl
  | cons c rest ih =>
    simp only [List.mem_cons] at h
    push_neg at h
    rw [stripParens_cons rest (fun hc => h.1 hc.symm), ih h.2]

theorem findClose_append {ann : List Char} (tail : List Char) (h : ')' ∉ ann) :
    findClose (ann ++ ')' :: tail) = some tail := by
  induction ann with
  | nil => simp [findClose]
  | cons c rest ih =>
    simp only [List.mem_cons] at h
    push_neg at h
    simp only [List.cons_append, findClose]
    rw [if_neg (fun hc => h.1 hc.symm)]
    exact ih h.2

theorem stripParens_trailing_group {name ann : List Char}
    (hname : '(' ∉ name) (hann : ')' ∉ ann) :
    stripParens (name ++ (' ' :: '(' :: (ann ++ [')']))) = name ++ [' '] := by
  induction name with
  | nil =>
    simp only [List.nil_append]
    rw [stripParens_cons _ (by decide)]
    rw [stripParens_open]
    rw [findClose_append [] hann]
    rfl
  | cons c rest ih =>
    simp only [List.mem_cons] at hname
    push_neg at hname
    simp only [List.cons_append]
    rw [stripParens_cons _ (fun hc => hname.1 hc.symm), ih hname.2]

theorem replaceAllGo_succ_nil (pat rep : List Char) (fuel : Nat) :
    replaceAllGo pat rep (fuel + 1) [] =
    (if pat.isPrefixOf [] then
       rep ++ replaceAllGo pat rep fuel (List.drop pat.length [])
     else []) := rfl

theorem replaceAllGo_succ_cons (pat rep : List Char) (fuel : Nat) (c : Char)
    (rest : List Char) :
    replaceAllGo pat rep (fuel + 1) (c :: rest) =
    (if pat.isPrefixOf (c :: rest) then
       rep ++ replaceAllGo pat rep fuel ((c :: rest).drop pat.length)
     else c :: replaceAllGo pat rep fuel rest) := rfl

theorem replaceAllGo_fuel (pat rep : List Char) (hpat : pat ≠ []) :
    ∀ f1 f2 (s : List Char), s.length ≤ f1 → s.length ≤ f2 →
      replaceAllGo pat rep f1 s = replaceAllGo pat rep f2 s := by
  intro f1
  induction f1 with
  | zero =>
    intro f2 s h1 h2
    have hs : s = [] := List.length_eq_zero.mp (by omega)
    subst hs
    cases f2 with
    | zero => rfl
    | succ f2 =>
      rw [replaceAllGo_succ_nil]
      rw [if_neg (by simpa [List.isPrefixOf_iff_prefix] using
        fun hp => hpat (List.prefix_nil.mp hp))]
      rfl
  | succ f1 ih =>
    intro f2 s h1 h2
    cases f2 with
    | zero =>
      have hs : s = [] := List.length_eq_zero.mp (by omega)
      subst hs
      rw [replaceAllGo_succ_nil]
      rw [if_neg (by simpa [List.isPrefixOf_iff_prefix] using
        fun hp => hpat (List.prefix_nil.mp hp))]
      rfl
    | succ f2 =>
      cases s with
      | nil =>
        rw [replaceAllGo_succ_nil, replaceAllGo_succ_nil]
        have hnp : ¬ pat.isPrefixOf [] := by
          simpa [List.isPrefixOf_iff_prefix] using
            fun hp => hpat (List.prefix_nil.mp hp)
        rw [if_neg hnp, if_neg hnp]
      | cons c rest =>
        rw [replaceAllGo_succ_cons, replaceAllGo_succ_cons]
        simp only [List.length_cons] at h1 h2
        by_cases hp : pat.isPrefixOf (c :: rest)
        · rw [if_pos hp, if_pos hp]
          have hlen : pat.length ≤ rest.length + 1 := by
            simpa using (List.isPrefixOf_iff_prefix.mp hp).length_le
          have hpos : 0 < pat.length := List.length_pos.mpr hpat
          rw [ih f2 ((c :: rest).drop pat.length) (by simp; omega)
            (by simp; omega)]
        · rw [if_neg hp, if_neg hp, ih f2 rest (by omega) (by omega)]

theorem replaceAll_nil (pat rep : List Char) : replaceAll pat rep [] = [] := by
  rw [replaceAll]
  split
  · rfl
  · rfl

theorem replaceAll_head_match {pat : List Char} (rep : List Char) {s : List Char}
    (hpat : pat ≠ []) (hp : pat.isPrefixOf s) :
    replaceAll pat rep s = rep ++ replaceAll pat rep (s.drop pat.length) := by
  rw [replaceAll, replaceAll, if_neg hpat, if_neg hpat]
  have hlen : pat.length ≤ s.length := (List.isPrefixOf_iff_prefix.mp hp).length_le
  have hpos : 0 < pat.length := List.length_pos.mpr hpat
  cases hs : s with
  | nil =>
    subst hs
    simp [List.isPrefixOf_iff_prefix, List.prefix_nil] at hp
    exact absurd hp hpat
  | cons c rest =>
    subst hs
    simp only [List.length_cons]
    rw [replaceAllGo_succ_cons, if_pos hp]
    congr 1
    exact replaceAllGo_fuel pat rep hpat _ _ _ (by simp; omega) le_rfl

theorem replaceAll_copy {pat : List Char} (rep : List Char) {c : Char}
    {rest : List Char} (hpat : pat ≠ [])
    (hp : ¬ pat.isPrefixOf (c :: rest)) :
    replaceAll pat rep (c :: rest) = c :: replaceAll pat rep rest := by
  rw [replaceAll, replaceAll, if_neg hpat, if_neg hpat]
  simp only [List.length_cons]
  rw [replaceAllGo_succ_cons, if_neg hp]

theorem isPrefixOf_mono_append {pat z : List Char} (w : List Char)
    (hp : pat.isPrefixOf z) : pat.isPrefixOf (z ++ w) := by
  rw [List.isPrefixOf_iff_prefix] at hp ⊢
  exact hp.trans (List.prefix_append z w)

theorem isPrefixOf_of_append_char {c : Char} :
    ∀ (pat z : List Char), c ∉ pat → pat.isPrefixOf (z ++ [c]) →
      pat.isPrefixOf z := by
  intro pat
  induction pat with
  | nil => intro z _ _; simp [List.isPrefixOf]
  | cons p ps ih =>
    intro z hc hp
    simp only [List.mem_cons] at hc
    push_neg at hc
    cases z with
    | nil =>
      simp only [List.nil_append, List.isPrefixOf, Bool.and_eq_true,
        beq_iff_eq] at hp
      exact absurd hp.1.symm hc.1
    | cons d rest =>
      simp only [List.cons_append, List.isPrefixOf, Bool.and_eq_true,
        beq_iff_eq] at hp ⊢
      exact ⟨hp.1, ih rest hc.2 hp.2⟩

theorem drop_append_of_le {α : Type} : ∀ (n : Nat) (xs ys : List α),
    n ≤ xs.length → (xs ++ ys).drop n = xs.drop n ++ ys := by
  intro n
  induction n with
  | zero => intro xs ys _; simp
  | succ n ih =>
    intro xs ys h
    cases xs with
    | nil => simp at h
    | cons x rest =>
      simp only [List.cons_append, List.drop_succ_cons]
      exact ih rest ys (by simpa using h)

theorem replaceAll_append_char {pat rep : List Char} {c : Char}
    (hpat : pat ≠ []) (hc : c ∉ pat) :
    ∀ z, replaceAll pat rep (z ++ [c]) = replaceAll pat rep z ++ [c] := by
  suffices H : ∀ n (z : List Char), z.length ≤ n →
      replaceAll pat rep (z ++ [c]) = replaceAll pat rep z ++ [c] by
    intro z
    exact H z.length z le_rfl
  intro n
  induction n with
  | zero =>
    intro z hz
    have hznil : z = [] := List.length_eq_zero.mp (by omega)
    subst hznil
    simp only [List.nil_append]
    have hnp : ¬ pat.isPrefixOf [c] := by
      intro hp
      have hnil : pat.isPrefixOf [] :=
        isPrefixOf_of_append_char pat [] hc (by simpa using hp)
      rw [List.isPrefixOf_iff_prefix, List.prefix_nil] at hnil
      exact hpat hnil
    rw [replaceAll_copy rep hpat hnp, replaceAll_nil]
    rfl
  | succ n ih =>
    intro z hz
    by_cases hp : pat.isPrefixOf z
    · have hp2 : pat.isPrefixOf (z ++ [c]) := isPrefixOf_mono_append [c] hp
      have hlen : pat.length ≤ z.length :=
        (List.isPrefixOf_iff_prefix.mp hp).length_le
      have hpos : 0 < pat.length := List.length_pos.mpr hpat
      rw [replaceAll_head_match rep hpat hp2, replaceAll_head_match rep hpat hp]
      rw [drop_append_of_le pat.length z [c] hlen]
      rw [ih (z.drop pat.length) (by simp; omega)]
      simp
    · have hp2 : ¬ pat.isPrefixOf (z ++ [c]) :=
        fun h => hp (isPrefixOf_of_append_char pat z hc h)
      cases z with
      | nil =>
        simp only [List.nil_append] at hp2 ⊢
        rw [replaceAll_copy rep hpat hp2, replaceAll_nil]
        rfl
      | cons d rest =>
        simp only [List.cons_append] at hp2 ⊢
        rw [replaceAll_copy rep hpat hp2, replaceAll_copy rep hpat hp]
        simp only [List.length_cons] at hz
        rw [ih rest (by omega)]
        rfl

theorem occursB_nil_eq (pat : List Char) : occursB pat [] = pat.isEmpty := rfl

theorem occursB_cons_eq (pat : List Char) (c : Char) (rest : List Char) :
    occursB pat (c :: rest) =
      (pat.isPrefixOf (c :: rest) || occursB pat rest) := rfl

theorem occursB_of_isPrefixOf {pat l : List Char} (h : pat.isPrefixOf l) :
    occursB pat l = true := by
  cases l with
  | nil =>
    rw [List.isPrefixOf_iff_prefix, List.prefix_nil] at h
    subst h; rfl
  | cons c rest => simp [occursB_cons_eq, h]

theorem occursB_drop {pat : List Char} : ∀ (k : Nat) (z : List Char),
    occursB pat (z.drop k) = true → occursB pat z = true := by
  intro k
  induction k with
  | zero => intro z h; simpa using h
  | succ k ih =>
    intro z h
    cases z with
    | nil => simpa using h
    | cons c rest =>
      rw [List.drop_succ_cons] at h
      rw [occursB_cons_eq]
      simp [ih rest h]

theorem occursB_head_mem {a : Char} {t z : List Char}
    (h : occursB (a :: t) z = true) : a ∈ z := by
  induction z with
  | nil => simp [occursB_nil_eq, List.isEmpty] at h
  | cons c rest ih =>
    rw [occursB_cons_eq, Bool.or_eq_true] at h
    rcases h with h | h
    · simp only [List.isPrefixOf, Bool.and_eq_true, beq_iff_eq] at h
      rw [h.1]
      exact List.mem_cons_self c rest
    · exact List.mem_cons_of_mem c (ih h)

theorem occursB_singleton {c : Char} {z : List Char} :
    occursB [c] z = true ↔ c ∈ z := by
  constructor
  · exact occursB_head_mem
  · intro h
    induction z with
    | nil => simp at h
    | cons d rest ih =>
      rw [occursB_cons_eq, Bool.or_eq_true]
      rcases List.mem_cons.mp h with h | h
      · left
        subst h
        simp [List.isPrefixOf]
      · right; exact ih h

theorem replaceAll_of_not_occurs {pat rep z : List Char}
    (h : occursB pat z = false) : replaceAll pat rep z = z := by
  by_cases hpat : pat = []
  · subst hpat; rw [replaceAll]; simp
  · induction z with
    | nil => exact replaceAll_nil pat rep
    | cons c rest ih =>
      rw [occursB_cons_eq, Bool.or_eq_false_iff] at h
      rw [replaceAll_copy rep hpat (by simp [h.1]), ih h.2]

theorem occursB_append_right {w v z : List Char}
    (h : occursB (w ++ v) z = true) : occursB w z = true := by
  induction z with
  | nil =>
    rw [occursB_nil_eq] at h ⊢
    cases w with
    | nil => rfl
    | cons a t => simp [List.isEmpty] at h
  | cons c rest ih =>
    rw [occursB_cons_eq, Bool.or_eq_true] at h ⊢
    rcases h with h | h
    · left
      rw [List.isPrefixOf_iff_prefix] at h ⊢
      exact (List.prefix_append w v).trans h
    · right; exact ih h

theorem occursB_append_left {u w z : List Char}
    (h : occursB (u ++ w) z = true) : occursB w z = true := by
  induction z with
  | nil =>
    rw [occursB_nil_eq] at h ⊢
    cases w with
    | nil => rfl
    | cons a t =>
      cases u <;> simp [List.isEmpty] at h
  | cons c rest ih =>
    rw [occursB_cons_eq, Bool.or_eq_true] at h
    rcases h with h | h
    · rw [List.isPrefixOf_iff_prefix] at h
      obtain ⟨r, hr⟩ := h
      have hdrop : (c :: rest).drop u.length = w ++ r := by
        rw [← hr, List.append_assoc, List.drop_left]
      refine occursB_drop u.length (c :: rest) ?_
      rw [hdrop]
      exact occursB_of_isPrefixOf (by
        rw [List.isPrefixOf_iff_prefix]; exact List.prefix_append w r)
    · rw [occursB_cons_eq]
      simp [ih h]

theorem drop_succ_eq_tail_drop (q : List Char) : ∀ j : Nat,
    q.drop (j + 1) = (q.drop j).tail := by
  induction q with
  | nil => intro j; simp
  | cons c rest ih =>
    intro j
    cases j with
    | zero => rfl
    | succ j =>
      rw [List.drop_succ_cons, List.drop_succ_cons, ih j]

theorem replaceAllGo_no_overlap {pat rep q : List Char} (hpat : pat ≠ [])
    (hrep : rep ≠ []) (hdisj : ∀ a ∈ q, a ∉ rep) :
    ∀ fuel s t, t ≠ [] → (∃ j, t = q.drop j) →
      t.isPrefixOf (replaceAllGo pat rep fuel s) = true →
      t.isPrefixOf s = true := by
  intro fuel
  induction fuel with
  | zero =>
    intro s t ht _ hp
    rw [show replaceAllGo pat rep 0 s = [] from rfl,
      List.isPrefixOf_iff_prefix, List.prefix_nil] at hp
    exact absurd hp ht
  | succ fuel ih =>
    intro s t ht hj hp
    cases s with
    | nil =>
      rw [replaceAllGo_succ_nil, if_neg (by
        simpa [List.isPrefixOf_iff_prefix] using
          fun hx => hpat (List.prefix_nil.mp hx))] at hp
      rw [List.isPrefixOf_iff_prefix, List.prefix_nil] at hp
      exact absurd hp ht
    | cons c rest =>
      rw [replaceAllGo_succ_cons] at hp
      by_cases hm : pat.isPrefixOf (c :: rest)
      · rw [if_pos hm] at hp
        exfalso
        cases t with
        | nil => exact ht rfl
        | cons t0 tt =>
          cases hR : rep with
          | nil => exact hrep hR
          | cons r0 rr =>
            rw [hR] at hp
            simp only [List.cons_append, List.isPrefixOf, Bool.and_eq_true,
              beq_iff_eq] at hp
            obtain ⟨j, hjj⟩ := hj
            have ht0q : t0 ∈ q := by
              have h0 : t0 ∈ q.drop j := by
                rw [← hjj]; exact List.mem_cons_self t0 tt
              exact List.mem_of_mem_drop h0
            refine hdisj t0 ht0q ?_
            rw [hR, hp.1]
            exact List.mem_cons_self r0 rr
      · rw [if_neg hm] at hp
        cases t with
        | nil => exact absurd rfl ht
        | cons t0 tt =>
          simp only [List.isPrefixOf, Bool.and_eq_true, beq_iff_eq] at hp ⊢
          refine ⟨hp.1, ?_⟩
          by_cases htt : tt = []
          · subst htt; simp [List.isPrefixOf]
          · obtain ⟨j, hjj⟩ := hj
            refine ih rest tt htt ⟨j + 1, ?_⟩ hp.2
            rw [drop_succ_eq_tail_drop, ← hjj]
            rfl

theorem occursB_rep_append {q w : List Char} (hq : q ≠ [])
    (hw : occursB q w = false) :
    ∀ rep : List Char, (∀ a ∈ q, a ∉ rep) →
      occursB q (rep ++ w) = false := by
  intro rep
  induction rep with
  | nil => intro _; simpa using hw
  | cons r rr ih =>
    intro hdisj
    rw [List.cons_append, occursB_cons_eq, Bool.or_eq_false_iff]
    refine ⟨?_, ih (fun a ha hm => hdisj a ha (List.mem_cons_of_mem r hm))⟩
    apply Bool.eq_false_iff.mpr
    intro hpre
    cases q with
    | nil => exact hq rfl
    | cons q0 qt =>
      simp only [List.isPrefixOf, Bool.and_eq_true, beq_iff_eq] at hpre
      refine hdisj q0 (List.mem_cons_self q0 qt) ?_
      rw [hpre.1]
      exact List.mem_cons_self r rr

theorem replaceAllGo_preserves_absent {pat rep q : List Char} (hpat : pat ≠ [])
    (hrep : rep ≠ []) (hq : q ≠ []) (hdisj : ∀ a ∈ q, a ∉ rep) :
    ∀ fuel s, occursB q s = false →
      occursB q (replaceAllGo pat rep fuel s) = false := by
  intro fuel
  induction fuel with
  | zero =>
    intro s hs
    cases q with
    | nil => exact absurd rfl hq
    | cons q0 qt => rfl
  | succ fuel ih =>
    intro s hs
    cases s with
    | nil =>
      rw [replaceAllGo_succ_nil, if_neg (by
        simpa [List.isPrefixOf_iff_prefix] using
          fun hx => hpat (List.prefix_nil.mp hx))]
      cases q with
      | nil => exact absurd rfl hq
      | cons q0 qt => rfl
    | cons c rest =>
      have hs2 := hs
      rw [occursB_cons_eq, Bool.or_eq_false_iff] at hs2
      rw [replaceAllGo_succ_cons]
      by_cases hm : pat.isPrefixOf (c :: rest)
      · rw [if_pos hm]
        refine occursB_rep_append hq ?_ rep hdisj
        refine ih _ ?_
        apply Bool.eq_false_iff.mpr
        intro hocc
        have hup := occursB_drop pat.length (c :: rest) hocc
        rw [hs] at hup
        exact Bool.noConfusion hup
      · rw [if_neg hm]
        rw [occursB_cons_eq, Bool.or_eq_false_iff]
        refine ⟨?_, ih rest hs2.2⟩
        apply Bool.eq_false_iff.mpr
        intro hpre
        cases q with
        | nil => exact hq rfl
        | cons q0 qt =>
          simp only [List.isPrefixOf, Bool.and_eq_true, beq_iff_eq] at hpre
          by_cases hqt : qt = []
          · subst hqt
            apply Bool.eq_false_iff.mp hs2.1
            simp [List.isPrefixOf, hpre.1]
          · have hpref := replaceAllGo_no_overlap hpat hrep hdisj fuel rest
              qt hqt ⟨1, rfl⟩ hpre.2
            apply Bool.eq_false_iff.mp hs2.1
            simp only [List.isPrefixOf, Bool.and_eq_true, beq_iff_eq]
            exact ⟨hpre.1, hpref⟩

theorem replaceAllGo_self_absent {pat rep : List Char} (hpat : pat ≠ [])
    (hrep : rep ≠ []) (hdisj : ∀ a ∈ pat, a ∉ rep) :
    ∀ fuel s, occursB pat (replaceAllGo pat rep fuel s) = false := by
  intro fuel
  induction fuel with
  | zero =>
    intro s
    cases pat with
    | nil => exact absurd rfl hpat
    | cons p0 pt => rfl
  | succ fuel ih =>
    intro s
    cases s with
    | nil =>
      rw [replaceAllGo_succ_nil, if_neg (by
        simpa [List.isPrefixOf_iff_prefix] using
          fun hx => hpat (List.prefix_nil.mp hx))]
      cases pat with
      | nil => exact absurd rfl hpat
      | cons p0 pt => rfl
    | cons c rest =>
      rw [replaceAllGo_succ_cons]
      by_cases hm : pat.isPrefixOf (c :: rest)
      · rw [if_pos hm]
        exact occursB_rep_append hpat (ih _) rep hdisj
      · rw [if_neg hm]
        rw [occursB_cons_eq, Bool.or_eq_false_iff]
        refine ⟨?_, ih rest⟩
        apply Bool.eq_false_iff.mpr
        intro hpre
        cases pat with
        | nil => exact hpat rfl
        | cons p0 pt =>
          simp only [List.isPrefixOf, Bool.and_eq_true, beq_iff_eq] at hpre
          by_cases hpt : pt = []
          · subst hpt
            refine hm ?_
            simp [List.isPrefixOf, hpre.1]
          · have hpref := replaceAllGo_no_overlap hpat hrep hdisj fuel rest
              pt hpt ⟨1, rfl⟩ hpre.2
            refine hm ?_
            simp only [List.isPrefixOf, Bool.and_eq_true, beq_iff_eq]
            exact ⟨hpre.1, hpref⟩

theorem replaceAll_self_absent {pat rep : List Char} (hpat : pat ≠ [])
    (hrep : rep ≠ []) (hdisj : ∀ a ∈ pat, a ∉ rep) (z : List Char) :
    occursB pat (replaceAll pat rep z) = false := by
  rw [replaceAll, if_neg hpat]
  exact replaceAllGo_self_absent hpat hrep hdisj _ _

theorem replaceAll_preserves_absent {pat rep q : List Char} (hpat : pat ≠ [])
    (hrep : rep ≠ []) (hq : q ≠ []) (hdisj : ∀ a ∈ q, a ∉ rep) {z : List Char}
    (hz : occursB q z = false) :
    occursB q (replaceAll pat rep z) = false := by
  rw [replaceAll, if_neg hpat]
  exact replaceAllGo_preserves_absent hpat hrep hq hdisj _ _ hz

theorem replaceAll_self_id (pat : List Char) : ∀ z, replaceAll pat pat z = z := by
  intro z
  by_cases hpat : pat = []
  · rw [replaceAll, if_pos hpat]
  · suffices H : ∀ fuel s, s.length ≤ fuel →
        replaceAllGo pat pat fuel s = s by
      rw [replaceAll, if_neg hpat]; exact H _ _ le_rfl
    intro fuel
    induction fuel with
    | zero =>
      intro s hs
      have hnil : s = [] := List.length_eq_zero.mp (by omega)
      subst hnil; rfl
    | succ fuel ih =>
      intro s hs
      cases s with
      | nil =>
        rw [replaceAllGo_succ_nil, if_neg (by
          simpa [List.isPrefixOf_iff_prefix] using
            fun hx => hpat (List.prefix_nil.mp hx))]
      | cons c rest =>
        rw [replaceAllGo_succ_cons]
        by_cases hm : pat.isPrefixOf (c :: rest)
        · rw [if_pos hm]
          rw [List.isPrefixOf_iff_prefix] at hm
          obtain ⟨t, ht⟩ := hm
          rw [← ht, List.drop_left]
          rw [ih t (by
            have hlen : pat.length + t.length = (c :: rest).length := by
              rw [← ht]; simp
            have hp1 : 0 < pat.length := List.length_pos.mpr hpat
            simp only [List.length_cons] at hlen hs
            omega)]
        · rw [if_neg hm]
          simp only [List.length_cons] at hs
          rw [ih rest (by omega)]

theorem replaceWsNlGo_succ_nil (fuel : Nat) :
    replaceWsNlGo (fuel + 1) [] = [] := rfl

theorem replaceWsNlGo_succ_cons (fuel : Nat) (c : Char) (rest : List Char) :
    replaceWsNlGo (fuel + 1) (c :: rest) =
    (if jsWs c then
       match afterLastNl (rest.takeWhile jsWs) with
       | some after =>
         '\n' :: replaceWsNlGo fuel
           (after ++ rest.drop (rest.takeWhile jsWs).length)
       | none => c :: replaceWsNlGo fuel rest
     else c :: replaceWsNlGo fuel rest) := rfl

theorem afterLastNl_eq_none_of_not_mem {r : List Char} (h : '\n' ∉ r) :
    afterLastNl r = none := by
  induction r with
  | nil => rfl
  | cons c rest ih =>
    simp only [List.mem_cons] at h
    push_neg at h
    simp only [afterLastNl]
    rw [ih h.2]
    show (if c = '\n' then some rest else none) = none
    rw [if_neg (fun hc => h.1 hc.symm)]

theorem not_mem_of_afterLastNl_none : ∀ {r : List Char},
    afterLastNl r = none → '\n' ∉ r := by
  intro r
  induction r with
  | nil => intro _ hx; simp at hx
  | cons c rest ih =>
    intro h hmem
    simp only [afterLastNl] at h
    cases hr : afterLastNl rest with
    | some t => rw [hr] at h; exact Option.noConfusion h
    | none =>
      rw [hr] at h
      rcases List.mem_cons.mp hmem with hc | hc
      · rw [show (match (none : Option (List Char)) with
          | some r => some r
          | none => if c = '\n' then some rest else none) =
            (if c = '\n' then some rest else none) from rfl,
          if_pos hc.symm] at h
        exact Option.noConfusion h
      · exact ih hr hc

theorem afterLastNl_some_facts : ∀ {r t : List Char},
    afterLastNl r = some t → '\n' ∉ t ∧ t <:+ r := by
  intro r
  induction r with
  | nil => intro t h; exact Option.noConfusion h
  | cons c rest ih =>
    intro t h
    simp only [afterLastNl] at h
    cases hr : afterLastNl rest with
    | some u =>
      rw [hr] at h
      have h2 : some u = some t := h
      injection h2 with h2
      subst h2
      obtain ⟨h1, h2⟩ := ih hr
      exact ⟨h1, h2.trans (List.suffix_cons c rest)⟩
    | none =>
      rw [hr] at h
      have h2 : (if c = '\n' then some rest else none) = some t := h
      by_cases hc : c = '\n'
      · rw [if_pos hc] at h2
        injection h2 with h2
        subst h2
        exact ⟨not_mem_of_afterLastNl_none hr, List.suffix_cons c rest⟩
      · rw [if_neg hc] at h2
        exact Option.noConfusion h2

theorem mem_takeWhile_p {p : Char → Bool} : ∀ {l : List Char} {a : Char},
    a ∈ l.takeWhile p → p a = true := by
  intro l
  induction l with
  | nil => intro a h; simp [List.takeWhile] at h
  | cons c rest ih =>
    intro a h
    rw [List.takeWhile_cons] at h
    by_cases hc : p c
    · rw [if_pos hc] at h
      rcases List.mem_cons.mp h with h | h
      · subst h; exact hc
      · exact ih h
    · rw [if_neg hc] at h
      simp at h

theorem takeWhile_append_all {p : Char → Bool} : ∀ (l1 l2 : List Char),
    (∀ a ∈ l1, p a = true) →
    (l1 ++ l2).takeWhile p = l1 ++ l2.takeWhile p := by
  intro l1
  induction l1 with
  | nil => intro l2 _; rfl
  | cons c rest ih =>
    intro l2 h
    rw [List.cons_append, List.takeWhile_cons,
      if_pos (h c (List.mem_cons_self c rest)),
      ih l2 (fun a ha => h a (List.mem_cons_of_mem c ha)), List.cons_append]

theorem takeWhile_dropWhile_nil {p : Char → Bool} : ∀ l : List Char,
    (l.dropWhile p).takeWhile p = [] := by
  intro l
  induction l with
  | nil => rfl
  | cons c rest ih =>
    rw [List.dropWhile_cons]
    by_cases hc : p c
    · rw [if_pos hc]; exact ih
    · rw [if_neg hc, List.takeWhile_cons, if_neg hc]

theorem drop_takeWhile_length {p : Char → Bool} : ∀ l : List Char,
    l.drop (l.takeWhile p).length = l.dropWhile p := by
  intro l
  induction l with
  | nil => rfl
  | cons c rest ih =>
    rw [List.takeWhile_cons, List.dropWhile_cons]
    by_cases hc : p c
    · rw [if_pos hc, if_pos hc]
      simp only [List.length_cons, List.drop_succ_cons]
      exact ih
    · rw [if_neg hc, if_neg hc]
      rfl

/-- The adjacency invariant of `replace(/\s+\n/g, ...)`-normalized text: no
white-space character directly precedes a newline. -/
def noWsNlRel (c d : Char) : Prop := ¬(jsWs c = true ∧ d = '\n')

theorem noWsNl_run {rest : List Char} : ∀ {c : Char},
    List.Chain' noWsNlRel (c :: rest) → jsWs c = true →
    '\n' ∉ rest.takeWhile jsWs := by
  induction rest with
  | nil => intro c _ _; simp
  | cons d tl ih =>
    intro c h hc
    rw [List.takeWhile_cons]
    rw [List.chain'_cons] at h
    have hd_ne : d ≠ '\n' := fun hdeq => h.1 ⟨hc, hdeq⟩
    by_cases hd : jsWs d
    · rw [if_pos hd]
      intro hmem
      rcases List.mem_cons.mp hmem with hx | hx
      · exact hd_ne hx.symm
      · exact (ih h.2 hd) hx
    · rw [if_neg hd]
      simp

theorem replaceWsNl_id {z : List Char} (h : List.Chain' noWsNlRel z) :
    replaceWsNl z = z := by
  suffices H : ∀ fuel s, s.length ≤ fuel → List.Chain' noWsNlRel s →
      replaceWsNlGo fuel s = s from H _ _ le_rfl h
  intro fuel
  induction fuel with
  | zero =>
    intro s hs _
    have hnil : s = [] := List.length_eq_zero.mp (by omega)
    subst hnil; rfl
  | succ fuel ih =>
    intro s hs hch
    cases s with
    | nil => rfl
    | cons c rest =>
      rw [replaceWsNlGo_succ_cons]
      simp only [List.length_cons] at hs
      have htail : List.Chain' noWsNlRel rest := hch.tail
      by_cases hc : jsWs c
      · rw [if_pos hc]
        rw [afterLastNl_eq_none_of_not_mem (noWsNl_run hch hc)]
        show c :: replaceWsNlGo fuel rest = c :: rest
        rw [ih rest (by omega) htail]
      · rw [if_neg hc]
        rw [ih rest (by omega) htail]

theorem replaceWsNlGo_head_ne_nl : ∀ (fuel : Nat) (s : List Char),
    '\n' ∉ s.takeWhile jsWs → ∀ d, (replaceWsNlGo fuel s).head? = some d →
      d ≠ '\n' := by
  intro fuel s
  cases fuel with
  | zero => intro _ d hd; exact Option.noConfusion hd
  | succ fuel =>
    cases s with
    | nil => intro _ d hd; exact Option.noConfusion hd
    | cons c rest =>
      intro hrun d hd
      rw [replaceWsNlGo_succ_cons] at hd
      by_cases hc : jsWs c
      · rw [if_pos hc] at hd
        rw [List.takeWhile_cons, if_pos hc] at hrun
        simp only [List.mem_cons] at hrun
        push_neg at hrun
        rw [afterLastNl_eq_none_of_not_mem hrun.2] at hd
        have hd2 : (c :: replaceWsNlGo fuel rest).head? = some d := hd
        simp only [List.head?_cons] at hd2
        injection hd2 with hd2
        subst hd2
        exact fun hx => hrun.1 hx.symm
      · rw [if_neg hc] at hd
        simp only [List.head?_cons] at hd
        injection hd with hd
        subst hd
        intro hx
        subst hx
        exact hc (by decide)

theorem replaceWsNlGo_chain : ∀ (fuel : Nat) (s : List Char),
    List.Chain' noWsNlRel (replaceWsNlGo fuel s) := by
  intro fuel
  induction fuel with
  | zero => intro s; exact List.chain'_nil
  | succ fuel ih =>
    intro s
    cases s with
    | nil => exact List.chain'_nil
    | cons c rest =>
      rw [replaceWsNlGo_succ_cons]
      by_cases hc : jsWs c
      · rw [if_pos hc]
        cases hfc : afterLastNl (rest.takeWhile jsWs) with
        | some after =>
          show List.Chain' noWsNlRel ('\n' :: replaceWsNlGo fuel
            (after ++ rest.drop (rest.takeWhile jsWs).length))
          rw [List.chain'_cons']
          refine ⟨?_, ih _⟩
          intro b hb
          obtain ⟨hafter_nl, hafter_suf⟩ := afterLastNl_some_facts hfc
          have hafter_ws : ∀ a ∈ after, jsWs a = true := by
            intro a ha
            exact mem_takeWhile_p (hafter_suf.subset ha)
          have hrun2 : '\n' ∉
              (after ++ rest.drop (rest.takeWhile jsWs).length).takeWhile
                jsWs := by
            rw [drop_takeWhile_length rest,
              takeWhile_append_all after _ hafter_ws,
              takeWhile_dropWhile_nil rest, List.append_nil]
            exact hafter_nl
          have hbne := replaceWsNlGo_head_ne_nl fuel _ hrun2 b hb
          exact fun hx => hbne hx.2
        | none =>
          show List.Chain' noWsNlRel (c :: replaceWsNlGo fuel rest)
          rw [List.chain'_cons']
          refine ⟨?_, ih rest⟩
          intro b hb
          have hbne := replaceWsNlGo_head_ne_nl fuel rest
            (not_mem_of_afterLastNl_none hfc) b hb
          exact fun hx => hbne hx.2
      · rw [if_neg hc]
        rw [List.chain'_cons']
        refine ⟨?_, ih rest⟩
        intro b hb
        exact fun hx => hc hx.1

theorem replaceWsNl_chain (z : List Char) :
    List.Chain' noWsNlRel (replaceWsNl z) := replaceWsNlGo_chain _ _

theorem replaceWsNlGo_not_mem {c0 : Char} (hne : c0 ≠ '\n') :
    ∀ (fuel : Nat) (s : List Char), c0 ∉ s → c0 ∉ replaceWsNlGo fuel s := by
  intro fuel
  induction fuel with
  | zero =>
    intro s _
    show c0 ∉ ([] : List Char)
    simp
  | succ fuel ih =>
    intro s hs
    cases s with
    | nil =>
      show c0 ∉ ([] : List Char)
      simp
    | cons c rest =>
      simp only [List.mem_cons] at hs
      push_neg at hs
      rw [replaceWsNlGo_succ_cons]
      by_cases hc : jsWs c
      · rw [if_pos hc]
        cases hfc : afterLastNl (rest.takeWhile jsWs) with
        | some after =>
          show c0 ∉ '\n' :: replaceWsNlGo fuel
            (after ++ rest.drop (rest.takeWhile jsWs).length)
          simp only [List.mem_cons]
          push_neg
          refine ⟨hne, ?_⟩
          refine ih _ ?_
          intro hmem
          rcases List.mem_append.mp hmem with hmem | hmem
          · obtain ⟨_, hsuf⟩ := afterLastNl_some_facts hfc
            exact hs.2 ((List.takeWhile_prefix jsWs).subset (hsuf.subset hmem))
          · exact hs.2 (List.mem_of_mem_drop hmem)
        | none =>
          show c0 ∉ c :: replaceWsNlGo fuel rest
          simp only [List.mem_cons]
          push_neg
          exact ⟨hs.1, ih rest hs.2⟩
      · rw [if_neg hc]
        simp only [List.mem_cons]
        push_neg
        exact ⟨hs.1, ih rest hs.2⟩

theorem replaceWsNl_not_mem {c0 : Char} (hne : c0 ≠ '\n') {z : List Char}
    (hz : c0 ∉ z) : c0 ∉ replaceWsNl z := replaceWsNlGo_not_mem hne _ _ hz

theorem occursB_nil_pat : ∀ v : List Char, occursB [] v = true := by
  intro v
  cases v with
  | nil => rfl
  | cons c rest => simp [occursB_cons_eq, List.isPrefixOf]

theorem occursB_text_append_left {q w : List Char} (u : List Char)
    (h : occursB q w = true) : occursB q (u ++ w) = true := by
  induction u with
  | nil => simpa using h
  | cons c rest ih =>
    rw [List.cons_append, occursB_cons_eq]
    simp [ih]

theorem occursB_text_append_right {q : List Char} (v : List Char) :
    ∀ {w : List Char}, occursB q w = true → occursB q (w ++ v) = true := by
  intro w
  induction w with
  | nil =>
    intro h
    rw [occursB_nil_eq] at h
    cases q with
    | nil => exact occursB_nil_pat v
    | cons a t => simp [List.isEmpty] at h
  | cons c rest ih =>
    intro h
    rw [occursB_cons_eq, Bool.or_eq_true] at h
    rw [List.cons_append, occursB_cons_eq, Bool.or_eq_true]
    rcases h with h | h
    · left
      rw [List.isPrefixOf_iff_prefix] at h ⊢
      obtain ⟨r, hr⟩ := h
      refine ⟨r ++ v, ?_⟩
      rw [← List.append_assoc, hr]
      simp
    · right
      exact ih h

theorem occursB_within {q m l : List Char} (hm : m <:+: l)
    (h : occursB q m = true) : occursB q l = true := by
  obtain ⟨s, t, hst⟩ := hm
  rw [← hst, List.append_assoc]
  exact occursB_text_append_left s (occursB_text_append_right t h)

theorem occursB_singleton_false {c : Char} {z : List Char} :
    occursB [c] z = false ↔ c ∉ z := by
  rw [← occursB_singleton]
  exact Bool.eq_false_iff

theorem occursB_false_of_head_not_mem {a : Char} {t z : List Char}
    (h : a ∉ z) : occursB (a :: t) z = false :=
  Bool.eq_false_iff.mpr (fun hx => h (occursB_head_mem hx))

theorem occursB_false_mono_right {w v z : List Char}
    (h : occursB w z = false) : occursB (w ++ v) z = false :=
  Bool.eq_false_iff.mpr
    (fun hx => Bool.eq_false_iff.mp h (occursB_append_right hx))

theorem occursB_false_mono_left {u w z : List Char}
    (h : occursB w z = false) : occursB (u ++ w) z = false :=
  Bool.eq_false_iff.mpr
    (fun hx => Bool.eq_false_iff.mp h (occursB_append_left hx))

theorem replaceAllGo_head_cases {pat rep : List Char} (hpat : pat ≠ [])
    (hrep : rep ≠ []) : ∀ (fuel : Nat) (s : List Char),
    (replaceAllGo pat rep fuel s).head? = none ∨
    (replaceAllGo pat rep fuel s).head? = s.head? ∨
    (replaceAllGo pat rep fuel s).head? = rep.head? := by
  intro fuel s
  cases fuel with
  | zero => left; rfl
  | succ fuel =>
    cases s with
    | nil =>
      left
      rw [replaceAllGo_succ_nil, if_neg (by
        simpa [List.isPrefixOf_iff_prefix] using
          fun hx => hpat (List.prefix_nil.mp hx))]
      rfl
    | cons c rest =>
      rw [replaceAllGo_succ_cons]
      by_cases hm : pat.isPrefixOf (c :: rest)
      · rw [if_pos hm]
        right; right
        cases rep with
        | nil => exact absurd rfl hrep
        | cons r rr => rfl
      · rw [if_neg hm]
        right; left
        rfl

theorem chain'_drop_char {R : Char → Char → Prop} : ∀ (n : Nat) (l : List Char),
    List.Chain' R l → List.Chain' R (l.drop n) := by
  intro n
  induction n with
  | zero => intro l h; simpa using h
  | succ n ih =>
    intro l h
    cases l with
    | nil => exact h
    | cons c rest =>
      rw [List.drop_succ_cons]
      exact ih rest h.tail

theorem replaceAllGo_chain {R : Char → Char → Prop} {pat rep : List Char}
    (hpat : pat ≠ []) (hrep : rep ≠ [])
    (hrepchain : List.Chain' R rep)
    (hlast : ∀ a ∈ rep.getLast?, ∀ d, R a d)
    (hhead : ∀ c : Char, ∀ b ∈ rep.head?, R c b) :
    ∀ (fuel : Nat) (s : List Char), List.Chain' R s →
      List.Chain' R (replaceAllGo pat rep fuel s) := by
  intro fuel
  induction fuel with
  | zero => intro s _; exact List.chain'_nil
  | succ fuel ih =>
    intro s hs
    cases s with
    | nil =>
      rw [replaceAllGo_succ_nil, if_neg (by
        simpa [List.isPrefixOf_iff_prefix] using
          fun hx => hpat (List.prefix_nil.mp hx))]
      exact List.chain'_nil
    | cons c rest =>
      rw [replaceAllGo_succ_cons]
      by_cases hm : pat.isPrefixOf (c :: rest)
      · rw [if_pos hm]
        rw [List.chain'_append]
        refine ⟨hrepchain, ih _ (chain'_drop_char pat.length (c :: rest) hs),
          ?_⟩
        intro x hx y hy
        exact hlast x hx y
      · rw [if_neg hm]
        rw [List.chain'_cons']
        constructor
        · intro b hb
          rcases replaceAllGo_head_cases hpat hrep fuel rest with
            hcase | hcase | hcase
          · rw [hcase] at hb; exact absurd hb (by simp)
          · rw [hcase] at hb
            exact (List.chain'_cons'.mp hs).1 b hb
          · rw [hcase] at hb
            exact hhead c b hb
        · exact ih rest hs.tail

theorem replaceAll_chain {R : Char → Char → Prop} {pat rep : List Char}
    (hpat : pat ≠ []) (hrep : rep ≠ [])
    (hrepchain : List.Chain' R rep)
    (hlast : ∀ a ∈ rep.getLast?, ∀ d, R a d)
    (hhead : ∀ c : Char, ∀ b ∈ rep.head?, R c b)
    {z : List Char} (hz : List.Chain' R z) :
    List.Chain' R (replaceAll pat rep z) := by
  rw [replaceAll, if_neg hpat]
  exact replaceAllGo_chain hpat hrep hrepchain hlast hhead _ _ hz

theorem dropWhile_suffix_p {p : Char → Bool} : ∀ l : List Char,
    l.dropWhile p <:+ l := by
  intro l
  induction l with
  | nil => exact List.suffix_refl _
  | cons c rest ih =>
    rw [List.dropWhile_cons]
    by_cases hc : p c
    · rw [if_pos hc]
      exact ih.trans (List.suffix_cons c rest)
    · rw [if_neg hc]

theorem trimL_prefix_dropWhile (l : List Char) :
    trimL l <+: l.dropWhile jsWs := by
  obtain ⟨u, hu⟩ := dropWhile_suffix_p ((l.dropWhile jsWs).reverse)
  refine ⟨u.reverse, ?_⟩
  show ((l.dropWhile jsWs).reverse.dropWhile jsWs).reverse ++ u.reverse =
    l.dropWhile jsWs
  rw [← List.reverse_append, hu, List.reverse_reverse]

theorem trimL_within (l : List Char) : trimL l <:+: l := by
  obtain ⟨v, hv⟩ := dropWhile_suffix_p l
  obtain ⟨w, hw⟩ := trimL_prefix_dropWhile l
  exact ⟨v, w, by rw [List.append_assoc, hw, hv]⟩

theorem dropWhile_idem_p {p : Char → Bool} (l : List Char) :
    (l.dropWhile p).dropWhile p = l.dropWhile p := by
  induction l with
  | nil => rfl
  | cons c rest ih =>
    rw [List.dropWhile_cons]
    by_cases hc : p c
    · rw [if_pos hc]; exact ih
    · rw [if_neg hc, List.dropWhile_cons, if_neg hc]

theorem dropWhile_eq_self_of_prefix {p : Char → Bool} {l z : List Char}
    (hl : l.dropWhile p = l) (hz : z <+: l) : z.dropWhile p = z := by
  cases z with
  | nil => rfl
  | cons c w =>
    obtain ⟨t, ht⟩ := hz
    by_cases hc : p c
    · exfalso
      have h1 : l.dropWhile p = (w ++ t).dropWhile p := by
        rw [← ht, List.cons_append, List.dropWhile_cons, if_pos hc]
      rw [hl] at h1
      have h2 := dropWhile_length_le p (w ++ t)
      have h4 : l.length ≤ w.length + t.length := by
        rw [h1]
        simpa using h2
      have h3 : l.length = w.length + t.length + 1 := by
        rw [← ht]
        simp
      omega
    · rw [List.dropWhile_cons, if_neg hc]

theorem trimL_idem (l : List Char) : trimL (trimL l) = trimL l := by
  have ha : (l.dropWhile jsWs).dropWhile jsWs = l.dropWhile jsWs :=
    dropWhile_idem_p l
  have h1 : (trimL l).dropWhile jsWs = trimL l :=
    dropWhile_eq_self_of_prefix ha (trimL_prefix_dropWhile l)
  show ((((trimL l).dropWhile jsWs).reverse).dropWhile jsWs).reverse = trimL l
  rw [h1]
  have h2 : (trimL l).reverse = (l.dropWhile jsWs).reverse.dropWhile jsWs := by
    show (((l.dropWhile jsWs).reverse.dropWhile jsWs).reverse).reverse = _
    rw [List.reverse_reverse]
  rw [h2, dropWhile_idem_p, ← h2, List.reverse_reverse]

theorem trimL_not_mem {c0 : Char} {l : List Char} (h : c0 ∉ l) :
    c0 ∉ trimL l := fun hx => h ((trimL_within l).subset hx)

theorem trimL_preserves_chain {l : List Char}
    (h : List.Chain' noWsNlRel l) : List.Chain' noWsNlRel (trimL l) :=
  h.infix (trimL_within l)

theorem trimL_preserves_absent {q l : List Char}
    (h : occursB q l = false) : occursB q (trimL l) = false :=
  Bool.eq_false_iff.mpr
    (fun hx => Bool.eq_false_iff.mp h (occursB_within (trimL_within l) hx))

theorem collapseWs_one (c : Char) :
    collapseWs [c] = if jsWs c then [' '] else [c] := rfl

theorem collapseWs_two (c d : Char) (tl : List Char) :
    collapseWs (c :: d :: tl) =
    (if jsWs c then
       (if jsWs d then collapseWs (d :: tl) else ' ' :: collapseWs (d :: tl))
     else c :: collapseWs (d :: tl)) := rfl

theorem collapseWs_append_space : ∀ xs : List Char,
    collapseWs (xs ++ [' ']) = collapseWs xs ∨
    collapseWs (xs ++ [' ']) = collapseWs xs ++ [' '] := by
  intro xs
  induction xs with
  | nil => right; rfl
  | cons c rest ih =>
    cases rest with
    | nil =>
      simp only [List.nil_append, List.cons_append, collapseWs_two,
        collapseWs_one]
      by_cases hc : jsWs c
      · left
        simp [hc, show jsWs ' ' = true from by decide]
      · right
        simp [hc, show jsWs ' ' = true from by decide]
    | cons d tl =>
      simp only [List.cons_append] at ih ⊢
      rw [collapseWs_two, collapseWs_two]
      by_cases hc : jsWs c
      · rw [if_pos hc, if_pos hc]
        by_cases hd : jsWs d
        · rw [if_pos hd, if_pos hd]
          exact ih
        · rw [if_neg hd, if_neg hd]
          rcases ih with h | h
          · left; rw [h]
          · right; rw [h]; rfl
      · rw [if_neg hc, if_neg hc]
        rcases ih with h | h
        · left; rw [h]
        · right; rw [h]; rfl

theorem trimL_cons_ws {c : Char} (l : List Char) (hc : jsWs c) :
    trimL (c :: l) = trimL l := by
  simp [trimL, List.dropWhile_cons, hc]

theorem trimL_append_space : ∀ z : List Char, trimL (z ++ [' ']) = trimL z := by
  intro z
  induction z with
  | nil => rfl
  | cons c rest ih =>
    by_cases hc : jsWs c
    · rw [List.cons_append, trimL_cons_ws _ hc, trimL_cons_ws _ hc, ih]
    · simp only [List.cons_append, trimL, List.dropWhile_cons, hc, if_false,
        Bool.false_eq_true, List.reverse_cons, List.reverse_append,
        List.reverse_cons, List.reverse_nil, List.nil_append,
        List.singleton_append, List.cons_append]
      rw [if_pos (show jsWs ' ' = true from by decide)]

end Js

namespace SceneHeadingRegex

/-!
Executable translations of the scene-heading regular expressions shared by
page.parser.js and document.parser.js:

* pattern1: `^(INT\.?|EXT\.?|INT\/EXT\.?|I\/E\.?)\s+(.+?)\s*[-–—]\s*(TIME)/i`
* pattern2: `^(INT\.?|EXT\.?|INT\/EXT\.?|I\/E\.?)\s+(.+?)\.\s*(TIME)/i`
* pattern3 (capture form): `^(INT\.?|EXT\.?|INT\/EXT\.?|I\/E\.?)\s+(.+)/i`
* pattern3 (test form): `^(INT\.?|EXT\.?|INT\/EXT\.?|I\/E\.?)\s+[A-Z\s']{3,}/i`

Backtracking order is preserved: prefix alternatives left to right (each
first with, then without its optional period), `\s+` greedily from the
longest run down, the lazy group `(.+?)` from the shortest extent up.  The
captured prefix is returned already normalized the way the parser uses it
(`match[1].replace('.', '').toUpperCase()`), and the captured time token is
returned upper-cased (`match[3].toUpperCase()`); both normalizations are
injective on the fixed alternative vocabularies.
-/

/-- The INT/EXT prefix alternatives in regex trial order, paired with the
value of `match[1].replace('.', '').toUpperCase()` for that alternative. -/
def scenePrefixAlts : List (String × String) :=
  [("INT.", "INT"), ("INT", "INT"), ("EXT.", "EXT"), ("EXT", "EXT"),
   ("INT/EXT.", "INT/EXT"), ("INT/EXT", "INT/EXT"), ("I/E.", "I/E"), ("I/E", "I/E")]

/-- The time-of-day alternatives in regex trial order. -/
def timeAlts : List String :=
  ["DAY", "NIGHT", "LATER", "MORNING", "EVENING", "DAWN", "DUSK",
   "CONTINUOUS", "SAME TIME", "MOMENTS LATER"]

/-- Match `(DAY|NIGHT|...)` case-insensitively at the head of `s`, returning
the upper-cased capture. -/
def matchTimeAt (s : List Char) : Option String :=
  timeAlts.findSome? (fun t => (Js.ciStrip t.data s).map (fun _ => t))

/-- Match `\s*[-–—]\s*(TIME)` against all of the immediate input. -/
def matchSepTime (s : List Char) : Option String :=
  match s.dropWhile Js.jsWs with
  | c :: rest =>
    if c = '-' ∨ c = '–' ∨ c = '—' then matchTimeAt (rest.dropWhile Js.jsWs)
    else none
  | [] => none

/-- Match `\.\s*(TIME)` against the immediate input. -/
def matchDotTime (s : List Char) : Option String :=
  match s with
  | c :: rest => if c = '.' then matchTimeAt (rest.dropWhile Js.jsWs) else none
  | [] => none

/-- Continuation `\s+(.+?)<tail>` where `tail` is matched by `k`:
`\s+` is tried greedily (longest white-space run first), the lazy group
from the shortest extent up.  Returns the group-2 capture and the tail's
capture. -/
def matchWsLazyTail (k : List Char → Option String) (s : List Char) :
    Option (List Char × String) :=
  let maxWs := (s.takeWhile Js.jsWs).length
  (List.range' 1 maxWs).reverse.findSome? (fun w =>
    let rest := s.drop w
    (List.range' 1 rest.length).findSome? (fun m =>
      (k (rest.drop m)).map (fun t => (rest.take m, t))))

/-- Continuation `\s+(.+)`: greedy white space, then the greedy group takes
the whole remainder (which must be non-empty). -/
def matchWsGreedyRest (s : List Char) : Option (List Char) :=
  let maxWs := (s.takeWhile Js.jsWs).length
  (List.range' 1 maxWs).reverse.findSome? (fun w =>
    let rest := s.drop w
    if rest.isEmpty then none else some rest)

/-- Continuation `\s+[A-Z\s']{3,}` under the `i` flag: greedy white space,
then at least three characters drawn from letters, white space and
apostrophe. -/
def matchWsNameClass3 (classChar : Char → Bool) (s : List Char) : Bool :=
  let maxWs := (s.takeWhile Js.jsWs).length
  (List.range' 1 maxWs).reverse.any (fun w =>
    3 ≤ ((s.drop w).takeWhile classChar).length)

/-- Character class `[A-Z\s']` under the `i` flag. -/
def headingClassChar (c : Char) : Bool := c.isAlpha || Js.jsWs c || c = Js.apos

/-- Try the prefix alternatives in order with continuation `k`. -/
def tryPrefixAlts (alts : List (String × String))
    (k : List Char → Option α) (s : List Char) : Option (String × α) :=
  alts.findSome? (fun pc =>
    (Js.ciStrip pc.1.data s).bind (fun rest => (k rest).map (fun a => (pc.2, a))))

/-- Full pattern1 match with captures: prefix, location slice, time. -/
def matchPattern1 (alts : List (String × String)) (s : List Char) :
    Option (String × List Char × String) :=
  tryPrefixAlts alts (matchWsLazyTail matchSepTime) s

/-- Full pattern2 match with captures. -/
def matchPattern2 (alts : List (String × String)) (s : List Char) :
    Option (String × List Char × String) :=
  tryPrefixAlts alts (matchWsLazyTail matchDotTime) s

/-- Full pattern3 match with captures (the `(.+)` form). -/
def matchPattern3 (alts : List (String × String)) (s : List Char) :
    Option (String × List Char) :=
  tryPrefixAlts alts matchWsGreedyRest s

/-- Pattern3 in its test form (`[A-Z\s']{3,}` style class given by
`classChar`). -/
def testPattern3 (alts : List (String × String)) (classChar : Char → Bool)
    (s : List Char) : Bool :=
  (tryPrefixAlts alts (fun rest =>
    if matchWsNameClass3 classChar rest then some () else none) s).isSome

end SceneHeadingRegex

namespace HybridScriptParser

open Js SceneHeadingRegex

/-- `isSceneHeading` of page.parser.js: any of the three heading patterns. -/
def isSceneHeading (line : String) : Bool :=
  (matchPattern1 scenePrefixAlts line.data).isSome ||
  (matchPattern2 scenePrefixAlts line.data).isSome ||
  testPattern3 scenePrefixAlts headingClassChar line.data

/-- The result record of `parseSceneHeading`. -/
structure SceneHeadingData where
  intExt : String
  location : String
  time : String
deriving DecidableEq, Repr, Inhabited

/-- `parseSceneHeading` of page.parser.js: pattern1, then pattern2, then the
bare-prefix pattern3, with defaults `INT` / `Unknown` / `DAY`. -/
def parseSceneHeading (heading : String) : SceneHeadingData :=
  match matchPattern1 scenePrefixAlts heading.data with
  | some (pre, loc, time) => ⟨pre, trimS ⟨loc⟩, time⟩
  | none =>
    match matchPattern2 scenePrefixAlts heading.data with
    | some (pre, loc, time) => ⟨pre, trimS ⟨loc⟩, time⟩
    | none =>
      match matchPattern3 scenePrefixAlts heading.data with
      | some (pre, loc) => ⟨pre, trimS ⟨loc⟩, "DAY"⟩
      | none => ⟨"INT", "Unknown", "DAY"⟩

/-- The transition vocabulary of page.parser.js. -/
def transitions : List String :=
  ["FADE OUT", "FADE IN", "CUT TO", "DISSOLVE TO", "SMASH CUT TO",
   "MATCH CUT TO", "JUMP CUT TO", "WIPE TO", "IRIS OUT", "IRIS IN",
   "THE END", "CONTINUED"]

/-- `isTransition`: the upper-cased line contains one of the fixed
transition strings. -/
def isTransition (line : String) : Bool :=
  transitions.any (fun t => occursB t.data (upperL line.data))

/-- `isPageNumber`: `/^\d{1,3}\.?$/` on the trimmed line. -/
def isPageNumber (line : String) : Bool :=
  let t := trimL line.data
  let ds := t.takeWhile Char.isDigit
  decide (1 ≤ ds.length) && decide (ds.length ≤ 3) &&
  (t.drop ds.length == [] || t.drop ds.length == ['.'])

/-- Deterministic scan for `/^-*\s*\d+\s+of\s+\d+\s*-*$/` with an optionally
case-insensitive `of`. -/
def footerOfScan (ci : Bool) (l : List Char) : Bool :=
  let s1 := (l.dropWhile (· = '-')).dropWhile jsWs
  let d1 := s1.takeWhile Char.isDigit
  if d1.isEmpty then false
  else
    let s2 := s1.drop d1.length
    let w1 := s2.takeWhile jsWs
    if w1.isEmpty then false
    else
      match s2.drop w1.length with
      | o :: f :: s3 =>
        if (if ci then o.toUpper = 'O' ∧ f.toUpper = 'F' else o = 'o' ∧ f = 'f') then
          let w2 := s3.takeWhile jsWs
          if w2.isEmpty then false
          else
            let s4 := s3.drop w2.length
            let d2 := s4.takeWhile Char.isDigit
            if d2.isEmpty then false
            else (((s4.drop d2.length).dropWhile jsWs).dropWhile (· = '-')).isEmpty
        else false
      | _ => false

/-- Deterministic scan for `/^Page\s+\d+$/i`. -/
def footerPageScan (l : List Char) : Bool :=
  match Js.ciStrip ("Page".data) l with
  | some rest =>
    let w := rest.takeWhile jsWs
    if w.isEmpty then false
    else
      let d := (rest.drop w.length).takeWhile Char.isDigit
      ¬ d.isEmpty && ((rest.drop w.length).drop d.length).isEmpty
  | none => false

/-- `isPageFooter` of page.parser.js (both regexes case-insensitive). -/
def isPageFooter (line : String) : Bool :=
  footerOfScan true line.data || footerPageScan line.data

/-- `isParenthetical`: starts with `'('` and ends with `')'`. -/
def isParenthetical (line : String) : Bool :=
  (match line.data with
   | c :: _ => c = '('
   | [] => false) &&
  (match line.data.getLast? with
   | some c => c = ')'
   | none => false)

/-- `cleanCharacterName`: strip parentheticals, collapse white space,
repair the mojibake apostrophe, trim. -/
def cleanCharacterName (line : String) : String :=
  ⟨trimL (replaceAll ("â€™".data) [apos] (collapseWs (stripParens line.data)))⟩

/-- The character-name shape `/^[A-Z][A-Z\s'.-]*$/` (case-sensitive). -/
def charNamePattern (l : List Char) : Bool :=
  match l with
  | [] => false
  | c :: rest =>
    c.isUpper && rest.all (fun d => d.isUpper || jsWs d || d = apos || d = '.' || d = '-')

/-- `/[A-Z]/.test` — contains an (ASCII) upper-case letter. -/
def hasUpper (l : List Char) : Bool := l.any Char.isUpper

/-- `/^[A-Z]\.[A-Z]\.?/.test` — an initials-shaped prefix. -/
def initialsPrefix (l : List Char) : Bool :=
  match l with
  | a :: b :: c :: _ => a.isUpper && b = '.' && c.isUpper
  | _ => false

/-- `looksLikeCharacterName` of page.parser.js. -/
def looksLikeCharacterName (line : String) : Bool :=
  let trimmed := trimS line
  if trimmed.data.length < 2 ∨ trimmed.data.length > 50 then false
  else
    let withoutParens := trimS ⟨stripParens trimmed.data⟩
    if withoutParens = "" ∨ ¬ hasUpper withoutParens.data then false
    else if ¬ charNamePattern withoutParens.data then false
    else if withoutParens.data.contains '.' ∧ ¬ initialsPrefix withoutParens.data then false
    else if isSceneHeading trimmed ∨ isTransition trimmed then false
    else true

/-- The core of `isCharacterName`, abstracted over the (optional) following
line of the stream. -/
def isCharacterNameCore (line : String) (next? : Option String) : Bool :=
  let trimmed := trimS line
  if trimmed = "" then false
  else if trimmed.data.length < 2 ∨ trimmed.data.length > 50 then false
  else if isPageNumber trimmed ∨ isPageFooter trimmed then false
  else if isSceneHeading trimmed ∨ isTransition trimmed then false
  else
    let withoutParens := trimS ⟨stripParens trimmed.data⟩
    if withoutParens = "" ∨ withoutParens.data.length < 2 then false
    else if ¬ hasUpper withoutParens.data then false
    else if ¬ charNamePattern withoutParens.data then false
    else if withoutParens.data.contains '.' ∧ ¬ initialsPrefix withoutParens.data then false
    else
      match next? with
      | none => false
      | some nextRaw =>
        let nextText := trimS nextRaw
        if nextText = "" then false
        else if looksLikeCharacterName nextText then false
        else if isSceneHeading nextText then false
        else true

/-- `isLikelyActionLine` of page.parser.js. -/
def isLikelyActionLine (line : String) : Bool :=
  let trimmed := trimS line
  if looksLikeCharacterName trimmed then false
  else
    let isAllCaps := ¬ trimmed.data.isEmpty &&
      trimmed.data.all (fun c => c.isUpper || jsWs c || c = apos || c = '.' || c = '-')
    let startsWithCap :=
      match trimmed.data with
      | c :: _ => c.isUpper
      | [] => false
    let hasLowercase := trimmed.data.any Char.isLower
    if isAllCaps && decide (trimmed.data.length > 60) then true
    else if startsWithCap && hasLowercase && decide (trimmed.data.length > 40) then true
    else false

/-- A classified line of a page's `formatted` array. -/
structure FormattedLine where
  index : Nat
  type : String
  text : String
deriving DecidableEq, Repr, Inhabited

/-- A page record produced by `extractPages`. -/
structure Page where
  pageNumber : Nat
  rawText : String
  formatted : List FormattedLine
deriving DecidableEq, Repr, Inhabited

/-- An element of the flattened line stream of `parseScenes`. -/
structure LineObj where
  text : String
  pageNumber : Nat
deriving DecidableEq, Repr, Inhabited

/-- One dialogue entry of a scene. -/
structure DialogueEntry where
  character : String
  text : String
deriving DecidableEq, Repr, Inhabited

/-- A sealed scene record. -/
structure Scene where
  sceneNumber : Nat
  pageNumber : Nat
  heading : String
  location : String
  intExt : String
  timeOfDay : String
  dialogue : List DialogueEntry
  actions : List String
  actors : List String
  charactersInScene : List String
  fullText : String
  summary : String
  props : List String
deriving DecidableEq, Repr, Inhabited

/-- `isCharacterName(line, allLines, currentIndex)` for an object stream
(the next line's text is taken from `allLines[currentIndex + 1].text`). -/
def isCharacterName (line : String) (allLines : List LineObj) (currentIndex : Nat) : Bool :=
  isCharacterNameCore line ((allLines.get? (currentIndex + 1)).map LineObj.text)

/-- `isCharacterName` for a plain string stream (used by
`analyzePageLines`/`detectLineType`). -/
def isCharacterNameStr (line : String) (allLines : List String) (currentIndex : Nat) : Bool :=
  isCharacterNameCore line (allLines.get? (currentIndex + 1))

/-- `detectLineType` of page.parser.js. -/
def detectLineType (line : String) (allLines : List String) (currentIndex : Nat) : String :=
  if isSceneHeading line then "scene_heading"
  else if isTransition line then "transition"
  else if isParenthetical line then "parenthetical"
  else if isCharacterNameStr line allLines currentIndex then "character"
  else "dialogue_or_action"

/-- `analyzePageLines` of page.parser.js. -/
def analyzePageLines (pageText : String) : List FormattedLine :=
  let lines := ((splitNl pageText).map trimS).filter
    (fun l => l ≠ "" && ¬ isPageNumber l && ¬ isPageFooter l)
  lines.enum.map (fun p => ⟨p.1, detectLineType p.2 lines p.1, p.2⟩)

/-- The non-blank form-feed chunks of the input text (the `formFeedPages`
local of `extractPages`). -/
def formFeedChunks (text : String) : List String :=
  ((splitChar (Char.ofNat 12) text.data).map (fun l => (⟨l⟩ : String))).filter
    (fun t => trimS t ≠ "")

/-- The tier-1 (form-feed) page list of `extractPages`. -/
def formFeedResult (text : String) : List Page :=
  (formFeedChunks text).enum.map (fun p =>
    ⟨p.1 + 1, trimS p.2, analyzePageLines (trimS p.2)⟩)

/-- Ceiling division, `Math.ceil(a / b)` for positive naturals (and the
JavaScript limit value 0 when `b = 0`, where the quotient is infinite and
the page loop never uses it). -/
def ceilDiv (a b : Nat) : Nat := if b = 0 then 0 else (a + b - 1) / b

/-- The tier-3 (estimated line-bucket) page list of `extractPages`. -/
def estimatedResult (text : String) (totalPages : Nat) : List Page :=
  let lines := splitNl text
  let linesPerPage := ceilDiv lines.length totalPages
  (List.range totalPages).map (fun i =>
    let pageLines := (lines.drop (i * linesPerPage)).take linesPerPage
    let content := trimS (joinSep "\n" pageLines)
    ⟨i + 1, content, analyzePageLines content⟩)

/-- `extractPages` of page.parser.js: commit to the form-feed split when the
non-blank chunk count is more than 1 and at most `totalPages * 1.5`,
otherwise fall back to uniform line estimation. -/
def extractPages (text : String) (totalPages : Nat) : List Page :=
  let n := (formFeedChunks text).length
  if 1 < n ∧ 2 * n ≤ 3 * totalPages then formFeedResult text
  else estimatedResult text totalPages

/-- The flattened all-pages line stream of `parseScenes`. -/
def flattenPages (pages : List Page) : List LineObj :=
  pages.flatMap (fun page =>
    (((splitNl page.rawText).map trimS).filter (fun l => l ≠ "")).map
      (fun l => ⟨l, page.pageNumber⟩))

/-- The prop keyword vocabulary of page.parser.js. -/
def propKeywords : List String :=
  ["glasses", "phone", "bottle", "gun", "knife", "car", "train", "computer",
   "scanner", "qr", "kiosk", "robot", "tray", "lift", "elevator", "apron",
   "luggage", "locker", "juice", "beer", "metro", "sofa", "camera", "dress",
   "frame", "machine", "caviar", "vending", "jet", "airhostess"]

/-- Word-boundary occurrence test, `new RegExp('\\b' + kw + '\\b', 'i')`
against an already lower-cased line. -/
def occursWord (kw : List Char) : List Char → Bool :=
  go none
where
  go : Option Char → List Char → Bool
  | prev, s =>
    ((match prev with
      | some p => ¬ isWordChar p
      | none => true) &&
     (kw.isPrefixOf s &&
      (match s.drop kw.length with
       | c :: _ => ¬ isWordChar c
       | [] => true))) ||
    (match s with
     | [] => false
     | c :: rest => go (some c) rest)

/-- `extractProps` of page.parser.js: keyword set accumulated over all scene
lines, capitalized, in insertion order. -/
def extractProps (lines : List String) : List String :=
  lines.foldl (fun acc line =>
    propKeywords.foldl (fun acc kw =>
      if occursWord kw.data (lowerL line.data) then
        let capped : String := ⟨(kw.data.take 1).map Char.toUpper ++ kw.data.drop 1⟩
        if capped ∈ acc then acc else acc ++ [capped]
      else acc) acc) []

/-- The in-progress scene accumulator (`currentScene` plus the `sceneLines`
buffer of `parseScenes`). -/
structure SceneAcc where
  sceneNumber : Nat
  pageNumber : Nat
  heading : String
  location : String
  intExt : String
  timeOfDay : String
  dialogue : List DialogueEntry
  actions : List String
  actors : List String
  charactersInScene : List String
  sceneLines : List String
deriving DecidableEq, Repr, Inhabited

/-- `generateSceneSummary` of page.parser.js, taken on the accumulator. -/
def generateSceneSummary (acc : SceneAcc) : String :=
  let actionText := joinSep " " (acc.actions.take 3)
  let dialogueText := joinSep " " ((acc.dialogue.take 2).map (fun d =>
    d.character ++ ": " ++ (⟨d.text.data.take 50⟩ : String) ++ "..."))
  let s := trimS (actionText ++ " " ++ dialogueText)
  if s = "" then "No summary available" else s

/-- Sealing a scene: compute `fullText`, `summary` and `props` and freeze
the record (the `Set` of characters is kept as its insertion-order list). -/
def sealScene (acc : SceneAcc) : Scene :=
  { sceneNumber := acc.sceneNumber
    pageNumber := acc.pageNumber
    heading := acc.heading
    location := acc.location
    intExt := acc.intExt
    timeOfDay := acc.timeOfDay
    dialogue := acc.dialogue
    actions := acc.actions
    actors := acc.actors
    charactersInScene := acc.charactersInScene
    fullText := joinSep "\n" acc.sceneLines
    summary := generateSceneSummary acc
    props := extractProps acc.sceneLines }

/-- A fresh accumulator opened at a scene heading. -/
def newSceneAcc (sceneNumber : Nat) (lineObj : LineObj) : SceneAcc :=
  let sceneData := parseSceneHeading lineObj.text
  { sceneNumber := sceneNumber
    pageNumber := lineObj.pageNumber
    heading := lineObj.text
    location := sceneData.location
    intExt := sceneData.intExt
    timeOfDay := sceneData.time
    dialogue := []
    actions := []
    actors := []
    charactersInScene := []
    sceneLines := [lineObj.text] }

/-- Structural worker for the dialogue lookahead (`fuel` bounds the number
of remaining stream lines, so the exhausted case is unreachable from the
wrapper). -/
def collectGo (allLines : List LineObj) : Nat → Nat → List String × List String × Nat
  | 0, j => ([], [], j)
  | fuel + 1, j =>
    if h : j < allLines.length then
      if trimS (allLines.get ⟨j, h⟩).text = "" then collectGo allLines fuel (j + 1)
      else if isCharacterName (trimS (allLines.get ⟨j, h⟩).text) allLines j ∨
          isSceneHeading (trimS (allLines.get ⟨j, h⟩).text) ∨
          isTransition (trimS (allLines.get ⟨j, h⟩).text) ∨
          isPageNumber (trimS (allLines.get ⟨j, h⟩).text) ∨
          isPageFooter (trimS (allLines.get ⟨j, h⟩).text) then
        ([], [], j)
      else if isParenthetical (trimS (allLines.get ⟨j, h⟩).text) then
        ((collectGo allLines fuel (j + 1)).1,
         trimS (allLines.get ⟨j, h⟩).text :: (collectGo allLines fuel (j + 1)).2.1,
         (collectGo allLines fuel (j + 1)).2.2)
      else if isLikelyActionLine (trimS (allLines.get ⟨j, h⟩).text) then ([], [], j)
      else
        (trimS (allLines.get ⟨j, h⟩).text :: (collectGo allLines fuel (j + 1)).1,
         trimS (allLines.get ⟨j, h⟩).text :: (collectGo allLines fuel (j + 1)).2.1,
         (collectGo allLines fuel (j + 1)).2.2)
    else ([], [], j)

/-- The dialogue-collection lookahead loop of `parseScenes` (page.parser.js
lines 181–211): starting at stream index `j`, skip blanks, stop at the next
structural marker or action-shaped line, consume parentheticals into the
scene buffer only, and collect the remaining lines as dialogue.  Returns
`(dialogueLines, linesForSceneBuffer, stopIndex)`. -/
def collectDialogue (allLines : List LineObj) (j : Nat) :
    List String × List String × Nat :=
  collectGo allLines (allLines.length - j) j

theorem collectGo_zero (allLines : List LineObj) (j : Nat) :
    collectGo allLines 0 j = ([], [], j) := rfl

theorem collectGo_succ (allLines : List LineObj) (fuel j : Nat) :
    collectGo allLines (fuel + 1) j =
    (if h : j < allLines.length then
      if trimS (allLines.get ⟨j, h⟩).text = "" then collectGo allLines fuel (j + 1)
      else if isCharacterName (trimS (allLines.get ⟨j, h⟩).text) allLines j ∨
          isSceneHeading (trimS (allLines.get ⟨j, h⟩).text) ∨
          isTransition (trimS (allLines.get ⟨j, h⟩).text) ∨
          isPageNumber (trimS (allLines.get ⟨j, h⟩).text) ∨
          isPageFooter (trimS (allLines.get ⟨j, h⟩).text) then
        ([], [], j)
      else if isParenthetical (trimS (allLines.get ⟨j, h⟩).text) then
        ((collectGo allLines fuel (j + 1)).1,
         trimS (allLines.get ⟨j, h⟩).text :: (collectGo allLines fuel (j + 1)).2.1,
         (collectGo allLines fuel (j + 1)).2.2)
      else if isLikelyActionLine (trimS (allLines.get ⟨j, h⟩).text) then ([], [], j)
      else
        (trimS (allLines.get ⟨j, h⟩).text :: (collectGo allLines fuel (j + 1)).1,
         trimS (allLines.get ⟨j, h⟩).text :: (collectGo allLines fuel (j + 1)).2.1,
         (collectGo allLines fuel (j + 1)).2.2)
    else ([], [], j)) := rfl

theorem collectGo_idx_ge (allLines : List LineObj) :
    ∀ fuel j, j ≤ (collectGo allLines fuel j).2.2 := by
  intro fuel
  induction fuel with
  | zero => intro j; simp [collectGo]
  | succ fuel ih =>
    intro j
    rw [collectGo]
    by_cases h : j < allLines.length
    · have ih1 := ih (j + 1)
      simp only [dif_pos h]
      split
      · omega
      · split
        · simp
        · split
          · simpa using Nat.le_of_succ_le ih1
          · split
            · simp
            · simpa using Nat.le_of_succ_le ih1
    · simp [h]

theorem collectDialogue_idx_ge (allLines : List LineObj) (j : Nat) :
    j ≤ (collectDialogue allLines j).2.2 :=
  collectGo_idx_ge allLines (allLines.length - j) j

/-- Append an element if it is not already present (the
`if (!xs.includes(x)) xs.push(x)` idiom and `Set.prototype.add`). -/
def addUnique (l : List String) (x : String) : List String :=
  if x ∈ l then l else l ++ [x]

/-- One character-cue step on the accumulator: register the actor, consume
the dialogue block, and extend the scene buffer. -/
def charCueStep (acc : SceneAcc) (characterName : String)
    (dlg sceneAppend : List String) : SceneAcc :=
  { acc with
    charactersInScene := addUnique acc.charactersInScene characterName
    actors := addUnique acc.actors characterName
    sceneLines := acc.sceneLines ++ sceneAppend
    dialogue :=
      if dlg.isEmpty then acc.dialogue
      else acc.dialogue ++ [⟨characterName, joinSep " " dlg⟩] }

/-- Push a line into the scene-text buffer (`sceneLines.push(line)`). -/
def pushLine (acc : SceneAcc) (line : String) : SceneAcc :=
  { acc with sceneLines := acc.sceneLines ++ [line] }

/-- Push an action line (`currentScene.actions.push(line)`). -/
def pushAction (acc : SceneAcc) (line : String) : SceneAcc :=
  { acc with actions := acc.actions ++ [line] }

/-- The scene list after the sealing that precedes a new heading. -/
def sealedScenes (scenes : List Scene) : Option SceneAcc → List Scene
  | some acc => scenes ++ [sealScene acc]
  | none => scenes

/-- Structural worker for the main loop of `parseScenes` (`fuel` bounds the
number of remaining stream lines — the loop index advances by at least one
per step — so the exhausted case is unreachable from the wrapper). -/
def parseGo (allLines : List LineObj) :
    Nat → Nat → List Scene → Option SceneAcc → List Scene
  | 0, _, scenes, cur =>
    (match cur with
     | some acc => scenes ++ [sealScene acc]
     | none => scenes)
  | fuel + 1, i, scenes, cur =>
    if h : i < allLines.length then
      if isPageNumber (allLines.get ⟨i, h⟩).text ∨ isPageFooter (allLines.get ⟨i, h⟩).text then
        parseGo allLines fuel (i + 1) scenes cur
      else if isSceneHeading (allLines.get ⟨i, h⟩).text then
        parseGo allLines fuel (i + 1) (sealedScenes scenes cur)
          (some (newSceneAcc ((sealedScenes scenes cur).length + 1) (allLines.get ⟨i, h⟩)))
      else
        match cur with
        | none => parseGo allLines fuel (i + 1) scenes none
        | some acc =>
          if isCharacterName (allLines.get ⟨i, h⟩).text allLines i then
            parseGo allLines fuel (collectDialogue allLines (i + 1)).2.2 scenes
              (some (charCueStep (pushLine acc (allLines.get ⟨i, h⟩).text)
                (cleanCharacterName (allLines.get ⟨i, h⟩).text)
                (collectDialogue allLines (i + 1)).1
                (collectDialogue allLines (i + 1)).2.1))
          else if ¬ isTransition (allLines.get ⟨i, h⟩).text ∧
              ¬ looksLikeCharacterName (allLines.get ⟨i, h⟩).text then
            parseGo allLines fuel (i + 1) scenes
              (some (pushAction (pushLine acc (allLines.get ⟨i, h⟩).text)
                (allLines.get ⟨i, h⟩).text))
          else parseGo allLines fuel (i + 1) scenes
            (some (pushLine acc (allLines.get ⟨i, h⟩).text))
    else
      match cur with
      | some acc => scenes ++ [sealScene acc]
      | none => scenes

/-- The main loop of `parseScenes` (page.parser.js lines 132–236), indexed
over the flattened stream. -/
def parseLoop (allLines : List LineObj) (i : Nat) (scenes : List Scene)
    (cur : Option SceneAcc) : List Scene :=
  parseGo allLines (allLines.length - i) i scenes cur

theorem parseGo_zero (allLines : List LineObj) (i : Nat) (scenes : List Scene)
    (cur : Option SceneAcc) :
    parseGo allLines 0 i scenes cur =
      (match cur with
       | some acc => scenes ++ [sealScene acc]
       | none => scenes) := rfl

theorem parseGo_succ (allLines : List LineObj) (fuel i : Nat) (scenes : List Scene)
    (cur : Option SceneAcc) :
    parseGo allLines (fuel + 1) i scenes cur =
    (if h : i < allLines.length then
      if isPageNumber (allLines.get ⟨i, h⟩).text ∨ isPageFooter (allLines.get ⟨i, h⟩).text then
        parseGo allLines fuel (i + 1) scenes cur
      else if isSceneHeading (allLines.get ⟨i, h⟩).text then
        parseGo allLines fuel (i + 1) (sealedScenes scenes cur)
          (some (newSceneAcc ((sealedScenes scenes cur).length + 1) (allLines.get ⟨i, h⟩)))
      else
        match cur with
        | none => parseGo allLines fuel (i + 1) scenes none
        | some acc =>
          if isCharacterName (allLines.get ⟨i, h⟩).text allLines i then
            parseGo allLines fuel (collectDialogue allLines (i + 1)).2.2 scenes
              (some (charCueStep (pushLine acc (allLines.get ⟨i, h⟩).text)
                (cleanCharacterName (allLines.get ⟨i, h⟩).text)
                (collectDialogue allLines (i + 1)).1
                (collectDialogue allLines (i + 1)).2.1))
          else if ¬ isTransition (allLines.get ⟨i, h⟩).text ∧
              ¬ looksLikeCharacterName (allLines.get ⟨i, h⟩).text then
            parseGo allLines fuel (i + 1) scenes
              (some (pushAction (pushLine acc (allLines.get ⟨i, h⟩).text)
                (allLines.get ⟨i, h⟩).text))
          else parseGo allLines fuel (i + 1) scenes
            (some (pushLine acc (allLines.get ⟨i, h⟩).text))
    else
      match cur with
      | some acc => scenes ++ [sealScene acc]
      | none => scenes) := rfl

/-- `parseScenes` of page.parser.js. -/
def parseScenes (pages : List Page) : List Scene :=
  parseLoop (flattenPages pages) 0 [] none

/-- Master step-preservation principle for `parseLoop`: any relation `R` on
the loop state that is preserved by every branch action holds of the final
output in the form `S`. -/
theorem parseLoop_invariant (ctx : List LineObj)
    (R : List Scene → Option SceneAcc → Prop) (S : List Scene → Prop)
    (hhead : ∀ scenes cur lineObj, lineObj ∈ ctx →
      isSceneHeading lineObj.text = true →
      isPageNumber lineObj.text = false → isPageFooter lineObj.text = false →
      R scenes cur →
      R (sealedScenes scenes cur)
        (some (newSceneAcc ((sealedScenes scenes cur).length + 1) lineObj)))
    (hchar : ∀ scenes acc (i : Nat) (hi : i < ctx.length),
      isPageNumber (ctx.get ⟨i, hi⟩).text = false →
      isPageFooter (ctx.get ⟨i, hi⟩).text = false →
      isSceneHeading (ctx.get ⟨i, hi⟩).text = false →
      isCharacterName (ctx.get ⟨i, hi⟩).text ctx i = true →
      R scenes (some acc) →
      R scenes (some (charCueStep (pushLine acc (ctx.get ⟨i, hi⟩).text)
        (cleanCharacterName (ctx.get ⟨i, hi⟩).text)
        (collectDialogue ctx (i + 1)).1 (collectDialogue ctx (i + 1)).2.1)))
    (haction : ∀ scenes acc lineObj, lineObj ∈ ctx →
      isPageNumber lineObj.text = false → isPageFooter lineObj.text = false →
      isSceneHeading lineObj.text = false →
      R scenes (some acc) →
      R scenes (some (pushAction (pushLine acc lineObj.text) lineObj.text)))
    (hother : ∀ scenes acc lineObj, lineObj ∈ ctx →
      isPageNumber lineObj.text = false → isPageFooter lineObj.text = false →
      isSceneHeading lineObj.text = false →
      R scenes (some acc) →
      R scenes (some (pushLine acc lineObj.text)))
    (hfinN : ∀ scenes, R scenes none → S scenes)
    (hfinS : ∀ scenes acc, R scenes (some acc) → S (scenes ++ [sealScene acc])) :
    ∀ fuel i scenes cur, R scenes cur → S (parseGo ctx fuel i scenes cur) := by
  intro fuel
  induction fuel with
  | zero =>
    intro i scenes cur hR
    rw [parseGo_zero]
    cases cur with
    | none => exact hfinN _ hR
    | some acc => exact hfinS _ _ hR
  | succ fuel ih =>
    intro i scenes cur hR
    rw [parseGo_succ]
    by_cases h : i < ctx.length
    · simp only [dif_pos h]
      split
      next hpn =>
        exact ih _ _ _ hR
      next hpn =>
        push_neg at hpn
        split
        next hsh =>
          refine ih _ _ _ ?_
          exact hhead _ _ _ (List.get_mem ctx i h) (by simpa using hsh)
            (by simpa using hpn.1) (by simpa using hpn.2) hR
        next hsh =>
          split
          next => exact ih _ _ _ hR
          next acc =>
            split
            next hcn =>
              refine ih _ _ _ ?_
              exact hchar _ _ _ h (by simpa using hpn.1) (by simpa using hpn.2)
                (by simpa using hsh) hcn hR
            next hcn =>
              split
              next hact =>
                refine ih _ _ _ ?_
                exact haction _ _ _ (List.get_mem ctx i h) (by simpa using hpn.1)
                  (by simpa using hpn.2) (by simpa using hsh) hR
              next hact =>
                refine ih _ _ _ ?_
                exact hother _ _ _ (List.get_mem ctx i h) (by simpa using hpn.1)
                  (by simpa using hpn.2) (by simpa using hsh) hR
    · simp only [dif_neg h]
      cases cur with
      | none => exact hfinN _ hR
      | some acc => exact hfinS _ _ hR

/-- The scene-numbering well-formedness predicate: position `k` holds scene
number `k + 1`. -/
def NumOk (scenes : List Scene) : Prop :=
  ∀ k (hk : k < scenes.length), (scenes.get ⟨k, hk⟩).sceneNumber = k + 1

theorem numOk_append {scenes : List Scene} {x : Scene} (h : NumOk scenes)
    (hx : x.sceneNumber = scenes.length + 1) : NumOk (scenes ++ [x]) := by
  intro k hk
  simp only [List.length_append, List.length_cons, List.length_nil] at hk
  rcases Nat.lt_or_ge k scenes.length with hlt | hge
  · rw [List.get_append_left]
    exact h k hlt
  · have hk2 : k = scenes.length := by omega
    subst hk2
    simp [List.get_append_right, hx]

theorem parseLoop_numbering (ctx : List LineObj) :
    ∀ fuel i scenes cur, NumOk scenes →
      (∀ acc, cur = some acc → acc.sceneNumber = scenes.length + 1) →
      NumOk (parseGo ctx fuel i scenes cur) := by
  intro fuel i scenes cur h1 h2
  refine parseLoop_invariant ctx
    (fun scenes cur => NumOk scenes ∧
      ∀ acc, cur = some acc → acc.sceneNumber = scenes.length + 1)
    NumOk ?_ ?_ ?_ ?_ ?_ ?_ fuel i scenes cur ⟨h1, h2⟩
  · intro scenes cur lineObj _ _ _ _ hR
    refine ⟨?_, ?_⟩
    · cases cur with
      | none => exact hR.1
      | some acc =>
        exact numOk_append hR.1 (by simpa [sealScene] using hR.2 acc rfl)
    · intro acc2 hacc2
      cases hacc2
      rfl
  · intro scenes acc i hi _ _ _ _ hR
    refine ⟨hR.1, ?_⟩
    intro acc2 hacc2
    cases hacc2
    simpa [charCueStep, pushLine] using hR.2 acc rfl
  · intro scenes acc lineObj _ _ _ _ hR
    refine ⟨hR.1, ?_⟩
    intro acc2 hacc2
    cases hacc2
    simpa [pushAction, pushLine] using hR.2 acc rfl
  · intro scenes acc lineObj _ _ _ _ hR
    refine ⟨hR.1, ?_⟩
    intro acc2 hacc2
    cases hacc2
    simpa [pushLine] using hR.2 acc rfl
  · intro scenes hR
    exact hR.1
  · intro scenes acc hR
    exact numOk_append hR.1 (by simpa [sealScene] using hR.2 acc rfl)

theorem parseLoop_append_only (ctx : List LineObj) (scenes0 : List Scene) :
    ∀ fuel i scenes cur, (∃ t, scenes = scenes0 ++ t) →
      ∃ t, parseGo ctx fuel i scenes cur = scenes0 ++ t := by
  intro fuel i scenes cur h
  refine parseLoop_invariant ctx
    (fun scenes _ => ∃ t, scenes = scenes0 ++ t)
    (fun out => ∃ t, out = scenes0 ++ t) ?_ ?_ ?_ ?_ ?_ ?_ fuel i scenes cur h
  · intro scenes cur lineObj _ _ _ _ hR
    obtain ⟨t, ht⟩ := hR
    cases cur with
    | none => exact ⟨t, ht⟩
    | some acc => exact ⟨t ++ [sealScene acc], by simp [sealedScenes, ht]⟩
  · intro scenes acc i hi _ _ _ _ hR
    exact hR
  · intro scenes acc lineObj _ _ _ _ hR
    exact hR
  · intro scenes acc lineObj _ _ _ _ hR
    exact hR
  · intro scenes hR
    exact hR
  · intro scenes acc hR
    obtain ⟨t, ht⟩ := hR
    exact ⟨t ++ [sealScene acc], by simp [ht]⟩

/-- A line that survived the page-number/footer filter and is non-blank. -/
def GoodLine (l : String) : Prop :=
  l ≠ "" ∧ isPageNumber l = false ∧ isPageFooter l = false

theorem collectGo_lines_good (ctx : List LineObj) :
    ∀ fuel j,
      (∀ l ∈ (collectGo ctx fuel j).1, GoodLine l) ∧
      (∀ l ∈ (collectGo ctx fuel j).2.1, GoodLine l) := by
    intro fuel
    induction fuel with
    | zero =>
      intro j
      simp [collectGo]
    | succ fuel ih =>
      intro j
      rw [collectGo_succ]
      by_cases h : j < ctx.length
      · have ih1 := ih (j + 1)
        simp only [dif_pos h]
        split
        next hne => exact ih1
        next hne =>
          split
          next hbreak => simp
          next hbreak =>
            push_neg at hbreak
            have hgood : GoodLine (trimS (ctx.get ⟨j, h⟩).text) := by
              refine ⟨by simpa using hne, ?_, ?_⟩
              · simpa using hbreak.2.2.2.1
              · simpa using hbreak.2.2.2.2
            split
            next hparen =>
              refine ⟨ih1.1, ?_⟩
              intro l hl
              rcases List.mem_cons.mp hl with hl | hl
              · exact hl ▸ hgood
              · exact ih1.2 l hl
            next hparen =>
              split
              next hact => simp
              next hact =>
                refine ⟨?_, ?_⟩
                · intro l hl
                  rcases List.mem_cons.mp hl with hl | hl
                  · exact hl ▸ hgood
                  · exact ih1.1 l hl
                · intro l hl
                  rcases List.mem_cons.mp hl with hl | hl
                  · exact hl ▸ hgood
                  · exact ih1.2 l hl
      · simp [h]

theorem collectDialogue_lines_good (ctx : List LineObj) (j : Nat) :
    (∀ l ∈ (collectDialogue ctx j).1, GoodLine l) ∧
    (∀ l ∈ (collectDialogue ctx j).2.1, GoodLine l) :=
  collectGo_lines_good ctx (ctx.length - j) j

theorem mem_addUnique_self (l : List String) (x : String) : x ∈ addUnique l x := by
  unfold addUnique
  split
  next h => exact h
  next h => simp

theorem mem_addUnique_of_mem {l : List String} {y : String} (x : String)
    (h : y ∈ l) : y ∈ addUnique l x := by
  unfold addUnique
  split
  next => exact h
  next => simp [h]

/-- Content facts about an in-progress scene accumulator: every dialogue
entry is attributed to a registered actor and is the space-join of a
non-empty list of good lines, and the buffered scene lines and actions are
good. -/
def AccGood (acc : SceneAcc) : Prop :=
  (∀ d ∈ acc.dialogue, d.character ∈ acc.actors) ∧
  (acc.sceneLines ≠ [] ∧ ∀ l ∈ acc.sceneLines, GoodLine l) ∧
  (∀ l ∈ acc.actions, GoodLine l) ∧
  (∀ d ∈ acc.dialogue, ∃ ds, ds ≠ [] ∧ d.text = joinSep " " ds ∧ ∀ l ∈ ds, GoodLine l)

/-- The same facts for a sealed scene, with `fullText` exhibited as the
newline-join of its (good) constituent lines. -/
def SceneGood (s : Scene) : Prop :=
  (∀ d ∈ s.dialogue, d.character ∈ s.actors) ∧
  (∃ ls, ls ≠ [] ∧ s.fullText = joinSep "\n" ls ∧ ∀ l ∈ ls, GoodLine l) ∧
  (∀ l ∈ s.actions, GoodLine l) ∧
  (∀ d ∈ s.dialogue, ∃ ds, ds ≠ [] ∧ d.text = joinSep " " ds ∧ ∀ l ∈ ds, GoodLine l)

theorem sealScene_good {acc : SceneAcc} (h : AccGood acc) :
    SceneGood (sealScene acc) := by
  obtain ⟨h1, h2, h3, h4⟩ := h
  exact ⟨h1, ⟨acc.sceneLines, h2.1, rfl, h2.2⟩, h3, h4⟩

theorem parseLoop_scene_good (ctx : List LineObj)
    (hctx : ∀ lo ∈ ctx, lo.text ≠ "") :
    ∀ fuel i scenes cur, (∀ s ∈ scenes, SceneGood s) →
      (∀ acc, cur = some acc → AccGood acc) →
      ∀ s ∈ parseGo ctx fuel i scenes cur, SceneGood s := by
  intro fuel i scenes cur h1 h2
  refine parseLoop_invariant ctx
    (fun scenes cur => (∀ s ∈ scenes, SceneGood s) ∧
      ∀ acc, cur = some acc → AccGood acc)
    (fun out => ∀ s ∈ out, SceneGood s) ?_ ?_ ?_ ?_ ?_ ?_ fuel i scenes cur ⟨h1, h2⟩
  · -- heading step
    intro scenes cur lineObj hmem hsh hpn hpf hR
    constructor
    · cases cur with
      | none => exact hR.1
      | some acc =>
        intro s hs
        rcases List.mem_append.mp hs with hs | hs
        · exact hR.1 s hs
        · rw [List.mem_singleton.mp hs]
          exact sealScene_good (hR.2 acc rfl)
    · intro acc2 hacc2
      cases hacc2
      refine ⟨by simp [newSceneAcc], ⟨by simp [newSceneAcc], ?_⟩,
        by simp [newSceneAcc], by simp [newSceneAcc]⟩
      intro l hl
      simp only [newSceneAcc, List.mem_singleton] at hl
      subst hl
      exact ⟨hctx lineObj hmem, hpn, hpf⟩
  · -- character-cue step
    intro scenes acc i hi hpn hpf hsh hcn hR
    refine ⟨hR.1, ?_⟩
    intro acc2 hacc2
    cases hacc2
    obtain ⟨g1, g2, g3, g4⟩ := hR.2 acc rfl
    have hcoll := collectDialogue_lines_good ctx (i + 1)
    have hline : GoodLine (ctx.get ⟨i, hi⟩).text :=
      ⟨hctx _ (List.get_mem ctx i hi), hpn, hpf⟩
    refine ⟨?_, ⟨?_, ?_⟩, ?_, ?_⟩
    · intro d hd
      simp only [charCueStep, pushLine] at hd ⊢
      split at hd
      next =>
        exact mem_addUnique_of_mem _ (g1 d hd)
      next =>
        rcases List.mem_append.mp hd with hd | hd
        · exact mem_addUnique_of_mem _ (g1 d hd)
        · rw [List.mem_singleton.mp hd]
          exact mem_addUnique_self _ _
    · simp [charCueStep, pushLine]
    · intro l hl
      simp only [charCueStep, pushLine, List.append_assoc, List.mem_append] at hl
      rcases hl with hl | hl | hl
      · exact g2.2 l hl
      · rw [List.mem_singleton.mp hl]
        exact hline
      · exact hcoll.2 l hl
    · intro l hl
      simp only [charCueStep, pushLine] at hl
      exact g3 l hl
    · intro d hd
      simp only [charCueStep, pushLine] at hd
      split at hd
      next => exact g4 d hd
      next hne =>
        rcases List.mem_append.mp hd with hd | hd
        · exact g4 d hd
        · rw [List.mem_singleton.mp hd]
          refine ⟨(collectDialogue ctx (i + 1)).1, by simpa using hne, rfl, hcoll.1⟩
  · -- action step
    intro scenes acc lineObj hmem hpn hpf hsh hR
    refine ⟨hR.1, ?_⟩
    intro acc2 hacc2
    cases hacc2
    obtain ⟨g1, g2, g3, g4⟩ := hR.2 acc rfl
    have hline : GoodLine lineObj.text := ⟨hctx lineObj hmem, hpn, hpf⟩
    refine ⟨by simpa [pushAction, pushLine] using g1, ⟨by simp [pushAction, pushLine], ?_⟩, ?_, by simpa [pushAction, pushLine] using g4⟩
    · intro l hl
      simp only [pushAction, pushLine, List.mem_append] at hl
      rcases hl with hl | hl
      · exact g2.2 l hl
      · rw [List.mem_singleton.mp hl]
        exact hline
    · intro l hl
      simp only [pushAction, pushLine, List.mem_append] at hl
      rcases hl with hl | hl
      · exact g3 l hl
      · rw [List.mem_singleton.mp hl]
        exact hline
  · -- transition / name-like step
    intro scenes acc lineObj hmem hpn hpf hsh hR
    refine ⟨hR.1, ?_⟩
    intro acc2 hacc2
    cases hacc2
    obtain ⟨g1, g2, g3, g4⟩ := hR.2 acc rfl
    have hline : GoodLine lineObj.text := ⟨hctx lineObj hmem, hpn, hpf⟩
    refine ⟨by simpa [pushLine] using g1, ⟨by simp [pushLine], ?_⟩,
      by simpa [pushLine] using g3, by simpa [pushLine] using g4⟩
    intro l hl
    simp only [pushLine, List.mem_append] at hl
    rcases hl with hl | hl
    · exact g2.2 l hl
    · rw [List.mem_singleton.mp hl]
      exact hline
  · intro scenes hR
    exact hR.1
  · intro scenes acc hR
    intro s hs
    rcases List.mem_append.mp hs with hs | hs
    · exact hR.1 s hs
    · rw [List.mem_singleton.mp hs]
      exact sealScene_good (hR.2 acc rfl)

theorem flattenPages_text_ne (pages : List Page) :
    ∀ lo ∈ flattenPages pages, lo.text ≠ "" := by
  intro lo hlo
  simp only [flattenPages, List.mem_flatMap] at hlo
  obtain ⟨page, _, hlo⟩ := hlo
  simp only [List.mem_map] at hlo
  obtain ⟨l, hl, hlo⟩ := hlo
  have := (List.mem_filter.mp hl).2
  subst hlo
  simpa using this

/-- Every scene returned by `parseScenes` satisfies the content facts. -/
theorem parseScenes_scene_good (pages : List Page) :
    ∀ s ∈ parseScenes pages, SceneGood s := by
  refine parseLoop_scene_good (flattenPages pages) (flattenPages_text_ne pages)
    (flattenPages pages).length 0 [] none (by simp) (by simp)

/-- The per-character accumulator of `extractCharacters` (one value of the
insertion-ordered `characterMap`). -/
structure CharAcc where
  name : String
  lines : Nat
  sceneIdxs : List Nat
  dialogue : List String
deriving DecidableEq, Repr, Inhabited

/-- Insertion-ordered map update in place (JavaScript `Map.set` on an
existing key keeps the entry's position). -/
def mapUpdate (m : List CharAcc) (name : String) (f : CharAcc → CharAcc) :
    List CharAcc :=
  m.map (fun c => if c.name = name then f c else c)

/-- Key-membership test. -/
def mapHas (m : List CharAcc) (name : String) : Bool :=
  m.any (fun c => c.name = name)

/-- The actors pass of one scene in `extractCharacters`. -/
def processActors (sceneIndex : Nat) (m : List CharAcc) (actors : List String) :
    List CharAcc :=
  actors.foldl (fun m charName =>
    let m1 := if mapHas m charName then m else m ++ [⟨charName, 0, [], []⟩]
    mapUpdate m1 charName (fun c =>
      if sceneIndex ∈ c.sceneIdxs then c
      else { c with sceneIdxs := c.sceneIdxs ++ [sceneIndex] })) m

/-- The dialogue pass of one scene in `extractCharacters`. -/
def processDialogue (m : List CharAcc) (ds : List DialogueEntry) : List CharAcc :=
  ds.foldl (fun m d =>
    if mapHas m d.character then
      mapUpdate m d.character (fun c =>
        { c with lines := c.lines + 1, dialogue := c.dialogue ++ [d.text] })
    else m) m

/-- The full `characterMap` fold of `extractCharacters`. -/
def extractCharsMap (scenes : List Scene) : List CharAcc :=
  scenes.enum.foldl (fun m p =>
    processDialogue (processActors p.1 m p.2.actors) p.2.dialogue) []

/-- A returned character record. -/
structure Character where
  name : String
  lines : Nat
  scenes : Nat
  sceneIds : List String
  dialogue : List String
deriving DecidableEq, Repr, Inhabited

/-- `extractCharacters` of page.parser.js. -/
def extractCharacters (scenes : List Scene) : List Character :=
  (extractCharsMap scenes).map (fun c =>
    ⟨c.name, c.lines, c.sceneIdxs.length, c.sceneIdxs.map toString, c.dialogue⟩)

/-- Total `lines` count over a character map. -/
def sumLines (m : List CharAcc) : Nat := (m.map CharAcc.lines).sum

/-- The keys of a character map. -/
def mapNames (m : List CharAcc) : List String := m.map CharAcc.name

theorem mapHas_iff {m : List CharAcc} {x : String} :
    mapHas m x = true ↔ x ∈ mapNames m := by
  simp only [mapHas, mapNames, List.any_eq_true, List.mem_map, decide_eq_true_eq]

theorem mapUpdate_names {x : String} {f : CharAcc → CharAcc}
    (hf : ∀ c, (f c).name = c.name) (m : List CharAcc) :
    mapNames (mapUpdate m x f) = mapNames m := by
  induction m with
  | nil => rfl
  | cons c rest ih =>
    simp only [mapUpdate, mapNames, List.map_cons] at ih ⊢
    split
    next => rw [hf c, ih]
    next => rw [ih]

theorem mapUpdate_id_of_not_mem {m : List CharAcc} {x : String}
    {f : CharAcc → CharAcc} (h : x ∉ mapNames m) : mapUpdate m x f = m := by
  induction m with
  | nil => rfl
  | cons c rest ih =>
    simp only [mapNames, List.map_cons, List.mem_cons] at h
    push_neg at h
    simp only [mapUpdate, List.map_cons]
    rw [if_neg (fun hc => h.1 hc.symm)]
    have : List.map (fun c => if c.name = x then f c else c) rest = rest :=
      ih (by simpa [mapNames] using h.2)
    rw [this]

theorem sumLines_mapUpdate_inc {x : String}
    {f : CharAcc → CharAcc} (hf : ∀ c, (f c).lines = c.lines + 1)
    (m : List CharAcc) (hnd : (mapNames m).Nodup) (hx : x ∈ mapNames m) :
    sumLines (mapUpdate m x f) = sumLines m + 1 := by
  induction m with
  | nil => simp [mapNames] at hx
  | cons c rest ih =>
    simp only [mapNames, List.map_cons, List.nodup_cons] at hnd
    simp only [mapNames, List.map_cons, List.mem_cons] at hx
    simp only [mapUpdate, List.map_cons, sumLines, List.sum_cons]
    by_cases hc : c.name = x
    · rw [if_pos hc]
      have hrest : x ∉ mapNames rest := hc ▸ hnd.1
      have heq : List.map (fun c => if c.name = x then f c else c) rest = rest :=
        mapUpdate_id_of_not_mem hrest
      rw [heq, hf c]
      omega
    · rw [if_neg hc]
      rcases hx with hx | hx
      · exact absurd hx.symm hc
      · have := ih hnd.2 hx
        simp only [mapUpdate, sumLines] at this
        omega

theorem sumLines_mapUpdate_const {x : String}
    {f : CharAcc → CharAcc} (hf : ∀ c, (f c).lines = c.lines)
    (m : List CharAcc) :
    sumLines (mapUpdate m x f) = sumLines m := by
  induction m with
  | nil => rfl
  | cons c rest ih =>
    simp only [mapUpdate, List.map_cons, sumLines, List.sum_cons] at ih ⊢
    split
    next => rw [hf c]; omega
    next => omega

theorem processActors_cons (sceneIndex : Nat) (m : List CharAcc) (a : String)
    (rest : List String) :
    processActors sceneIndex m (a :: rest) = processActors sceneIndex
      (mapUpdate (if mapHas m a then m else m ++ [⟨a, 0, [], []⟩]) a
        (fun c => if sceneIndex ∈ c.sceneIdxs then c
          else { c with sceneIdxs := c.sceneIdxs ++ [sceneIndex] })) rest := rfl

theorem processDialogue_cons (m : List CharAcc) (d : DialogueEntry)
    (rest : List DialogueEntry) :
    processDialogue m (d :: rest) = processDialogue
      (if mapHas m d.character then
        mapUpdate m d.character (fun c =>
          { c with lines := c.lines + 1, dialogue := c.dialogue ++ [d.text] })
      else m) rest := rfl

theorem processActors_sum (sceneIndex : Nat) (actors : List String) :
    ∀ m, sumLines (processActors sceneIndex m actors) = sumLines m := by
  induction actors with
  | nil => intro m; rfl
  | cons a rest ih =>
    intro m
    rw [processActors_cons, ih]
    rw [sumLines_mapUpdate_const (by intro c; split <;> rfl)]
    split
    · rfl
    · simp [sumLines]

theorem processActors_names_mono (sceneIndex : Nat) (actors : List String) :
    ∀ m x, x ∈ mapNames m → x ∈ mapNames (processActors sceneIndex m actors) := by
  induction actors with
  | nil => intro m x hx; exact hx
  | cons a rest ih =>
    intro m x hx
    rw [processActors_cons]
    refine ih _ x ?_
    rw [mapUpdate_names (by intro c; split <;> rfl)]
    split
    · exact hx
    · simp only [mapNames, List.map_append, List.mem_append]
      exact Or.inl hx

theorem processActors_has_all (sceneIndex : Nat) (actors : List String) :
    ∀ m, ∀ a ∈ actors, a ∈ mapNames (processActors sceneIndex m actors) := by
  induction actors with
  | nil => intro m a ha; simp at ha
  | cons b rest ih =>
    intro m a ha
    rw [processActors_cons]
    rcases List.mem_cons.mp ha with ha | ha
    · subst ha
      refine processActors_names_mono sceneIndex rest _ a ?_
      rw [mapUpdate_names (by intro c; split <;> rfl)]
      split
      next h => exact mapHas_iff.mp h
      next h => simp [mapNames]
    · exact ih _ a ha

theorem processActors_nodup (sceneIndex : Nat) (actors : List String) :
    ∀ m, (mapNames m).Nodup →
      (mapNames (processActors sceneIndex m actors)).Nodup := by
  induction actors with
  | nil => intro m h; exact h
  | cons a rest ih =>
    intro m h
    rw [processActors_cons]
    refine ih _ ?_
    rw [mapUpdate_names (by intro c; split <;> rfl)]
    split
    next => exact h
    next hhas =>
      simp only [mapNames, List.map_append]
      rw [List.nodup_append]
      refine ⟨h, by simp, ?_⟩
      intro x hx
      simp only [List.map_cons, List.map_nil, List.mem_singleton]
      intro hxa
      subst hxa
      exact hhas (mapHas_iff.mpr hx)

theorem processDialogue_facts (ds : List DialogueEntry) :
    ∀ m, (mapNames m).Nodup → (∀ d ∈ ds, d.character ∈ mapNames m) →
      sumLines (processDialogue m ds) = sumLines m + ds.length ∧
      mapNames (processDialogue m ds) = mapNames m := by
  induction ds with
  | nil => intro m hnd hds; exact ⟨rfl, rfl⟩
  | cons d rest ih =>
    intro m hnd hds
    rw [processDialogue_cons]
    have hd := hds d (List.mem_cons_self d rest)
    rw [if_pos (mapHas_iff.mpr hd)]
    have hnames : mapNames (mapUpdate m d.character (fun c =>
        { c with lines := c.lines + 1, dialogue := c.dialogue ++ [d.text] })) = mapNames m :=
      mapUpdate_names (by intro c; rfl) m
    have hres := ih (mapUpdate m d.character (fun c =>
        { c with lines := c.lines + 1, dialogue := c.dialogue ++ [d.text] }))
      (by rw [hnames]; exact hnd)
      (by intro e he; rw [hnames]; exact hds e (List.mem_cons_of_mem d he))
    refine ⟨?_, by rw [hres.2, hnames]⟩
    rw [hres.1]
    rw [sumLines_mapUpdate_inc (by intro c; rfl) m hnd hd]
    simp
    omega

/-- Conservation through the whole `extractCharacters` fold: over scenes
whose dialogue entries are all attributed to registered actors, the total
`lines` equals the total number of dialogue entries. -/
theorem extractCharsMap_conservation (scenes : List Scene)
    (hgood : ∀ s ∈ scenes, ∀ d ∈ s.dialogue, d.character ∈ s.actors) :
    sumLines (extractCharsMap scenes) =
      ((scenes.map (fun s => s.dialogue.length)).sum) := by
  have H : ∀ (l : List (Nat × Scene)) m,
      (∀ p ∈ l, ∀ d ∈ p.2.dialogue, d.character ∈ p.2.actors) →
      (mapNames m).Nodup →
      sumLines (l.foldl (fun m p =>
        processDialogue (processActors p.1 m p.2.actors) p.2.dialogue) m) =
        sumLines m + ((l.map (fun p => p.2.dialogue.length)).sum) ∧
      (mapNames (l.foldl (fun m p =>
        processDialogue (processActors p.1 m p.2.actors) p.2.dialogue) m)).Nodup := by
    intro l
    induction l with
    | nil => intro m _ hnd; exact ⟨by simp, hnd⟩
    | cons p rest ih =>
      intro m hl hnd
      rw [List.foldl_cons]
      have hnd2 : (mapNames (processActors p.1 m p.2.actors)).Nodup :=
        processActors_nodup p.1 p.2.actors m hnd
      have hkeys : ∀ d ∈ p.2.dialogue,
          d.character ∈ mapNames (processActors p.1 m p.2.actors) := by
        intro d hd
        exact processActors_has_all p.1 p.2.actors m d.character
          (hl p (List.mem_cons_self p rest) d hd)
      have hpd := processDialogue_facts p.2.dialogue
        (processActors p.1 m p.2.actors) hnd2 hkeys
      have := ih (processDialogue (processActors p.1 m p.2.actors) p.2.dialogue)
        (by intro q hq; exact hl q (List.mem_cons_of_mem p hq))
        (by rw [hpd.2]; exact hnd2)
      refine ⟨?_, this.2⟩
      rw [this.1, hpd.1, processActors_sum]
      simp
      omega
  have := H scenes.enum [] ?_ (by simp [mapNames])
  · rw [extractCharsMap, this.1]
    have : (scenes.enum.map (fun p => p.2.dialogue.length)).sum =
        ((scenes.map (fun s => s.dialogue.length)).sum) := by
      congr 1
      rw [show (fun p : Nat × Scene => p.2.dialogue.length) =
        (fun s : Scene => s.dialogue.length) ∘ Prod.snd from rfl, ← List.map_map]
      congr 1
      exact List.enum_map_snd scenes
    simp [sumLines] at this ⊢
    omega
  · intro p hp
    exact hgood p.2 (List.snd_mem_of_mem_enum hp)

/-- The text of stream line `k` (empty when out of range). -/
def lineAt (ctx : List LineObj) (k : Nat) : String :=
  (ctx.getD k default).text

theorem lineAt_eq_get (ctx : List LineObj) (k : Nat) (h : k < ctx.length) :
    lineAt ctx k = (ctx.get ⟨k, h⟩).text := by
  rw [lineAt, List.getD_eq_get?, List.get?_eq_get h]
  rfl

/-- Line `k` of the stream is one of the structural markers at which the
dialogue lookahead stops: a character cue, scene heading, transition,
page number, page footer, or an action-shaped line. -/
def stopCond (ctx : List LineObj) (k : Nat) : Prop :=
  isCharacterName (trimS (lineAt ctx k)) ctx k = true ∨
  isSceneHeading (trimS (lineAt ctx k)) = true ∨
  isTransition (trimS (lineAt ctx k)) = true ∨
  isPageNumber (trimS (lineAt ctx k)) = true ∨
  isPageFooter (trimS (lineAt ctx k)) = true ∨
  isLikelyActionLine (trimS (lineAt ctx k)) = true

/-- Line `k` is not one of the hard break markers (it is blank or was
consumed by the lookahead). -/
def consumedCond (ctx : List LineObj) (k : Nat) : Prop :=
  trimS (lineAt ctx k) = "" ∨
  ¬ (isCharacterName (trimS (lineAt ctx k)) ctx k = true ∨
     isSceneHeading (trimS (lineAt ctx k)) = true ∨
     isTransition (trimS (lineAt ctx k)) = true ∨
     isPageNumber (trimS (lineAt ctx k)) = true ∨
     isPageFooter (trimS (lineAt ctx k)) = true)

theorem collectGo_stop (ctx : List LineObj) :
    ∀ fuel j, ctx.length ≤ fuel + j → j ≤ ctx.length →
      (collectGo ctx fuel j).2.2 ≤ ctx.length ∧
      ((collectGo ctx fuel j).2.2 < ctx.length →
        stopCond ctx (collectGo ctx fuel j).2.2) ∧
      (∀ k, j ≤ k → k < (collectGo ctx fuel j).2.2 → consumedCond ctx k) := by
  intro fuel
  induction fuel with
  | zero =>
    intro j hn hj
    have hj2 : j = ctx.length := by omega
    rw [collectGo_zero]
    refine ⟨by simp; omega, ?_, ?_⟩
    · intro hlt
      simp at hlt
      omega
    · intro k hk1 hk2
      simp at hk2
      omega
  | succ fuel ih =>
    intro j hn hj
    rw [collectGo_succ]
    by_cases h : j < ctx.length
    · have ih1 := ih (j + 1) (by omega) (by omega)
      have hline : trimS (lineAt ctx j) = trimS (ctx.get ⟨j, h⟩).text := by
        rw [lineAt_eq_get ctx j h]
      simp only [dif_pos h]
      split
      next hne =>
        refine ⟨ih1.1, ih1.2.1, ?_⟩
        intro k hk1 hk2
        rcases Nat.eq_or_lt_of_le hk1 with hk | hk
        · subst hk
          left
          rw [hline]
          exact hne
        · exact ih1.2.2 k hk hk2
      next hne =>
        split
        next hbreak =>
          refine ⟨by simp; omega, ?_, ?_⟩
          · intro hlt
            rcases hbreak with hb | hb | hb | hb | hb
            · exact Or.inl (by rw [hline]; exact hb)
            · exact Or.inr (Or.inl (by rw [hline]; exact hb))
            · exact Or.inr (Or.inr (Or.inl (by rw [hline]; exact hb)))
            · exact Or.inr (Or.inr (Or.inr (Or.inl (by rw [hline]; exact hb))))
            · exact Or.inr (Or.inr (Or.inr (Or.inr (Or.inl (by rw [hline]; exact hb)))))
          · intro k hk1 hk2
            simp at hk2
            omega
        next hbreak =>
          split
          next hparen =>
            refine ⟨by simpa using ih1.1, by simpa using ih1.2.1, ?_⟩
            intro k hk1 hk2
            simp only at hk2
            rcases Nat.eq_or_lt_of_le hk1 with hk | hk
            · subst hk
              right
              rw [hline]
              push_neg at hbreak
              simpa using hbreak
            · exact ih1.2.2 k hk hk2
          next hparen =>
            split
            next hact =>
              refine ⟨by simp; omega, ?_, ?_⟩
              · intro hlt
                exact Or.inr (Or.inr (Or.inr (Or.inr (Or.inr (by rw [hline]; exact hact)))))
              · intro k hk1 hk2
                simp at hk2
                omega
            next hact =>
              refine ⟨by simpa using ih1.1, by simpa using ih1.2.1, ?_⟩
              intro k hk1 hk2
              simp only at hk2
              rcases Nat.eq_or_lt_of_le hk1 with hk | hk
              · subst hk
                right
                rw [hline]
                push_neg at hbreak
                simpa using hbreak
              · exact ih1.2.2 k hk hk2
    · rw [dif_neg h]
      refine ⟨by simpa using hj, ?_, ?_⟩
      · intro hlt
        simp at hlt
        omega
      · intro k hk1 hk2
        simp at hk2
        omega

theorem collectDialogue_stop (ctx : List LineObj) :
    ∀ j, j ≤ ctx.length →
      (collectDialogue ctx j).2.2 ≤ ctx.length ∧
      ((collectDialogue ctx j).2.2 < ctx.length →
        stopCond ctx (collectDialogue ctx j).2.2) ∧
      (∀ k, j ≤ k → k < (collectDialogue ctx j).2.2 → consumedCond ctx k) := by
  intro j hj
  exact collectGo_stop ctx (ctx.length - j) j (by omega) hj

/-- First-seen-order deduplication, `[...new Set(xs)]`. -/
def dedup (l : List String) : List String :=
  l.foldl addUnique []

/-- The returned metadata record. -/
structure Metadata where
  totalPages : Nat
  scenes : Nat
  characters : Nat
  locations : Nat
  timePeriods : Nat
  totalDialogue : Nat
  totalActions : Nat
  needsReview : Bool
deriving DecidableEq, Repr, Inhabited

/-- `generateMetadata` of page.parser.js: aggregate counts, with the
hard-coded `needsReview: true` flag. -/
def generateMetadata (pages : List Page) (scenes : List Scene)
    (characters : List Character) : Metadata :=
  { totalPages := pages.length
    scenes := scenes.length
    characters := characters.length
    locations := (dedup ((scenes.map Scene.location).filter (fun s => s ≠ ""))).length
    timePeriods := (dedup ((scenes.map Scene.timeOfDay).filter (fun s => s ≠ ""))).length
    totalDialogue := scenes.foldl (fun sum s => sum + s.dialogue.length) 0
    totalActions := scenes.foldl (fun sum s => sum + s.actions.length) 0
    needsReview := true }

/-- The mojibake repair chain shared by the parser variants
(`.replace(/â€™/g, "'") … .replace(/piÃ¹/g, 'più')`), in source order. -/
def mojibakeSteps : List (List Char × List Char) :=
  [("â€™".data, [apos]), ("â€œ".data, "\"".data), ("â€".data, "\"".data),
   ("â€\"".data, "—".data), ("â€\"".data, "–".data),
   ("Ã ".data, "à".data), ("Ã¨".data, "è".data), ("Ã©".data, "é".data),
   ("Ã¬".data, "ì".data), ("Ã²".data, "ò".data), ("Ã¹".data, "ù".data),
   ("piÃ¹".data, "più".data)]

/-- Apply a list of fixed global replacements in order. -/
def applySteps (steps : List (List Char × List Char)) (s : List Char) : List Char :=
  steps.foldl (fun acc pr => Js.replaceAll pr.1 pr.2 acc) s

/-- `cleanScriptText` of page.parser.js, as the ordered composition of its
`replace` chain (the two `â€"` dash repairs run after all `â€` sequences
have already been rewritten, and `piÃ¹` after `Ã¹`, so both are inert, but
they are kept for fidelity). -/
def cleanScriptText (text : String) : String :=
  ⟨trimL (applySteps mojibakeSteps (Js.replaceWsNl
    (Js.replaceAll ['\t'] ("    ".data)
      (Js.replaceAll ['\r'] ['\n']
        (Js.replaceAll ['\r', '\n'] ['\n'] text.data)))))⟩

/-- The result record of a whole parse. -/
structure ParseResult where
  pages : List Page
  scenes : List Scene
  characters : List Character
  metadata : Metadata
deriving Repr, Inhabited

/-- The pure part of `parse(filePath)`: everything after the external PDF
text extraction (which supplies `text` and `totalPages`). -/
def parsePipeline (text : String) (totalPages : Nat) : ParseResult :=
  let cleanedText := cleanScriptText text
  let pages := extractPages cleanedText totalPages
  let scenes := parseScenes pages
  let characters := extractCharacters scenes
  ⟨pages, scenes, characters, generateMetadata pages scenes characters⟩

end HybridScriptParser

namespace DocumentBasedScriptParser

open Js SceneHeadingRegex

/-- `isSceneHeading` of document.parser.js — textually identical to the
page parser's three patterns. -/
def isSceneHeading (line : String) : Bool :=
  HybridScriptParser.isSceneHeading line

/-- `parseSceneHeading` of document.parser.js: ONLY the dash-delimited
pattern1 is attempted; on failure all components keep their defaults
`INT` / `Unknown` / `DAY`. -/
def parseSceneHeading (heading : String) : HybridScriptParser.SceneHeadingData :=
  match matchPattern1 scenePrefixAlts heading.data with
  | some (pre, loc, time) => ⟨pre, trimS ⟨loc⟩, time⟩
  | none => ⟨"INT", "Unknown", "DAY"⟩

/-- The (shorter) transition vocabulary of document.parser.js. -/
def transitions : List String :=
  ["FADE OUT", "FADE IN", "CUT TO", "DISSOLVE TO", "THE END", "CONTINUED"]

/-- `isTransition` of document.parser.js. -/
def isTransition (line : String) : Bool :=
  transitions.any (fun t => occursB t.data (upperL line.data))

/-- `isPageNumber` — same pattern as the page parser. -/
def isPageNumber (line : String) : Bool := HybridScriptParser.isPageNumber line

/-- `isPageFooter` — same patterns as the page parser. -/
def isPageFooter (line : String) : Bool := HybridScriptParser.isPageFooter line

/-- `isParenthetical` of document.parser.js. -/
def isParenthetical (line : String) : Bool := HybridScriptParser.isParenthetical line

/-- `cleanCharacterName` of document.parser.js (no mojibake-apostrophe
repair step, unlike the page parser). -/
def cleanCharacterName (line : String) : String :=
  ⟨trimL (collapseWs (stripParens line.data))⟩

/-- `isCharacterName` of document.parser.js: no page-number exclusion, no
initials rule, and the following line need only be non-blank and not a
scene heading (it may itself be character-shaped). -/
def isCharacterName (line : String) (allLines : List String) (currentIndex : Nat) : Bool :=
  let trimmed := trimS line
  if trimmed.data.length < 2 ∨ trimmed.data.length > 50 then false
  else if isSceneHeading trimmed ∨ isTransition trimmed then false
  else
    let withoutParens := trimS ⟨stripParens trimmed.data⟩
    if withoutParens = "" ∨ ¬ HybridScriptParser.hasUpper withoutParens.data then false
    else if ¬ HybridScriptParser.charNamePattern withoutParens.data then false
    else
      match allLines.get? (currentIndex + 1) with
      | none => false
      | some nextRaw =>
        let nextLine := trimS nextRaw
        if nextLine = "" ∨ isSceneHeading nextLine then false
        else true

/-- The prop keywords of document.parser.js. -/
def propKeywords : List String :=
  ["glasses", "phone", "bottle", "gun", "knife", "car", "computer"]

/-- `extractPropsFromLine` of document.parser.js. -/
def extractPropsFromLine (line : String) : List String :=
  propKeywords.foldl (fun acc kw =>
    if HybridScriptParser.occursWord kw.data (lowerL line.data) then
      acc ++ [(⟨(kw.data.take 1).map Char.toUpper ++ kw.data.drop 1⟩ : String)]
    else acc) []

/-- A page record of `extractTextPages`. -/
structure DocPage where
  pageNumber : Nat
  rawText : String
  lineCount : Nat
deriving DecidableEq, Repr, Inhabited

/-- A scene record of `analyzeScenes`. -/
structure DocScene where
  sceneNumber : Nat
  pageNumber : Nat
  heading : String
  location : String
  intExt : String
  timeOfDay : String
  dialogue : List HybridScriptParser.DialogueEntry
  actions : List String
  actors : List String
  props : List String
  text : String
  summary : String
deriving DecidableEq, Repr, Inhabited

/-- The in-progress scene accumulator of `analyzeScenes` (with the
`sceneLines` buffer). -/
structure DocAcc where
  sceneNumber : Nat
  pageNumber : Nat
  heading : String
  location : String
  intExt : String
  timeOfDay : String
  dialogue : List HybridScriptParser.DialogueEntry
  actions : List String
  actors : List String
  props : List String
  sceneLines : List String
deriving DecidableEq, Repr, Inhabited

/-- `generateSceneSummary` of document.parser.js. -/
def generateSceneSummary (acc : DocAcc) : String :=
  let actionText := joinSep " " (acc.actions.take 3)
  let dialogueText := joinSep " " ((acc.dialogue.take 2).map (fun d =>
    d.character ++ ": " ++ (⟨d.text.data.take 50⟩ : String) ++ "..."))
  let s := trimS (actionText ++ " " ++ dialogueText)
  if s = "" then "No summary available" else s

/-- Seal a scene: `text` is the newline-join of the buffered lines. -/
def docSeal (acc : DocAcc) : DocScene :=
  { sceneNumber := acc.sceneNumber
    pageNumber := acc.pageNumber
    heading := acc.heading
    location := acc.location
    intExt := acc.intExt
    timeOfDay := acc.timeOfDay
    dialogue := acc.dialogue
    actions := acc.actions
    actors := acc.actors
    props := acc.props
    text := joinSep "\n" acc.sceneLines
    summary := generateSceneSummary acc }

/-- A fresh accumulator opened at a heading. -/
def docNewAcc (sceneNumber pageNumber : Nat) (trimmed : String) : DocAcc :=
  let sceneData := parseSceneHeading trimmed
  { sceneNumber := sceneNumber
    pageNumber := pageNumber
    heading := trimmed
    location := sceneData.location
    intExt := sceneData.intExt
    timeOfDay := sceneData.time
    dialogue := []
    actions := []
    actors := []
    props := []
    sceneLines := [trimmed] }

/-- Structural worker for the per-page dialogue collection of
`analyzeScenes` (document.parser.js lines 165–171); the collected text
keeps its trailing separator spaces exactly as the `+=` loop builds it. -/
def docCollectGo (lines : List String) : Nat → Nat → String
  | 0, _ => ""
  | fuel + 1, j =>
    if h : j < lines.length then
      if trimS (lines.get ⟨j, h⟩) = "" then docCollectGo lines fuel (j + 1)
      else if isCharacterName (trimS (lines.get ⟨j, h⟩)) lines j ∨
          isSceneHeading (trimS (lines.get ⟨j, h⟩)) then ""
      else trimS (lines.get ⟨j, h⟩) ++ " " ++ docCollectGo lines fuel (j + 1)
    else ""

/-- The dialogue collection starting after the cue at `lineIndex`. -/
def docCollect (lines : List String) (j : Nat) : String :=
  docCollectGo lines (lines.length - j) j

/-- The fold state of `analyzeScenes`: sealed scenes, the open scene, and
the running `sceneNumber` counter. -/
structure DocState where
  scenes : List DocScene
  cur : Option DocAcc
  counter : Nat
deriving Repr, Inhabited

/-- One line step of `analyzeScenes` (`lines` is the current page's line
array, `p` the `(lineIndex, line)` pair). -/
def docProcessLine (lines : List String) (pageNumber : Nat)
    (st : DocState) (p : Nat × String) : DocState :=
  let trimmed := trimS p.2
  if trimmed = "" ∨ isPageNumber trimmed ∨ isPageFooter trimmed then st
  else if isSceneHeading trimmed then
    let scenes2 :=
      match st.cur with
      | some acc => st.scenes ++ [docSeal acc]
      | none => st.scenes
    ⟨scenes2, some (docNewAcc st.counter pageNumber trimmed), st.counter + 1⟩
  else
    match st.cur with
    | none => st
    | some acc =>
      let acc1 := { acc with sceneLines := acc.sceneLines ++ [p.2] }
      let acc2 :=
        if isCharacterName trimmed lines p.1 then
          let characterName := cleanCharacterName trimmed
          let acc2 := { acc1 with actors := HybridScriptParser.addUnique acc1.actors characterName }
          let dialogueText := trimS (docCollect lines (p.1 + 1))
          if dialogueText ≠ "" then
            { acc2 with dialogue := acc2.dialogue ++ [⟨characterName, dialogueText⟩] }
          else acc2
        else acc1
      let acc3 :=
        if ¬ isCharacterName trimmed lines p.1 ∧ ¬ isTransition trimmed ∧
            ¬ isParenthetical trimmed then
          { acc2 with actions := acc2.actions ++ [trimmed] }
        else acc2
      let acc4 := { acc3 with
        props := (extractPropsFromLine trimmed).foldl HybridScriptParser.addUnique acc3.props }
      ⟨st.scenes, some acc4, st.counter⟩

/-- `analyzeScenes` of document.parser.js: a fold over all pages' lines,
sealing the last open scene at the end. -/
def analyzeScenes (textPages : List DocPage) : List DocScene :=
  let st := textPages.foldl (fun st page =>
    ((splitNl page.rawText).enum).foldl
      (docProcessLine (splitNl page.rawText) page.pageNumber) st)
    ⟨[], none, 1⟩
  match st.cur with
  | some acc => st.scenes ++ [docSeal acc]
  | none => st.scenes

end DocumentBasedScriptParser

namespace PDFScriptParser

open Js SceneHeadingRegex

/-- The prefix alternatives of the PDF parser's heading patterns (no
`I/E` alternative, unlike the other variants). -/
def pdfPrefixAlts : List (String × String) :=
  [("INT.", "INT"), ("INT", "INT"), ("EXT.", "EXT"), ("EXT", "EXT"),
   ("INT/EXT.", "INT/EXT"), ("INT/EXT", "INT/EXT")]

/-- Character class `[A-Z\s]` under the `i` flag (no apostrophe, unlike the
page parser's pattern3 class). -/
def pdfHeadingClassChar (c : Char) : Bool := c.isAlpha || jsWs c

/-- `isSceneHeading` of the PDF parser. -/
def isSceneHeading (line : String) : Bool :=
  (matchPattern1 pdfPrefixAlts line.data).isSome ||
  (matchPattern2 pdfPrefixAlts line.data).isSome ||
  testPattern3 pdfPrefixAlts pdfHeadingClassChar line.data

/-- `parseSceneHeading` of the PDF parser. -/
def parseSceneHeading (heading : String) : HybridScriptParser.SceneHeadingData :=
  match matchPattern1 pdfPrefixAlts heading.data with
  | some (pre, loc, time) => ⟨pre, trimS ⟨loc⟩, time⟩
  | none =>
    match matchPattern2 pdfPrefixAlts heading.data with
    | some (pre, loc, time) => ⟨pre, trimS ⟨loc⟩, time⟩
    | none =>
      match matchPattern3 pdfPrefixAlts heading.data with
      | some (pre, loc) => ⟨pre, trimS ⟨loc⟩, "DAY"⟩
      | none => ⟨"INT", "Unknown", "DAY"⟩

/-- The transition vocabulary of the PDF parser (no `CONTINUED`). -/
def transitions : List String :=
  ["FADE OUT", "FADE IN", "CUT TO", "DISSOLVE TO", "SMASH CUT TO",
   "MATCH CUT TO", "JUMP CUT TO", "WIPE TO", "IRIS OUT", "IRIS IN", "THE END"]

/-- `isTransition` of the PDF parser. -/
def isTransition (line : String) : Bool :=
  transitions.any (fun t => occursB t.data (upperL line.data))

/-- `isPageNumber` of the PDF parser (tests the line as given, without the
extra trim of the page parser's version). -/
def isPageNumber (line : String) : Bool :=
  let t := line.data
  let ds := t.takeWhile Char.isDigit
  decide (1 ≤ ds.length) && decide (ds.length ≤ 3) &&
  (t.drop ds.length == [] || t.drop ds.length == ['.'])

/-- `isPageFooter` of the PDF parser: the `"n of m"` regex is
case-sensitive here (no `i` flag), the `Page n` regex is insensitive. -/
def isPageFooter (line : String) : Bool :=
  HybridScriptParser.footerOfScan false line.data ||
  HybridScriptParser.footerPageScan line.data

/-- `isParenthetical` of the PDF parser. -/
def isParenthetical (line : String) : Bool := HybridScriptParser.isParenthetical line

/-- `cleanCharacterName` of the PDF parser (same steps as the page
parser's). -/
def cleanCharacterName (line : String) : String :=
  HybridScriptParser.cleanCharacterName line

/-- The PDF parser's character-name shape
`/^[A-Z][A-Z\s'.-]*[A-Z]$|^[A-Z]$/` (must end in an upper-case letter, or
be a single letter). -/
def pdfNamePattern (l : List Char) : Bool :=
  (match l with
   | [] => false
   | c :: rest =>
     c.isUpper &&
     (match rest.getLast? with
      | none => false
      | some last =>
        last.isUpper &&
        (rest.dropLast).all (fun d => d.isUpper || jsWs d || d = apos || d = '.' || d = '-'))) ||
  (match l with
   | [c] => c.isUpper
   | _ => false)

/-- The script-ender denylist of the PDF parser's character test. -/
def scriptEnders : List String :=
  ["THE END", "CONTINUED", "TO BE CONTINUED", "FADE OUT", "FADE IN"]

/-- `looksLikeCharacterName` of the PDF parser. -/
def looksLikeCharacterName (line : String) : Bool :=
  let trimmed := trimS line
  if trimmed.data.length < 2 ∨ trimmed.data.length > 50 then false
  else
    let withoutParens := trimS ⟨stripParens trimmed.data⟩
    if withoutParens = "" ∨ ¬ HybridScriptParser.hasUpper withoutParens.data then false
    else if ¬ pdfNamePattern withoutParens.data then false
    else if withoutParens.data.contains '.' ∧
        ¬ HybridScriptParser.initialsPrefix withoutParens.data then false
    else if isSceneHeading trimmed ∨ isTransition trimmed then false
    else true

/-- `isCharacterName` of the PDF parser (over a plain string stream). -/
def isCharacterName (line : String) (allLines : List String) (currentIndex : Nat) : Bool :=
  if isPageFooter line ∨ isPageNumber line then false
  else if isSceneHeading line ∨ isTransition line then false
  else
    let trimmed := trimS line
    if trimmed.data.length < 2 ∨ trimmed.data.length > 50 then false
    else
      let withoutParens := trimS ⟨stripParens trimmed.data⟩
      if withoutParens = "" ∨ withoutParens.data.length < 2 then false
      else if ¬ HybridScriptParser.hasUpper withoutParens.data then false
      else if scriptEnders.any (fun e => occursB e.data (upperL trimmed.data)) then false
      else if ¬ pdfNamePattern withoutParens.data then false
      else if withoutParens.data.contains '.' ∧
          ¬ HybridScriptParser.initialsPrefix withoutParens.data then false
      else
        match allLines.get? (currentIndex + 1) with
        | none => false
        | some nextRaw =>
          let nextLine := trimS nextRaw
          if nextLine = "" then false
          else if looksLikeCharacterName nextLine then false
          else if isSceneHeading nextLine then false
          else true

/-- `isLikelyActionLine` of the PDF parser — the second definition in the
class body, which overrides the earlier one of the same name (later
duplicate class methods win in JavaScript). -/
def isLikelyActionLine (line : String) : Bool :=
  let isAllCaps := ¬ line.data.isEmpty && line.data.all (fun c => c.isUpper || jsWs c)
  let startsWithCap :=
    match line.data with
    | c :: _ => c.isUpper
    | [] => false
  let hasLowercase := line.data.any Char.isLower
  if isAllCaps && decide (line.data.length > 25) then true
  else if startsWithCap && hasLowercase && decide (line.data.length > 15) then true
  else false

/-- `extractProps` of the PDF parser: plain substring containment (no word
boundaries, unlike the page parser). -/
def extractProps (lines : List String) : List String :=
  lines.foldl (fun acc line =>
    HybridScriptParser.propKeywords.foldl (fun acc kw =>
      if occursB kw.data (lowerL line.data) then
        let capped : String := ⟨(kw.data.take 1).map Char.toUpper ++ kw.data.drop 1⟩
        if capped ∈ acc then acc else acc ++ [capped]
      else acc) acc) []

/-- A dialogue entry of the PDF parser (keeps the constituent lines). -/
structure PdfDialogue where
  character : String
  text : String
  lines : List String
deriving DecidableEq, Repr, Inhabited

/-- A per-character stats record of a scene's `characterStats` object. -/
structure PdfStats where
  lineCount : Nat
  dialogues : List String
deriving DecidableEq, Repr, Inhabited

/-- A sealed scene of the PDF parser. -/
structure PdfScene where
  page : Nat
  originalHeading : String
  intExt : String
  location : String
  time : String
  summary : String
  sceneText : String
  actors : List String
  action : List String
  dialogue : List PdfDialogue
  charactersInScene : List String
  characterStats : List (String × PdfStats)
  props : List String
deriving DecidableEq, Repr, Inhabited

/-- The in-progress accumulator (scene plus its `currentSceneLines`). -/
structure PdfAcc where
  page : Nat
  originalHeading : String
  intExt : String
  location : String
  time : String
  actors : List String
  action : List String
  dialogue : List PdfDialogue
  charactersInScene : List String
  characterStats : List (String × PdfStats)
  sceneLines : List String
deriving DecidableEq, Repr, Inhabited

/-- `generateSceneSummary` of the PDF parser (joins everything). -/
def generateSceneSummary (acc : PdfAcc) : String :=
  let actionText := joinSep " " acc.action
  let dialogueText := joinSep " " (acc.dialogue.map (fun d =>
    d.character ++ ": " ++ d.text))
  let s := trimS (actionText ++ " " ++ dialogueText)
  if s = "" then "No summary available" else s

/-- Seal a PDF-parser scene. -/
def pdfSeal (acc : PdfAcc) : PdfScene :=
  { page := acc.page
    originalHeading := acc.originalHeading
    intExt := acc.intExt
    location := acc.location
    time := acc.time
    summary := generateSceneSummary acc
    sceneText := joinSep "\n" acc.sceneLines
    actors := acc.actors
    action := acc.action
    dialogue := acc.dialogue
    charactersInScene := acc.charactersInScene
    characterStats := acc.characterStats
    props := extractProps acc.sceneLines }

/-- Update-or-insert into the `characterStats` object. -/
def statsAdd (m : List (String × PdfStats)) (name : String)
    (count : Nat) (fullDialogue : String) : List (String × PdfStats) :=
  if m.any (fun p => p.1 = name) then
    m.map (fun p => if p.1 = name then
      (p.1, ⟨p.2.lineCount + count, p.2.dialogues ++ [fullDialogue]⟩) else p)
  else m ++ [(name, ⟨count, [fullDialogue]⟩)]

/-- The dialogue lookahead of the PDF parser's `parseScenes` (part_001
lines 161–195).  Returns `(dialogueLines, linesForSceneBuffer, stopIndex)`. -/
def pdfCollectGo (lines : List String) : Nat → Nat → List String × List String × Nat
  | 0, j => ([], [], j)
  | fuel + 1, j =>
    if h : j < lines.length then
      if trimS (lines.get ⟨j, h⟩) = "" then pdfCollectGo lines fuel (j + 1)
      else if isCharacterName (trimS (lines.get ⟨j, h⟩)) lines j ∨
          isSceneHeading (trimS (lines.get ⟨j, h⟩)) ∨
          isPageNumber (trimS (lines.get ⟨j, h⟩)) ∨
          isPageFooter (trimS (lines.get ⟨j, h⟩)) ∨
          isTransition (trimS (lines.get ⟨j, h⟩)) then
        ([], [], j)
      else if isParenthetical (trimS (lines.get ⟨j, h⟩)) then
        ((pdfCollectGo lines fuel (j + 1)).1,
         trimS (lines.get ⟨j, h⟩) :: (pdfCollectGo lines fuel (j + 1)).2.1,
         (pdfCollectGo lines fuel (j + 1)).2.2)
      else if isLikelyActionLine (trimS (lines.get ⟨j, h⟩)) then ([], [], j)
      else
        (trimS (lines.get ⟨j, h⟩) :: (pdfCollectGo lines fuel (j + 1)).1,
         trimS (lines.get ⟨j, h⟩) :: (pdfCollectGo lines fuel (j + 1)).2.1,
         (pdfCollectGo lines fuel (j + 1)).2.2)
    else ([], [], j)

/-- Wrapper with adequate fuel. -/
def pdfCollect (lines : List String) (j : Nat) : List String × List String × Nat :=
  pdfCollectGo lines (lines.length - j) j

theorem pdfCollectGo_zero (lines : List String) (j : Nat) :
    pdfCollectGo lines 0 j = ([], [], j) := rfl

theorem pdfCollectGo_succ (lines : List String) (fuel j : Nat) :
    pdfCollectGo lines (fuel + 1) j =
    (if h : j < lines.length then
      if trimS (lines.get ⟨j, h⟩) = "" then pdfCollectGo lines fuel (j + 1)
      else if isCharacterName (trimS (lines.get ⟨j, h⟩)) lines j ∨
          isSceneHeading (trimS (lines.get ⟨j, h⟩)) ∨
          isPageNumber (trimS (lines.get ⟨j, h⟩)) ∨
          isPageFooter (trimS (lines.get ⟨j, h⟩)) ∨
          isTransition (trimS (lines.get ⟨j, h⟩)) then
        ([], [], j)
      else if isParenthetical (trimS (lines.get ⟨j, h⟩)) then
        ((pdfCollectGo lines fuel (j + 1)).1,
         trimS (lines.get ⟨j, h⟩) :: (pdfCollectGo lines fuel (j + 1)).2.1,
         (pdfCollectGo lines fuel (j + 1)).2.2)
      else if isLikelyActionLine (trimS (lines.get ⟨j, h⟩)) then ([], [], j)
      else
        (trimS (lines.get ⟨j, h⟩) :: (pdfCollectGo lines fuel (j + 1)).1,
         trimS (lines.get ⟨j, h⟩) :: (pdfCollectGo lines fuel (j + 1)).2.1,
         (pdfCollectGo lines fuel (j + 1)).2.2)
    else ([], [], j)) := rfl

theorem pdfCollectGo_idx_ge (lines : List String) :
    ∀ fuel j, j ≤ (pdfCollectGo lines fuel j).2.2 := by
  intro fuel
  induction fuel with
  | zero => intro j; simp [pdfCollectGo_zero]
  | succ fuel ih =>
    intro j
    rw [pdfCollectGo_succ]
    by_cases h : j < lines.length
    · have ih1 := ih (j + 1)
      simp only [dif_pos h]
      split
      · omega
      · split
        · simp
        · split
          · simpa using Nat.le_of_succ_le ih1
          · split
            · simp
            · simpa using Nat.le_of_succ_le ih1
    · simp [h]

/-- The stream line at index `k` (empty when out of range). -/
def pdfLineAt (lines : List String) (k : Nat) : String := lines.getD k ""

theorem pdfLineAt_eq_get (lines : List String) (k : Nat) (h : k < lines.length) :
    pdfLineAt lines k = lines.get ⟨k, h⟩ := by
  rw [pdfLineAt, List.getD_eq_get?, List.get?_eq_get h]
  rfl

/-- Line `k` is a structural marker at which the PDF parser's lookahead
stops. -/
def pdfStopCond (lines : List String) (k : Nat) : Prop :=
  isCharacterName (trimS (pdfLineAt lines k)) lines k = true ∨
  isSceneHeading (trimS (pdfLineAt lines k)) = true ∨
  isPageNumber (trimS (pdfLineAt lines k)) = true ∨
  isPageFooter (trimS (pdfLineAt lines k)) = true ∨
  isTransition (trimS (pdfLineAt lines k)) = true ∨
  isLikelyActionLine (trimS (pdfLineAt lines k)) = true

/-- Line `k` was passed over by the PDF parser's lookahead: blank or not a
hard break marker. -/
def pdfConsumedCond (lines : List String) (k : Nat) : Prop :=
  trimS (pdfLineAt lines k) = "" ∨
  ¬ (isCharacterName (trimS (pdfLineAt lines k)) lines k = true ∨
     isSceneHeading (trimS (pdfLineAt lines k)) = true ∨
     isPageNumber (trimS (pdfLineAt lines k)) = true ∨
     isPageFooter (trimS (pdfLineAt lines k)) = true ∨
     isTransition (trimS (pdfLineAt lines k)) = true)

theorem pdfCollectGo_stop (lines : List String) :
    ∀ fuel j, lines.length ≤ fuel + j → j ≤ lines.length →
      (pdfCollectGo lines fuel j).2.2 ≤ lines.length ∧
      ((pdfCollectGo lines fuel j).2.2 < lines.length →
        pdfStopCond lines (pdfCollectGo lines fuel j).2.2) ∧
      (∀ k, j ≤ k → k < (pdfCollectGo lines fuel j).2.2 → pdfConsumedCond lines k) := by
  intro fuel
  induction fuel with
  | zero =>
    intro j hn hj
    rw [pdfCollectGo_zero]
    refine ⟨by simp; omega, ?_, ?_⟩
    · intro hlt
      simp at hlt
      omega
    · intro k hk1 hk2
      simp at hk2
      omega
  | succ fuel ih =>
    intro j hn hj
    rw [pdfCollectGo_succ]
    by_cases h : j < lines.length
    · have ih1 := ih (j + 1) (by omega) (by omega)
      have hline : trimS (pdfLineAt lines j) = trimS (lines.get ⟨j, h⟩) := by
        rw [pdfLineAt_eq_get lines j h]
      simp only [dif_pos h]
      split
      next hne =>
        refine ⟨ih1.1, ih1.2.1, ?_⟩
        intro k hk1 hk2
        rcases Nat.eq_or_lt_of_le hk1 with hk | hk
        · subst hk
          left
          rw [hline]
          exact hne
        · exact ih1.2.2 k hk hk2
      next hne =>
        split
        next hbreak =>
          refine ⟨by simp; omega, ?_, ?_⟩
          · intro hlt
            rcases hbreak with hb | hb | hb | hb | hb
            · exact Or.inl (by rw [hline]; exact hb)
            · exact Or.inr (Or.inl (by rw [hline]; exact hb))
            · exact Or.inr (Or.inr (Or.inl (by rw [hline]; exact hb)))
            · exact Or.inr (Or.inr (Or.inr (Or.inl (by rw [hline]; exact hb))))
            · exact Or.inr (Or.inr (Or.inr (Or.inr (Or.inl (by rw [hline]; exact hb)))))
          · intro k hk1 hk2
            simp at hk2
            omega
        next hbreak =>
          split
          next hparen =>
            refine ⟨by simpa using ih1.1, by simpa using ih1.2.1, ?_⟩
            intro k hk1 hk2
            simp only at hk2
            rcases Nat.eq_or_lt_of_le hk1 with hk | hk
            · subst hk
              right
              rw [hline]
              push_neg at hbreak
              simpa using hbreak
            · exact ih1.2.2 k hk hk2
          next hparen =>
            split
            next hact =>
              refine ⟨by simp; omega, ?_, ?_⟩
              · intro hlt
                exact Or.inr (Or.inr (Or.inr (Or.inr (Or.inr (by rw [hline]; exact hact)))))
              · intro k hk1 hk2
                simp at hk2
                omega
            next hact =>
              refine ⟨by simpa using ih1.1, by simpa using ih1.2.1, ?_⟩
              intro k hk1 hk2
              simp only at hk2
              rcases Nat.eq_or_lt_of_le hk1 with hk | hk
              · subst hk
                right
                rw [hline]
                push_neg at hbreak
                simpa using hbreak
              · exact ih1.2.2 k hk hk2
    · rw [dif_neg h]
      refine ⟨by simpa using hj, ?_, ?_⟩
      · intro hlt
        simp at hlt
        omega
      · intro k hk1 hk2
        simp at hk2
        omega

/-- `Math.ceil(a / b)` on naturals (0 when `b = 0`, where the JavaScript
quotient is infinite and the dependent expressions collapse to 0). -/
def ceilDiv (a b : Nat) : Nat := if b = 0 then 0 else (a + b - 1) / b

/-- The current 1-based page estimate at stream index `i`. -/
def currentPageAt (linesPerPage totalPages i : Nat) : Nat :=
  min (ceilDiv (i + 1) linesPerPage) totalPages

/-- Structural worker for the PDF parser's `parseScenes` loop. -/
def pdfParseGo (lines : List String) (linesPerPage totalPages : Nat) :
    Nat → Nat → List PdfScene → Option PdfAcc → List PdfScene
  | 0, _, scenes, cur =>
    (match cur with
     | some acc => scenes ++ [pdfSeal acc]
     | none => scenes)
  | fuel + 1, i, scenes, cur =>
    if h : i < lines.length then
      if trimS (lines.get ⟨i, h⟩) = "" then
        pdfParseGo lines linesPerPage totalPages fuel (i + 1) scenes cur
      else if isPageNumber (trimS (lines.get ⟨i, h⟩)) ∨
          isPageFooter (trimS (lines.get ⟨i, h⟩)) then
        pdfParseGo lines linesPerPage totalPages fuel (i + 1) scenes cur
      else if isSceneHeading (trimS (lines.get ⟨i, h⟩)) then
        let scenes2 :=
          match cur with
          | some acc => scenes ++ [pdfSeal acc]
          | none => scenes
        pdfParseGo lines linesPerPage totalPages fuel (i + 1) scenes2
          (some (pdfNewAcc (currentPageAt linesPerPage totalPages i)
            (trimS (lines.get ⟨i, h⟩))))
      else
        match cur with
        | none => pdfParseGo lines linesPerPage totalPages fuel (i + 1) scenes none
        | some acc =>
          if isCharacterName (trimS (lines.get ⟨i, h⟩)) lines i then
            pdfParseGo lines linesPerPage totalPages fuel
              (pdfCollect lines (i + 1)).2.2 scenes
              (some (pdfCharStep acc (trimS (lines.get ⟨i, h⟩))
                (pdfCollect lines (i + 1)).1 (pdfCollect lines (i + 1)).2.1))
          else
            pdfParseGo lines linesPerPage totalPages fuel (i + 1) scenes
              (some (pdfBodyStep acc (trimS (lines.get ⟨i, h⟩))))
    else
      match cur with
      | some acc => scenes ++ [pdfSeal acc]
      | none => scenes
where
  /-- Open a new scene at a heading. -/
  pdfNewAcc (page : Nat) (line : String) : PdfAcc :=
    let sceneData := parseSceneHeading line
    { page := page
      originalHeading := line
      intExt := sceneData.intExt
      location := sceneData.location
      time := sceneData.time
      actors := []
      action := []
      dialogue := []
      charactersInScene := []
      characterStats := []
      sceneLines := [line] }
  /-- The character-cue step (register actor, consume the block, update the
  per-scene stats by the number of constituent dialogue lines). -/
  pdfCharStep (acc : PdfAcc) (line : String) (dlg sceneAppend : List String) : PdfAcc :=
    let characterName := cleanCharacterName line
    let acc := { acc with
      charactersInScene := HybridScriptParser.addUnique acc.charactersInScene characterName
      actors := HybridScriptParser.addUnique acc.actors characterName
      sceneLines := (acc.sceneLines ++ [line]) ++ sceneAppend }
    if dlg.isEmpty then acc
    else
      { acc with
        dialogue := acc.dialogue ++ [⟨characterName, joinSep " " dlg, dlg⟩]
        characterStats := statsAdd acc.characterStats characterName dlg.length
          (joinSep " " dlg) }
  /-- The non-heading, non-cue in-scene step. -/
  pdfBodyStep (acc : PdfAcc) (line : String) : PdfAcc :=
    let acc :=
      if ¬ isTransition line ∧ ¬ isPageFooter line ∧ ¬ isPageNumber line ∧
          ¬ looksLikeCharacterName line then
        { acc with action := acc.action ++ [line] }
      else acc
    { acc with sceneLines := acc.sceneLines ++ [line] }

/-- `parseScenes` of the PDF parser. -/
def parseScenes (lines : List String) (totalPages : Nat) : List PdfScene :=
  pdfParseGo lines (ceilDiv lines.length totalPages) totalPages
    lines.length 0 [] none

/-- A character record of the PDF parser's `parseCharacters`. -/
structure PdfCharacter where
  name : String
  lines : Nat
  scenes : Nat
  dialogue : List String
  sceneIds : List String
deriving DecidableEq, Repr, Inhabited

/-- `parseCharacters` of the PDF parser: actors mark scene membership,
then `characterStats` contributes `lineCount` — the number of constituent
dialogue text lines, not dialogue blocks — to `lines`. -/
def parseCharacters (scenes : List PdfScene) : List PdfCharacter :=
  let step := fun (m : List PdfCharacter) (p : Nat × PdfScene) =>
    let m := p.2.actors.foldl (fun m actorName =>
      let m := if m.any (fun c => c.name = actorName) then m
        else m ++ [⟨actorName, 0, 0, [], []⟩]
      m.map (fun c =>
        if c.name = actorName ∧ ¬ (toString p.1) ∈ c.sceneIds then
          { c with sceneIds := c.sceneIds ++ [toString p.1], scenes := c.scenes + 1 }
        else c)) m
    p.2.characterStats.foldl (fun m q =>
      let m := if m.any (fun c => c.name = q.1) then m
        else m ++ [⟨q.1, 0, 0, [], []⟩]
      m.map (fun c =>
        if c.name = q.1 then
          { c with lines := c.lines + q.2.lineCount, dialogue := c.dialogue ++ q.2.dialogues }
        else c)) m
  scenes.enum.foldl step []

end PDFScriptParser

namespace DocumentBasedScriptParser

/-- Generic fold-invariant preservation. -/
theorem foldl_preserve {α β : Type} (P : β → Prop) (f : β → α → β)
    (h : ∀ b a, P b → P (f b a)) :
    ∀ (l : List α) (b : β), P b → P (l.foldl f b) := by
  intro l
  induction l with
  | nil => intro b hb; exact hb
  | cons a rest ih =>
    intro b hb
    rw [List.foldl_cons]
    exact ih (f b a) (h b a hb)

/-- Generic positional-numbering append lemma. -/
theorem numbered_append {α : Type} (f : α → Nat) {l : List α} {x : α}
    (h : ∀ k (hk : k < l.length), f (l.get ⟨k, hk⟩) = k + 1)
    (hx : f x = l.length + 1) :
    ∀ k (hk : k < (l ++ [x]).length), f ((l ++ [x]).get ⟨k, hk⟩) = k + 1 := by
  intro k hk
  simp only [List.length_append, List.length_cons, List.length_nil] at hk
  rcases Nat.lt_or_ge k l.length with hlt | hge
  · rw [List.get_append_left]
    exact h k hlt
  · have hk2 : k = l.length := by omega
    subst hk2
    simp [List.get_append_right, hx]

/-- The `analyzeScenes` state invariant: sealed scenes are numbered by
position and the counter stays in lock-step with them. -/
def DocStInv (st : DocState) : Prop :=
  (∀ k (hk : k < st.scenes.length), (st.scenes.get ⟨k, hk⟩).sceneNumber = k + 1) ∧
  (st.cur = none → st.counter = st.scenes.length + 1) ∧
  (∀ acc, st.cur = some acc →
    acc.sceneNumber = st.scenes.length + 1 ∧ st.counter = st.scenes.length + 2)

theorem docProcessLine_inv (lines : List String) (pageNumber : Nat)
    (st : DocState) (p : Nat × String) (h : DocStInv st) :
    DocStInv (docProcessLine lines pageNumber st p) := by
  obtain ⟨h1, h2, h3⟩ := h
  rw [docProcessLine]
  split
  next => exact ⟨h1, h2, h3⟩
  next =>
    split
    next =>
      cases hcur : st.cur with
      | none =>
        refine ⟨by simpa [hcur] using h1, by simp, ?_⟩
        intro acc hacc
        simp only [hcur] at hacc ⊢
        cases hacc
        have := h2 hcur
        constructor
        · simpa [docNewAcc, hcur] using this
        · simp [hcur]; omega
      | some acc0 =>
        have hs := h3 acc0 hcur
        refine ⟨?_, by simp, ?_⟩
        · simp only [hcur]
          exact numbered_append DocScene.sceneNumber h1 (by simpa [docSeal] using hs.1)
        · intro acc hacc
          simp only [hcur] at hacc ⊢
          cases hacc
          constructor
          · simp only [docNewAcc]
            simp only [List.length_append, List.length_cons, List.length_nil]
            omega
          · simp only [List.length_append, List.length_cons, List.length_nil]
            omega
    next =>
      cases hcur : st.cur with
      | none => exact ⟨h1, h2, h3⟩
      | some acc0 =>
        have hs := h3 acc0 hcur
        refine ⟨h1, by simp, ?_⟩
        intro acc hacc
        simp only at hacc
        cases hacc
        constructor
        · repeat' split
          all_goals simpa using hs.1
        · exact hs.2

/-- C3 helper: `analyzeScenes` numbers scenes by position. -/
theorem analyzeScenes_numbering (textPages : List DocPage) :
    ∀ k (hk : k < (analyzeScenes textPages).length),
      ((analyzeScenes textPages).get ⟨k, hk⟩).sceneNumber = k + 1 := by
  have hinv : DocStInv (textPages.foldl (fun st page =>
      ((Js.splitNl page.rawText).enum).foldl
        (docProcessLine (Js.splitNl page.rawText) page.pageNumber) st)
      ⟨[], none, 1⟩) := by
    refine foldl_preserve DocStInv _ ?_ textPages ⟨[], none, 1⟩ ?_
    · intro st page hst
      exact foldl_preserve DocStInv _
        (fun st p hst => docProcessLine_inv _ _ st p hst) _ st hst
    · refine ⟨by intro k hk; simp at hk, by intro hc; simp, ?_⟩
      intro acc hacc
      simp at hacc
  rw [analyzeScenes]
  obtain ⟨h1, h2, h3⟩ := hinv
  split
  next st acc hacc =>
    have hs := h3 acc hacc
    exact numbered_append DocScene.sceneNumber h1 (by simpa [docSeal] using hs.1)
  next st hacc =>
    exact h1

end DocumentBasedScriptParser

/-- A two-chunk form-feed sample document (`"a\fb"`). -/
def ffSample : String := ⟨['a', Char.ofNat 12, 'b']⟩

/-- C10: in the hybrid page parser, the returned metadata has
`needsReview = true` for every input and page count — the flag is a
hard-coded literal of `generateMetadata`, independent of which page
segmentation tier produced the pages. -/
theorem C10_needsReview_always_true :
    (∀ (text : String) (totalPages : Nat),
      (HybridScriptParser.parsePipeline text totalPages).metadata.needsReview = true) ∧
    (∀ (pages : List HybridScriptParser.Page)
      (scenes : List HybridScriptParser.Scene)
      (characters : List HybridScriptParser.Character),
      (HybridScriptParser.generateMetadata pages scenes characters).needsReview = true) := by
  constructor
  · intro text totalPages
    rfl
  · intro pages scenes characters
    rfl

/-- C1 (counterexample): for the input `"a\fb"` with a declared page count
of 10, the form-feed chunk count 2 lies outside the claimed acceptance
interval `[10, 15]`, yet `extractPages` still commits to the form-feed
split (and its result differs from the tier-3 estimated split), refuting
the claimed lower bound `N`. -/
theorem C1_claim_counterexample :
    (HybridScriptParser.formFeedChunks ffSample).length = 2 ∧
    ¬ (10 ≤ (HybridScriptParser.formFeedChunks ffSample).length) ∧
    HybridScriptParser.extractPages ffSample 10 =
      HybridScriptParser.formFeedResult ffSample ∧
    HybridScriptParser.extractPages ffSample 10 ≠
      HybridScriptParser.estimatedResult ffSample 10 := by
  refine ⟨by decide, by decide, by decide, by decide⟩

namespace HybridScriptParser

theorem joinSep_space_ne_empty {ds : List String} (hne : ds ≠ [])
    (hall : ∀ l ∈ ds, l ≠ "") : Js.joinSep " " ds ≠ "" := by
  match ds with
  | [] => exact absurd rfl hne
  | x :: xs =>
    have hx := hall x (List.mem_cons_self x xs)
    have hlen : ∀ (ys : List String) (acc : String),
        acc.data.length ≤ ((ys.foldl (fun acc y => acc ++ " " ++ y) acc).data).length := by
      intro ys
      induction ys with
      | nil => intro acc; simp
      | cons y ys ih =>
        intro acc
        refine le_trans ?_ (ih (acc ++ " " ++ y))
        simp [String.data_append]
    intro hcontra
    have h1 := hlen xs x
    rw [show Js.joinSep " " (x :: xs) = xs.foldl (fun acc y => acc ++ " " ++ y) x from rfl] at hcontra
    rw [hcontra] at h1
    simp at h1
    exact hx (by cases x with | _ d => cases d with
      | nil => rfl
      | cons c cs => simp at h1)

end HybridScriptParser

/-- C2 (amended, hybrid page parser): for every parse, the total number of
dialogue entries across all scenes equals the sum of `lines` over all
returned characters — each dialogue block contributes exactly 1 to its
character's `lines` count. -/
theorem C2_dialogue_conservation_hybrid (pages : List HybridScriptParser.Page) :
    ((HybridScriptParser.extractCharacters
        (HybridScriptParser.parseScenes pages)).map
      HybridScriptParser.Character.lines).sum =
    (((HybridScriptParser.parseScenes pages).map
      (fun s => s.dialogue.length)).sum) := by
  have hgood : ∀ s ∈ HybridScriptParser.parseScenes pages,
      ∀ d ∈ s.dialogue, d.character ∈ s.actors :=
    fun s hs => (HybridScriptParser.parseScenes_scene_good pages s hs).1
  have hcons := HybridScriptParser.extractCharsMap_conservation
    (HybridScriptParser.parseScenes pages) hgood
  rw [← hcons]
  simp only [HybridScriptParser.extractCharacters, HybridScriptParser.sumLines,
    List.map_map]
  congr 1

/-- C8: page-number and page-footer lines never reach a scene: every
returned scene's `fullText` is the newline-join of non-blank lines none of
which matches the page-number or page-footer patterns, every action line
is clean of them, and every dialogue entry's text is the space-join of a
non-empty list of such clean lines. -/
theorem C8_page_number_lines_dropped (pages : List HybridScriptParser.Page)
    (s : HybridScriptParser.Scene)
    (hs : s ∈ HybridScriptParser.parseScenes pages) :
    (∃ ls, ls ≠ [] ∧ s.fullText = Js.joinSep "\n" ls ∧
      ∀ l ∈ ls, l ≠ "" ∧ HybridScriptParser.isPageNumber l = false ∧
        HybridScriptParser.isPageFooter l = false) ∧
    (∀ l ∈ s.actions, HybridScriptParser.isPageNumber l = false ∧
      HybridScriptParser.isPageFooter l = false) ∧
    (∀ d ∈ s.dialogue, ∃ ds, ds ≠ [] ∧
      d.text = Js.joinSep " " ds ∧
      ∀ l ∈ ds, HybridScriptParser.isPageNumber l = false ∧
        HybridScriptParser.isPageFooter l = false) := by
  obtain ⟨h1, h2, h3, h4⟩ := HybridScriptParser.parseScenes_scene_good pages s hs
  refine ⟨?_, ?_, ?_⟩
  · obtain ⟨ls, hne, heq, hall⟩ := h2
    exact ⟨ls, hne, heq, fun l hl => hall l hl⟩
  · intro l hl
    exact (h3 l hl).2
  · intro d hd
    obtain ⟨ds, hne, heq, hall⟩ := h4 d hd
    exact ⟨ds, hne, heq, fun l hl => (hall l hl).2⟩

/-- The four-line sample document for the PDF-parser counterexample: one
character cue whose dialogue block consists of two text lines. -/
def c2PdfLines : List String := ["INT. KITCHEN - DAY", "JOHN", "Hi.", "Bye."]

/-- C2 (counterexample): in the PDF parser variant, a single dialogue
block of two text lines makes the character's `lines` equal 2 while the
total number of dialogue entries is 1 — `lines` counts constituent text
lines there, not blocks, so the claimed conservation fails as stated. -/
theorem C2_claim_counterexample :
    (((PDFScriptParser.parseScenes c2PdfLines 1).map
      (fun s => s.dialogue.length)).sum = 1) ∧
    (((PDFScriptParser.parseCharacters
        (PDFScriptParser.parseScenes c2PdfLines 1)).map
      PDFScriptParser.PdfCharacter.lines).sum = 2) :=
  ⟨by decide, by decide⟩

/-- C3: scene numbering — in both the hybrid page parser's `parseScenes`
and the document parser's `analyzeScenes`, `scenes[i].sceneNumber = i + 1`
for every index; moreover the hybrid parse loop only ever appends sealed
scenes to its output (scenes already pushed are never revisited). -/
theorem C3_scene_numbering :
    (∀ (pages : List HybridScriptParser.Page) (k : Nat)
      (hk : k < (HybridScriptParser.parseScenes pages).length),
      ((HybridScriptParser.parseScenes pages).get ⟨k, hk⟩).sceneNumber = k + 1) ∧
    (∀ (ctx : List HybridScriptParser.LineObj) (fuel i : Nat)
      (scenes : List HybridScriptParser.Scene)
      (cur : Option HybridScriptParser.SceneAcc),
      ∃ t, HybridScriptParser.parseGo ctx fuel i scenes cur = scenes ++ t) ∧
    (∀ (textPages : List DocumentBasedScriptParser.DocPage) (k : Nat)
      (hk : k < (DocumentBasedScriptParser.analyzeScenes textPages).length),
      ((DocumentBasedScriptParser.analyzeScenes textPages).get ⟨k, hk⟩).sceneNumber
        = k + 1) := by
  refine ⟨?_, ?_, ?_⟩
  · intro pages k hk
    exact HybridScriptParser.parseLoop_numbering (HybridScriptParser.flattenPages pages)
      (HybridScriptParser.flattenPages pages).length 0 [] none
      (by intro k hk; simp at hk) (by intro acc hacc; simp at hacc) k hk
  · intro ctx fuel i scenes cur
    exact HybridScriptParser.parseLoop_append_only ctx scenes fuel i scenes cur ⟨[], by simp⟩
  · intro textPages k hk
    exact DocumentBasedScriptParser.analyzeScenes_numbering textPages k hk

/-- The one-page two-scene sample document. -/
def c3Page : HybridScriptParser.Page :=
  ⟨1, "INT. KITCHEN - DAY\nJOHN\nHello there.\nEXT. STREET - NIGHT\nMARY\nGoodbye.", []⟩

/-- C3 (witness): on the sample document the second returned scene carries
scene number 2. -/
theorem C3_scene_numbering_witness :
    ((HybridScriptParser.parseScenes [c3Page]).get
      ⟨1, by decide⟩).sceneNumber = 2 :=
  C3_scene_numbering.1 [c3Page] 1 (by decide)

/-- C4 (counterexample): the heading `"INT. CAR"` matches only the
last-resort prefix pattern, yet the document parser — which implements
only the dash-delimited pattern — returns location `"Unknown"`, not
`"CAR"`, so the claim fails on that cited implementation. -/
theorem C4_claim_counterexample :
    SceneHeadingRegex.matchPattern1 SceneHeadingRegex.scenePrefixAlts
      ("INT. CAR".data) = none ∧
    SceneHeadingRegex.matchPattern2 SceneHeadingRegex.scenePrefixAlts
      ("INT. CAR".data) = none ∧
    DocumentBasedScriptParser.isSceneHeading "INT. CAR" = true ∧
    DocumentBasedScriptParser.parseSceneHeading "INT. CAR" =
      ⟨"INT", "Unknown", "DAY"⟩ ∧
    ("Unknown" : String) ≠ "CAR" :=
  ⟨by decide, by decide, by decide, by decide, by decide⟩

/-- C4 (amended): in the hybrid page parser, every heading on which the
two time-of-day patterns fail and the last-resort prefix pattern succeeds
yields `timeOfDay = "DAY"` and the trimmed captured text after the prefix
as location; in particular `"INT. CAR"` yields location `"CAR"` and time
`"DAY"`.  (The document parser variant instead falls back to
`location = "Unknown"` on such headings.) -/
theorem C4_last_resort_heading_amended (heading : String) (pre : String)
    (loc : List Char)
    (h1 : SceneHeadingRegex.matchPattern1 SceneHeadingRegex.scenePrefixAlts
      heading.data = none)
    (h2 : SceneHeadingRegex.matchPattern2 SceneHeadingRegex.scenePrefixAlts
      heading.data = none)
    (h3 : SceneHeadingRegex.matchPattern3 SceneHeadingRegex.scenePrefixAlts
      heading.data = some (pre, loc)) :
    HybridScriptParser.parseSceneHeading heading =
      ⟨pre, Js.trimS ⟨loc⟩, "DAY"⟩ ∧
    HybridScriptParser.parseSceneHeading "INT. CAR" = ⟨"INT", "CAR", "DAY"⟩ := by
  constructor
  · rw [HybridScriptParser.parseSceneHeading, h1, h2, h3]
  · decide

/-- C4 (witness): the amended theorem applied at `"INT. CAR"` itself. -/
theorem C4_last_resort_heading_witness :
    HybridScriptParser.parseSceneHeading "INT. CAR" =
      ⟨"INT", "CAR", "DAY"⟩ :=
  (C4_last_resort_heading_amended "INT. CAR" "INT" ("CAR".data)
    (by decide) (by decide) (by decide)).1

/-- A sample page containing a page-footer line and a bare page number. -/
def c8Page : HybridScriptParser.Page :=
  ⟨1, "INT. KITCHEN - DAY\nHe walks in slowly towards her.\n- 3 of 10 -\n4\nJOHN\nHello there.", []⟩

/-- C8 (witness): on the sample document with a `"- 3 of 10 -"` footer and
a lone `"4"`, the first returned scene's action line is clean. -/
theorem C8_page_number_lines_dropped_witness :
    HybridScriptParser.isPageNumber "He walks in slowly towards her." = false ∧
    HybridScriptParser.isPageFooter "He walks in slowly towards her." = false :=
  (C8_page_number_lines_dropped [c8Page]
    ((HybridScriptParser.parseScenes [c8Page]).getD 0 default)
    (by decide)).2.1
    "He walks in slowly towards her." (by decide)

namespace HybridScriptParser

open Js

theorem isCharacterNameCore_next {line : String} {next? : Option String}
    (h : isCharacterNameCore line next? = true) :
    ∃ nextRaw, next? = some nextRaw ∧ trimS nextRaw ≠ "" ∧
      looksLikeCharacterName (trimS nextRaw) = false ∧
      isSceneHeading (trimS nextRaw) = false := by
  unfold isCharacterNameCore at h
  repeat' split at h
  all_goals try simp at h
  all_goals refine ⟨_, rfl, ?_, ?_, ?_⟩ <;> simp_all

/-- Every dialogue entry produced by `parseScenes` has non-empty text. -/
theorem parseScenes_dialogue_ne (pages : List Page) :
    ∀ s ∈ parseScenes pages, ∀ d ∈ s.dialogue, d.text ≠ "" := by
  intro s hs d hd
  obtain ⟨ds, hne, heq, hall⟩ := (parseScenes_scene_good pages s hs).2.2.2 d hd
  rw [heq]
  exact joinSep_space_ne_empty hne (fun l hl => (hall l hl).1)

end HybridScriptParser

/-- The three-line stream with two consecutive character-shaped lines. -/
def c6Ctx : List HybridScriptParser.LineObj :=
  [⟨"JOHN", 1⟩, ⟨"MARY", 1⟩, ⟨"Hello there.", 1⟩]

/-- C6 (counterexample): the document parser's classifier accepts `"JOHN"`
as a character cue even though the immediately following line `"MARY"` is
itself character-shaped (and also accepted), refuting the claimed
"next line not itself character-shaped" condition for that cited
implementation. -/
theorem C6_claim_counterexample :
    DocumentBasedScriptParser.isCharacterName "JOHN"
      ["JOHN", "MARY", "Hello there."] 0 = true ∧
    DocumentBasedScriptParser.isCharacterName "MARY"
      ["JOHN", "MARY", "Hello there."] 1 = true ∧
    HybridScriptParser.looksLikeCharacterName "MARY" = true :=
  ⟨by decide, by decide, by decide⟩

/-- C6 (amended): in the hybrid page parser the claim holds — a line is
accepted as a character cue only when a following line exists whose trimmed
text is non-empty, not character-shaped, and not a scene heading; on the
sample stream `"JOHN"` directly followed by `"MARY"` is rejected; and no
dialogue entry with empty text is ever produced.  (The document parser
variant omits the character-shape check on the following line and accepts
both consecutive cues.) -/
theorem C6_consecutive_cue_disambiguation :
    (∀ (line : String) (ctx : List HybridScriptParser.LineObj) (i : Nat),
      HybridScriptParser.isCharacterName line ctx i = true →
      ∃ lo, ctx.get? (i + 1) = some lo ∧ Js.trimS lo.text ≠ "" ∧
        HybridScriptParser.looksLikeCharacterName (Js.trimS lo.text) = false ∧
        HybridScriptParser.isSceneHeading (Js.trimS lo.text) = false) ∧
    HybridScriptParser.isCharacterName "JOHN" c6Ctx 0 = false ∧
    (∀ (pages : List HybridScriptParser.Page) (s : HybridScriptParser.Scene),
      s ∈ HybridScriptParser.parseScenes pages →
      ∀ d ∈ s.dialogue, d.text ≠ "") := by
  refine ⟨?_, by decide, ?_⟩
  · intro line ctx i h
    obtain ⟨nextRaw, hmap, h1, h2, h3⟩ := HybridScriptParser.isCharacterNameCore_next h
    cases hget : ctx.get? (i + 1) with
    | none =>
      rw [hget] at hmap
      exact Option.noConfusion hmap
    | some lo =>
      rw [hget] at hmap
      injection hmap with hmap
      subst hmap
      exact ⟨lo, rfl, h1, h2, h3⟩
  · intro pages s hs d hd
    exact HybridScriptParser.parseScenes_dialogue_ne pages s hs d hd

/-- The one-scene sample page for the C6 witness. -/
def c6Page : HybridScriptParser.Page :=
  ⟨1, "INT. KITCHEN - DAY\nJOHN\nHello there.", []⟩

/-- C6 (witness): the amended theorem applied on the sample document — the
single dialogue entry produced there has non-empty text. -/
theorem C6_consecutive_cue_disambiguation_witness :
    (((HybridScriptParser.parseScenes [c6Page]).getD 0 default).dialogue.getD 0
      default).text ≠ "" :=
  C6_consecutive_cue_disambiguation.2.2 [c6Page]
    ((HybridScriptParser.parseScenes [c6Page]).getD 0 default) (by decide)
    (((HybridScriptParser.parseScenes [c6Page]).getD 0 default).dialogue.getD 0
      default) (by decide)

/-- C9: the dialogue-collection lookahead of the hybrid parser terminates
within the stream: starting after a character cue at index `j`, it only
moves forward, never beyond the end of the stream, stops exactly at end of
stream or at a structural marker (character cue, scene heading, transition,
page number, page footer, or action-shaped line), and every line it passed
over was blank or a non-marker. -/
theorem C9_lookahead_termination (ctx : List HybridScriptParser.LineObj)
    (j : Nat) (hj : j ≤ ctx.length) :
    (j ≤ (HybridScriptParser.collectDialogue ctx j).2.2 ∧
    (HybridScriptParser.collectDialogue ctx j).2.2 ≤ ctx.length ∧
    ((HybridScriptParser.collectDialogue ctx j).2.2 < ctx.length →
      HybridScriptParser.stopCond ctx (HybridScriptParser.collectDialogue ctx j).2.2) ∧
    (∀ k, j ≤ k → k < (HybridScriptParser.collectDialogue ctx j).2.2 →
      HybridScriptParser.consumedCond ctx k)) ∧
    (∀ (lines : List String) (m : Nat), m ≤ lines.length →
      m ≤ (PDFScriptParser.pdfCollect lines m).2.2 ∧
      (PDFScriptParser.pdfCollect lines m).2.2 ≤ lines.length ∧
      ((PDFScriptParser.pdfCollect lines m).2.2 < lines.length →
        PDFScriptParser.pdfStopCond lines (PDFScriptParser.pdfCollect lines m).2.2) ∧
      (∀ k, m ≤ k → k < (PDFScriptParser.pdfCollect lines m).2.2 →
        PDFScriptParser.pdfConsumedCond lines k)) := by
  constructor
  · have h := HybridScriptParser.collectDialogue_stop ctx j hj
    exact ⟨HybridScriptParser.collectDialogue_idx_ge ctx j, h.1, h.2.1, h.2.2⟩
  · intro lines m hm
    have h := PDFScriptParser.pdfCollectGo_stop lines (lines.length - m) m (by omega) hm
    exact ⟨PDFScriptParser.pdfCollectGo_idx_ge lines (lines.length - m) m, h.1, h.2.1, h.2.2⟩

/-- A two-line stream: a dialogue-shaped line followed by a transition. -/
def c9Ctx : List HybridScriptParser.LineObj :=
  [⟨"Hello there.", 1⟩, ⟨"CUT TO:", 1⟩]

/-- C9 (witness): on the sample stream the lookahead stops at the
transition line, a structural marker. -/
theorem C9_lookahead_termination_witness :
    HybridScriptParser.stopCond c9Ctx
      (HybridScriptParser.collectDialogue c9Ctx 0).2.2 :=
  (C9_lookahead_termination c9Ctx 0 (by decide)).1.2.2.1 (by decide)

namespace HybridScriptParser

open Js

theorem processDialogue_names_nodup (ds : List DialogueEntry) :
    ∀ m, (mapNames m).Nodup → (mapNames (processDialogue m ds)).Nodup := by
  induction ds with
  | nil => intro m h; exact h
  | cons d rest ih =>
    intro m h
    rw [processDialogue_cons]
    by_cases hd : mapHas m d.character
    · rw [if_pos hd]
      refine ih _ ?_
      rw [mapUpdate_names (by intro c; rfl)]
      exact h
    · rw [if_neg hd]
      exact ih _ h

/-- The `characterMap` of `extractCharacters` never holds a key twice. -/
theorem extractCharsMap_nodup (scenes : List Scene) :
    (mapNames (extractCharsMap scenes)).Nodup := by
  have H : ∀ (l : List (Nat × Scene)) m, (mapNames m).Nodup →
      (mapNames (l.foldl (fun m p =>
        processDialogue (processActors p.1 m p.2.actors) p.2.dialogue)
          m)).Nodup := by
    intro l
    induction l with
    | nil => intro m h; exact h
    | cons p rest ih =>
      intro m h
      rw [List.foldl_cons]
      exact ih _ (processDialogue_names_nodup p.2.dialogue _
        (processActors_nodup p.1 p.2.actors m h))
  exact H scenes.enum [] (by simp [mapNames])

/-- Roster uniqueness: the returned characters carry pairwise distinct
names. -/
theorem extractCharacters_names_nodup (scenes : List Scene) :
    ((extractCharacters scenes).map Character.name).Nodup := by
  have hmap : (extractCharacters scenes).map Character.name =
      mapNames (extractCharsMap scenes) := by
    simp only [extractCharacters, mapNames, List.map_map]
    rfl
  rw [hmap]
  exact extractCharsMap_nodup scenes

/-- `cleanCharacterName` strips a trailing parenthetical annotation: for a
name without `'('` and an annotation without `')'`, the annotated cue
canonicalizes to the bare one. -/
theorem cleanCharacterName_paren_suffix (name ann : String)
    (h1 : '(' ∉ name.data) (h2 : ')' ∉ ann.data) :
    cleanCharacterName ⟨name.data ++ (' ' :: '(' :: (ann.data ++ [')']))⟩ =
      cleanCharacterName name := by
  have e1 : (⟨name.data ++ (' ' :: '(' :: (ann.data ++ [')']))⟩ : String).data
      = name.data ++ (' ' :: '(' :: (ann.data ++ [')'])) := rfl
  unfold cleanCharacterName
  rw [e1, Js.stripParens_trailing_group h1 h2, Js.stripParens_id h1]
  rcases Js.collapseWs_append_space name.data with h | h
  · rw [h]
  · rw [h, @Js.replaceAll_append_char ("â€™".data) [Js.apos] ' '
      (by decide) (by decide), Js.trimL_append_space]

end HybridScriptParser

/-- The sample cue name, with a plain apostrophe. -/
def c5Name : String := ⟨['J', 'J', Js.apos, ' ', 'D', 'A', 'D']⟩

/-- The same cue with a trailing parenthetical annotation `(O.S.)`. -/
def c5Cue2 : String := ⟨c5Name.data ++ (' ' :: '(' :: ("O.S.".data ++ [')']))⟩

/-- A one-page sample document where the cue appears once bare and once
with the trailing annotation. -/
def c5Page : HybridScriptParser.Page :=
  ⟨1, "INT. KITCHEN - DAY\n" ++ c5Name ++ "\nHello.\n" ++ c5Cue2 ++ "\nBye.",
    []⟩

/-- C5: character cues differing only in a trailing parenthetical
annotation canonicalize to the same name (`cleanCharacterName` strips the
annotation for every name without `'('` and annotation without `')'`),
the returned roster never lists a name twice, and on the sample document
the bare cue and its `(O.S.)` variant merge into a single character with
`lines` summed to 2 across both occurrences. -/
theorem C5_name_canonicalization (name ann : String)
    (h1 : '(' ∉ name.data) (h2 : ')' ∉ ann.data) :
    (HybridScriptParser.cleanCharacterName
        ⟨name.data ++ (' ' :: '(' :: (ann.data ++ [')']))⟩ =
      HybridScriptParser.cleanCharacterName name) ∧
    (∀ scenes : List HybridScriptParser.Scene,
      ((HybridScriptParser.extractCharacters scenes).map
        HybridScriptParser.Character.name).Nodup) ∧
    (HybridScriptParser.extractCharacters
        (HybridScriptParser.parseScenes [c5Page])).map
      (fun c => (c.name, c.lines)) = [(c5Name, 2)] :=
  ⟨HybridScriptParser.cleanCharacterName_paren_suffix name ann h1 h2,
   HybridScriptParser.extractCharacters_names_nodup,
   by decide⟩

/-- C5 (witness): the theorem applied at the sample name and the
annotation `O.S.`: the annotated cue canonicalizes to the bare name. -/
theorem C5_name_canonicalization_witness :
    ('(' ∉ c5Name.data) ∧ (')' ∉ "O.S.".data) ∧
    HybridScriptParser.cleanCharacterName c5Cue2 =
      HybridScriptParser.cleanCharacterName c5Name :=
  ⟨by decide, by decide,
   (C5_name_canonicalization c5Name "O.S." (by decide) (by decide)).1⟩

instance : DecidableRel Js.noWsNlRel :=
  fun c d => inferInstanceAs (Decidable (¬(Js.jsWs c = true ∧ d = '\n')))

namespace HybridScriptParser

open Js

theorem applySteps_cons (pat rep : List Char)
    (steps : List (List Char × List Char)) (z : List Char) :
    applySteps ((pat, rep) :: steps) z =
      applySteps steps (replaceAll pat rep z) := rfl

theorem applySteps_append (s1 s2 : List (List Char × List Char))
    (z : List Char) :
    applySteps (s1 ++ s2) z = applySteps s2 (applySteps s1 z) := by
  simp [applySteps, List.foldl_append]

theorem applySteps_id_of_absent : ∀ (steps : List (List Char × List Char))
    (z : List Char), (∀ pr ∈ steps, occursB pr.1 z = false) →
    applySteps steps z = z := by
  intro steps
  induction steps with
  | nil => intro z _; rfl
  | cons pr rest ih =>
    intro z h
    cases pr with
    | mk pat rep =>
      rw [applySteps_cons,
        replaceAll_of_not_occurs (h (pat, rep) (List.mem_cons_self _ rest))]
      exact ih z (fun q hq => h q (List.mem_cons_of_mem _ hq))

theorem applySteps_preserves_absent {q : List Char} (hq : q ≠ []) :
    ∀ (steps : List (List Char × List Char)) {z : List Char},
    (∀ pr ∈ steps, pr.1 ≠ [] ∧ pr.2 ≠ [] ∧ ∀ a ∈ q, a ∉ pr.2) →
    occursB q z = false → occursB q (applySteps steps z) = false := by
  intro steps
  induction steps with
  | nil => intro z _ hz; exact hz
  | cons pr rest ih =>
    intro z h hz
    cases pr with
    | mk pat rep =>
      rw [applySteps_cons]
      obtain ⟨h1, h2, h3⟩ := h (pat, rep) (List.mem_cons_self _ rest)
      exact ih (fun p hp => h p (List.mem_cons_of_mem _ hp))
        (replaceAll_preserves_absent h1 h2 hq h3 hz)

theorem applySteps_preserves_not_mem {c0 : Char}
    (steps : List (List Char × List Char)) {z : List Char}
    (h : ∀ pr ∈ steps, pr.1 ≠ [] ∧ pr.2 ≠ [] ∧ c0 ∉ pr.2)
    (hz : c0 ∉ z) : c0 ∉ applySteps steps z := by
  rw [← occursB_singleton_false] at hz ⊢
  refine applySteps_preserves_absent (by simp) steps ?_ hz
  intro pr hpr
  obtain ⟨h1, h2, h3⟩ := h pr hpr
  exact ⟨h1, h2, by simpa using h3⟩

/-- Bool-level pairwise check of the `noWsNlRel` adjacency invariant. -/
def chainOkB : List Char → Bool
  | [] => true
  | [_] => true
  | c :: d :: rest => (!(jsWs c && (d == '\n'))) && chainOkB (d :: rest)

theorem chain_of_chainOkB : ∀ (l : List Char), chainOkB l = true →
    List.Chain' noWsNlRel l := by
  intro l
  induction l with
  | nil => intro _; exact List.chain'_nil
  | cons c rest ih =>
    intro h
    cases rest with
    | nil => exact List.chain'_singleton c
    | cons d tl =>
      rw [show chainOkB (c :: d :: tl) =
          ((!(jsWs c && (d == '\n'))) && chainOkB (d :: tl)) from rfl,
        Bool.and_eq_true] at h
      obtain ⟨hp, hrest⟩ := h
      rw [List.chain'_cons]
      refine ⟨?_, ih hrest⟩
      intro hx
      have hb : (jsWs c && (d == '\n')) = true := by
        rw [hx.1]
        simp [hx.2]
      rw [hb] at hp
      exact Bool.noConfusion hp

theorem applySteps_preserves_chain :
    ∀ (steps : List (List Char × List Char)) {z : List Char},
    (∀ pr ∈ steps, pr.1 ≠ [] ∧ pr.2 ≠ [] ∧ chainOkB pr.2 = true ∧
      jsWs (pr.2.getLastD 'x') = false ∧ pr.2.headD 'x' ≠ '\n') →
    List.Chain' noWsNlRel z →
    List.Chain' noWsNlRel (applySteps steps z) := by
  intro steps
  induction steps with
  | nil => intro z _ hz; exact hz
  | cons pr rest ih =>
    intro z h hz
    cases pr with
    | mk pat rep =>
      rw [applySteps_cons]
      obtain ⟨h1, h2, h3x, h4, h5⟩ := h (pat, rep) (List.mem_cons_self _ rest)
      have h3 := chain_of_chainOkB rep h3x
      refine ih (fun p hp => h p (List.mem_cons_of_mem _ hp)) ?_
      refine replaceAll_chain h1 h2 h3 ?_ ?_ hz
      · intro a ha d hx
        rw [Option.mem_def] at ha
        have hga : rep.getLastD 'x' = a := by
          rw [List.getLastD_eq_getLast?, ha]
          rfl
        rw [hga] at h4
        rw [h4] at hx
        exact Bool.noConfusion hx.1
      · intro c b hb hx
        rw [Option.mem_def] at hb
        have hgb : rep.headD 'x' = b := by
          rw [List.headD_eq_head?, hb]
          rfl
        rw [hgb] at h5
        exact h5 hx.2

theorem applySteps_eliminates (pre post : List (List Char × List Char))
    (pat rep z : List Char)
    (h1 : pat ≠ []) (h2 : rep ≠ []) (hd : ∀ a ∈ pat, a ∉ rep)
    (hpost : ∀ pr ∈ post, pr.1 ≠ [] ∧ pr.2 ≠ [] ∧ ∀ a ∈ pat, a ∉ pr.2) :
    occursB pat (applySteps (pre ++ (pat, rep) :: post) z) = false := by
  rw [applySteps_append, applySteps_cons]
  exact applySteps_preserves_absent h1 post hpost
    (replaceAll_self_absent h1 h2 hd _)

/-- After the full mojibake chain, none of its twelve patterns occurs in
the output: each two-character repair eliminates its own pattern, later
replacements never reintroduce its characters, and the longer patterns
contain an eliminated core. -/
theorem applySteps_mojibake_absent (w : List Char) :
    ∀ pr ∈ mojibakeSteps, occursB pr.1 (applySteps mojibakeSteps w) = false := by
  have F_ae : occursB "â€".data (applySteps mojibakeSteps w) = false := by
    have h := applySteps_eliminates (mojibakeSteps.take 2)
      (mojibakeSteps.drop 3) ("â€".data) ("\"".data) w
      (by decide) (by decide) (by decide) (by decide)
    rw [← show mojibakeSteps = mojibakeSteps.take 2 ++
      ("â€".data, "\"".data) :: mojibakeSteps.drop 3 from rfl] at h
    exact h
  have F_a0 : occursB "Ã ".data (applySteps mojibakeSteps w) = false := by
    have h := applySteps_eliminates (mojibakeSteps.take 5)
      (mojibakeSteps.drop 6) ("Ã ".data) ("à".data) w
      (by decide) (by decide) (by decide) (by decide)
    rw [← show mojibakeSteps = mojibakeSteps.take 5 ++
      ("Ã ".data, "à".data) :: mojibakeSteps.drop 6 from rfl] at h
    exact h
  have F_e : occursB "Ã¨".data (applySteps mojibakeSteps w) = false := by
    have h := applySteps_eliminates (mojibakeSteps.take 6)
      (mojibakeSteps.drop 7) ("Ã¨".data) ("è".data) w
      (by decide) (by decide) (by decide) (by decide)
    rw [← show mojibakeSteps = mojibakeSteps.take 6 ++
      ("Ã¨".data, "è".data) :: mojibakeSteps.drop 7 from rfl] at h
    exact h
  have F_ea : occursB "Ã©".data (applySteps mojibakeSteps w) = false := by
    have h := applySteps_eliminates (mojibakeSteps.take 7)
      (mojibakeSteps.drop 8) ("Ã©".data) ("é".data) w
      (by decide) (by decide) (by decide) (by decide)
    rw [← show mojibakeSteps = mojibakeSteps.take 7 ++
      ("Ã©".data, "é".data) :: mojibakeSteps.drop 8 from rfl] at h
    exact h
  have F_i : occursB "Ã¬".data (applySteps mojibakeSteps w) = false := by
    have h := applySteps_eliminates (mojibakeSteps.take 8)
      (mojibakeSteps.drop 9) ("Ã¬".data) ("ì".data) w
      (by decide) (by decide) (by decide) (by decide)
    rw [← show mojibakeSteps = mojibakeSteps.take 8 ++
      ("Ã¬".data, "ì".data) :: mojibakeSteps.drop 9 from rfl] at h
    exact h
  have F_o : occursB "Ã²".data (applySteps mojibakeSteps w) = false := by
    have h := applySteps_eliminates (mojibakeSteps.take 9)
      (mojibakeSteps.drop 10) ("Ã²".data) ("ò".data) w
      (by decide) (by decide) (by decide) (by decide)
    rw [← show mojibakeSteps = mojibakeSteps.take 9 ++
      ("Ã²".data, "ò".data) :: mojibakeSteps.drop 10 from rfl] at h
    exact h
  have F_u : occursB "Ã¹".data (applySteps mojibakeSteps w) = false := by
    have h := applySteps_eliminates (mojibakeSteps.take 10)
      (mojibakeSteps.drop 11) ("Ã¹".data) ("ù".data) w
      (by decide) (by decide) (by decide) (by decide)
    rw [← show mojibakeSteps = mojibakeSteps.take 10 ++
      ("Ã¹".data, "ù".data) :: mojibakeSteps.drop 11 from rfl] at h
    exact h
  intro pr hpr
  simp only [mojibakeSteps, List.mem_cons, List.not_mem_nil, or_false] at hpr
  rcases hpr with rfl | rfl | rfl | rfl | rfl | rfl | rfl | rfl | rfl | rfl |
    rfl | rfl
  · rw [show (("â€™".data, [apos]) : List Char × List Char).1 =
      "â€".data ++ ['™'] from by decide]
    exact occursB_false_mono_right F_ae
  · rw [show (("â€œ".data, "\"".data) : List Char × List Char).1 =
      "â€".data ++ ['œ'] from by decide]
    exact occursB_false_mono_right F_ae
  · exact F_ae
  · rw [show (("â€\"".data, "—".data) : List Char × List Char).1 =
      "â€".data ++ ['"'] from by decide]
    exact occursB_false_mono_right F_ae
  · rw [show (("â€\"".data, "–".data) : List Char × List Char).1 =
      "â€".data ++ ['"'] from by decide]
    exact occursB_false_mono_right F_ae
  · exact F_a0
  · exact F_e
  · exact F_ea
  · exact F_i
  · exact F_o
  · exact F_u
  · rw [show (("piÃ¹".data, "più".data) : List Char × List Char).1 =
      "pi".data ++ "Ã¹".data from by decide]
    exact occursB_false_mono_left F_u

end HybridScriptParser

attribute [irreducible] HybridScriptParser.applySteps

namespace HybridScriptParser

open Js

/-- The list-level cleaning pipeline of page.parser.js
(`cleanScriptText` on the character list). -/
def cleanTextL (z : List Char) : List Char :=
  trimL (applySteps mojibakeSteps (replaceWsNl
    (replaceAll ['\t'] ("    ".data)
      (replaceAll ['\r'] ['\n']
        (replaceAll ['\r', '\n'] ['\n'] z)))))

theorem cleanTextL_eq (w : List Char) : cleanTextL w =
    trimL (applySteps mojibakeSteps (replaceWsNl
      (replaceAll ['\t'] ("    ".data)
        (replaceAll ['\r'] ['\n']
          (replaceAll ['\r', '\n'] ['\n'] w))))) := by
  unfold cleanTextL
  rfl

theorem cleanScriptText_eq (y : String) :
    cleanScriptText y = ⟨cleanTextL y.data⟩ := by
  unfold cleanScriptText cleanTextL
  rfl

/-- Structural facts about every cleaned text: no carriage return, no tab,
no white-space character directly before a newline, and none of the twelve
mojibake patterns. -/
theorem cleanTextL_facts (z0 : List Char) :
    '\r' ∉ cleanTextL z0 ∧
    '\t' ∉ cleanTextL z0 ∧
    List.Chain' noWsNlRel (cleanTextL z0) ∧
    ∀ pr ∈ mojibakeSteps, occursB pr.1 (cleanTextL z0) = false := by
  rw [cleanTextL_eq]
  have hd1 : (['\r'] : List Char) ≠ [] := by decide
  have hd2 : (['\n'] : List Char) ≠ [] := by decide
  have hd3 : ∀ a ∈ (['\r'] : List Char), a ∉ (['\n'] : List Char) := by decide
  have hd4 : (['\t'] : List Char) ≠ [] := by decide
  have hd5 : ("    ".data : List Char) ≠ [] := by decide
  have hd6 : ∀ a ∈ (['\r'] : List Char), a ∉ ("    ".data : List Char) := by
    decide
  have hd7 : ∀ a ∈ (['\t'] : List Char), a ∉ ("    ".data : List Char) := by
    decide
  have hd8 : ('\r' : Char) ≠ '\n' := by decide
  have hd9 : ('\t' : Char) ≠ '\n' := by decide
  have hd10 : ∀ pr ∈ mojibakeSteps, pr.1 ≠ [] ∧ pr.2 ≠ [] ∧
      '\r' ∉ pr.2 := by decide
  have hd11 : ∀ pr ∈ mojibakeSteps, pr.1 ≠ [] ∧ pr.2 ≠ [] ∧
      '\t' ∉ pr.2 := by decide
  have hd12 : ∀ pr ∈ mojibakeSteps, pr.1 ≠ [] ∧ pr.2 ≠ [] ∧
      chainOkB pr.2 = true ∧
      jsWs (pr.2.getLastD 'x') = false ∧ pr.2.headD 'x' ≠ '\n' := by decide
  have h2 : occursB ['\r'] (replaceAll ['\r'] ['\n']
      (replaceAll ['\r', '\n'] ['\n'] z0)) = false :=
    replaceAll_self_absent (by decide) hd2 hd3 _
  have h3 : occursB ['\r'] (replaceAll ['\t'] ("    ".data)
      (replaceAll ['\r'] ['\n']
        (replaceAll ['\r', '\n'] ['\n'] z0))) = false :=
    replaceAll_preserves_absent hd4 hd5 hd1 hd6 h2
  have h4 : '\r' ∉ replaceWsNl (replaceAll ['\t'] ("    ".data)
      (replaceAll ['\r'] ['\n']
        (replaceAll ['\r', '\n'] ['\n'] z0))) :=
    replaceWsNl_not_mem hd8 (occursB_singleton_false.mp h3)
  have h5 : '\r' ∉ applySteps mojibakeSteps (replaceWsNl
      (replaceAll ['\t'] ("    ".data)
        (replaceAll ['\r'] ['\n']
          (replaceAll ['\r', '\n'] ['\n'] z0)))) :=
    applySteps_preserves_not_mem mojibakeSteps hd10 h4
  have t3 : occursB ['\t'] (replaceAll ['\t'] ("    ".data)
      (replaceAll ['\r'] ['\n']
        (replaceAll ['\r', '\n'] ['\n'] z0))) = false :=
    replaceAll_self_absent hd4 hd5 hd7 _
  have t4 : '\t' ∉ replaceWsNl (replaceAll ['\t'] ("    ".data)
      (replaceAll ['\r'] ['\n']
        (replaceAll ['\r', '\n'] ['\n'] z0))) :=
    replaceWsNl_not_mem hd9 (occursB_singleton_false.mp t3)
  have t5 : '\t' ∉ applySteps mojibakeSteps (replaceWsNl
      (replaceAll ['\t'] ("    ".data)
        (replaceAll ['\r'] ['\n']
          (replaceAll ['\r', '\n'] ['\n'] z0)))) :=
    applySteps_preserves_not_mem mojibakeSteps hd11 t4
  have c5 : List.Chain' noWsNlRel (applySteps mojibakeSteps (replaceWsNl
      (replaceAll ['\t'] ("    ".data)
        (replaceAll ['\r'] ['\n']
          (replaceAll ['\r', '\n'] ['\n'] z0))))) :=
    applySteps_preserves_chain mojibakeSteps hd12
      (replaceWsNl_chain _)
  refine ⟨trimL_not_mem h5, trimL_not_mem t5, trimL_preserves_chain c5, ?_⟩
  intro pr hpr
  exact trimL_preserves_absent (applySteps_mojibake_absent _ pr hpr)

/-- Idempotence of the list-level cleaning pipeline. -/
theorem cleanTextL_idem (z : List Char) :
    cleanTextL (cleanTextL z) = cleanTextL z := by
  obtain ⟨hr, ht, hch, hsteps⟩ := cleanTextL_facts z
  rw [cleanTextL_eq (cleanTextL z)]
  rw [replaceAll_of_not_occurs (occursB_false_of_head_not_mem hr),
    replaceAll_of_not_occurs (occursB_singleton_false.mpr hr),
    replaceAll_of_not_occurs (occursB_singleton_false.mpr ht),
    replaceWsNl_id hch,
    applySteps_id_of_absent _ _ hsteps]
  rw [cleanTextL_eq z]
  exact trimL_idem _

end HybridScriptParser

namespace DocumentBasedScriptParser

/-- `cleanScriptText` of document.parser.js: line-ending canonicalization,
the identity tab "conversion" (`replace` of a tab by a tab), and the same
mojibake chain; no white-space-before-newline collapse and no final trim. -/
def cleanScriptText (text : String) : String :=
  ⟨HybridScriptParser.applySteps HybridScriptParser.mojibakeSteps
    (Js.replaceAll ['\t'] ['\t']
      (Js.replaceAll ['\r'] ['\n']
        (Js.replaceAll ['\r', '\n'] ['\n'] text.data)))⟩

/-- The list-level cleaning pipeline of document.parser.js. -/
def cleanTextDocL (z : List Char) : List Char :=
  HybridScriptParser.applySteps HybridScriptParser.mojibakeSteps
    (Js.replaceAll ['\t'] ['\t']
      (Js.replaceAll ['\r'] ['\n']
        (Js.replaceAll ['\r', '\n'] ['\n'] z)))

theorem cleanTextDocL_eq (w : List Char) : cleanTextDocL w =
    HybridScriptParser.applySteps HybridScriptParser.mojibakeSteps
      (Js.replaceAll ['\t'] ['\t']
        (Js.replaceAll ['\r'] ['\n']
          (Js.replaceAll ['\r', '\n'] ['\n'] w))) := by
  unfold cleanTextDocL
  rfl

theorem cleanScriptText_doc_eq (y : String) :
    cleanScriptText y = ⟨cleanTextDocL y.data⟩ := by
  unfold cleanScriptText cleanTextDocL
  rfl

/-- The document parser's cleaned text has no carriage return and none of
the mojibake patterns. -/
theorem cleanTextDocL_facts (z0 : List Char) :
    '\r' ∉ cleanTextDocL z0 ∧
    ∀ pr ∈ HybridScriptParser.mojibakeSteps,
      Js.occursB pr.1 (cleanTextDocL z0) = false := by
  rw [cleanTextDocL_eq]
  have h2 : Js.occursB ['\r'] (Js.replaceAll ['\r'] ['\n']
      (Js.replaceAll ['\r', '\n'] ['\n'] z0)) = false :=
    Js.replaceAll_self_absent (by decide) (by decide) (by decide) _
  have h3 : '\r' ∉ Js.replaceAll ['\t'] ['\t']
      (Js.replaceAll ['\r'] ['\n']
        (Js.replaceAll ['\r', '\n'] ['\n'] z0)) := by
    rw [Js.replaceAll_self_id]
    exact Js.occursB_singleton_false.mp h2
  refine ⟨HybridScriptParser.applySteps_preserves_not_mem _ (by decide) h3,
    ?_⟩
  intro pr hpr
  exact HybridScriptParser.applySteps_mojibake_absent _ pr hpr

/-- Idempotence of the document parser's list-level pipeline. -/
theorem cleanTextDocL_idem (z : List Char) :
    cleanTextDocL (cleanTextDocL z) = cleanTextDocL z := by
  obtain ⟨hr, hsteps⟩ := cleanTextDocL_facts z
  rw [cleanTextDocL_eq (cleanTextDocL z)]
  rw [Js.replaceAll_of_not_occurs (Js.occursB_false_of_head_not_mem hr),
    Js.replaceAll_of_not_occurs (Js.occursB_singleton_false.mpr hr),
    Js.replaceAll_self_id,
    HybridScriptParser.applySteps_id_of_absent _ _ hsteps]

end DocumentBasedScriptParser

/-- C7: text normalization is idempotent in both parsers — running
`cleanScriptText` (line-ending canonicalization, tab handling, mojibake
repair, and white-space-before-newline collapse and trim where present) a
second time returns its input unchanged, for every input string. -/
theorem C7_normalization_idempotent :
    (∀ x : String, HybridScriptParser.cleanScriptText
        (HybridScriptParser.cleanScriptText x) =
      HybridScriptParser.cleanScriptText x) ∧
    (∀ x : String, DocumentBasedScriptParser.cleanScriptText
        (DocumentBasedScriptParser.cleanScriptText x) =
      DocumentBasedScriptParser.cleanScriptText x) := by
  constructor
  · intro x
    have hdata : (HybridScriptParser.cleanScriptText x).data =
        HybridScriptParser.cleanTextL x.data := by
      rw [HybridScriptParser.cleanScriptText_eq x]
    rw [HybridScriptParser.cleanScriptText_eq
        (HybridScriptParser.cleanScriptText x),
      hdata, HybridScriptParser.cleanTextL_idem,
      HybridScriptParser.cleanScriptText_eq x]
  · intro x
    have hdata : (DocumentBasedScriptParser.cleanScriptText x).data =
        DocumentBasedScriptParser.cleanTextDocL x.data := by
      rw [DocumentBasedScriptParser.cleanScriptText_doc_eq x]
    rw [DocumentBasedScriptParser.cleanScriptText_doc_eq
        (DocumentBasedScriptParser.cleanScriptText x),
      hdata, DocumentBasedScriptParser.cleanTextDocL_idem,
      DocumentBasedScriptParser.cleanScriptText_doc_eq x]

namespace DocumentBasedScriptParser

/-- The raw form-feed chunks of the input text, the UNFILTERED
`text.split('\f')` that `extractTextPages` gates on (blank chunks
included). -/
def rawFormFeedChunks (text : String) : List String :=
  (Js.splitChar (Char.ofNat 12) text.data).map (fun l => (⟨l⟩ : String))

/-- The tier-1 page list of `extractTextPages`: the non-blank chunks,
numbered after filtering, with the raw text cleaned and the line count
taken on the uncleaned chunk. -/
def docFormFeedResult (text : String) : List DocPage :=
  (((rawFormFeedChunks text).filter (fun p => Js.trimS p ≠ "")).enum).map
    (fun p => ⟨p.1 + 1, cleanScriptText p.2, (Js.splitNl p.2).length⟩)

/-- The fallback page list of `extractTextPages`: uniform line buckets of
`Math.ceil(lineCount / totalPages)` lines each. -/
def docEstimatedResult (text : String) (totalPages : Nat) : List DocPage :=
  let allLines := Js.splitNl text
  let linesPerPage := HybridScriptParser.ceilDiv allLines.length totalPages
  (List.range totalPages).map (fun i =>
    let pageLines := (allLines.drop (i * linesPerPage)).take linesPerPage
    ⟨i + 1, cleanScriptText (Js.joinSep "\n" pageLines), pageLines.length⟩)

/-- `extractTextPages` of document.parser.js: unlike the page parser, the
acceptance test reads the RAW (unfiltered) chunk count of
`text.split('\f')`; only after committing are the blank chunks dropped. -/
def extractTextPages (text : String) (totalPages : Nat) : List DocPage :=
  let n := (rawFormFeedChunks text).length
  if 1 < n ∧ 2 * n ≤ 3 * totalPages then docFormFeedResult text
  else docEstimatedResult text totalPages

end DocumentBasedScriptParser

/-- The sample document `"a\f\f"`: one non-blank chunk but three raw
form-feed chunks. -/
def c1DocA : String := ⟨['a', Char.ofNat 12, Char.ofNat 12]⟩

/-- The sample document `"a\fb\f\f"`: two non-blank chunks but four raw
form-feed chunks. -/
def c1DocB : String := ⟨['a', Char.ofNat 12, 'b', Char.ofNat 12,
  Char.ofNat 12]⟩

/-- C1 (amended): the page parser's `extractPages` commits to the
form-feed split exactly when the number of NON-BLANK form-feed chunks is
at least 2 and at most `1.5 * declaredPageCount`, and otherwise returns
the uniform-line-estimation split; the document parser's
`extractTextPages` instead gates on the RAW `split('\f')` chunk count
(blank chunks included): it commits exactly when that raw count is at
least 2 and at most `1.5 * declaredPageCount` — so its tier choice is not
a function of the non-blank chunk count — and otherwise returns its
uniform-line fallback. -/
theorem C1_tier_selection_amended (text : String) (N : Nat) :
    (2 ≤ (HybridScriptParser.formFeedChunks text).length ∧
      2 * (HybridScriptParser.formFeedChunks text).length ≤ 3 * N →
      HybridScriptParser.extractPages text N =
        HybridScriptParser.formFeedResult text) ∧
    (¬ (2 ≤ (HybridScriptParser.formFeedChunks text).length ∧
        2 * (HybridScriptParser.formFeedChunks text).length ≤ 3 * N) →
      HybridScriptParser.extractPages text N =
        HybridScriptParser.estimatedResult text N) ∧
    (2 ≤ (DocumentBasedScriptParser.rawFormFeedChunks text).length ∧
      2 * (DocumentBasedScriptParser.rawFormFeedChunks text).length ≤
        3 * N →
      DocumentBasedScriptParser.extractTextPages text N =
        DocumentBasedScriptParser.docFormFeedResult text) ∧
    (¬ (2 ≤ (DocumentBasedScriptParser.rawFormFeedChunks text).length ∧
        2 * (DocumentBasedScriptParser.rawFormFeedChunks text).length ≤
          3 * N) →
      DocumentBasedScriptParser.extractTextPages text N =
        DocumentBasedScriptParser.docEstimatedResult text N) := by
  refine ⟨?_, ?_, ?_, ?_⟩
  · intro h
    rw [HybridScriptParser.extractPages, if_pos]
    exact ⟨by omega, h.2⟩
  · intro h
    rw [HybridScriptParser.extractPages, if_neg]
    intro hc
    exact h ⟨by omega, hc.2⟩
  · intro h
    rw [DocumentBasedScriptParser.extractTextPages, if_pos]
    exact ⟨by omega, h.2⟩
  · intro h
    rw [DocumentBasedScriptParser.extractTextPages, if_neg]
    intro hc
    exact h ⟨by omega, hc.2⟩

/-- C1 (witness): at `"a\fb"` with declared page count 2 the page parser
commits to the form-feed split; for the document parser, `"a\f\f"` with
declared page count 2 commits (3 raw chunks) although only 1 chunk is
non-blank, while `"a\fb\f\f"` falls back (4 raw chunks) although 2 chunks
are non-blank — exhibiting the raw-count gate. -/
theorem C1_tier_selection_witness :
    (HybridScriptParser.extractPages ffSample 2 =
      HybridScriptParser.formFeedResult ffSample) ∧
    (DocumentBasedScriptParser.extractTextPages c1DocA 2 =
      DocumentBasedScriptParser.docFormFeedResult c1DocA) ∧
    ((DocumentBasedScriptParser.rawFormFeedChunks c1DocA).filter
      (fun p => Js.trimS p ≠ "")).length = 1 ∧
    (DocumentBasedScriptParser.extractTextPages c1DocB 2 =
      DocumentBasedScriptParser.docEstimatedResult c1DocB 2) ∧
    ((DocumentBasedScriptParser.rawFormFeedChunks c1DocB).filter
      (fun p => Js.trimS p ≠ "")).length = 2 :=
  ⟨(C1_tier_selection_amended ffSample 2).1 (by constructor <;> decide),
   (C1_tier_selection_amended c1DocA 2).2.2.1 (by constructor <;> decide),
   by decide,
   (C1_tier_selection_amended c1DocB 2).2.2.2 (by decide),
   by decide⟩
